import Mathlib

/-!
# Trace logging and sanitizing (`bluemix/trace/trace.go`)

A shallow embedding of the Go package `trace`: the sanitizer `Sanitize`
(three regular-expression replacements) and the sink selector `NewLogger`
with its sinks.

Text is a `List Char` (a Go string holding valid UTF-8, one `Char` per rune).
-/

namespace Trace

/-! ## The regular-expression fragment used by `Sanitize`

The constructors follow the operators of Go's `regexp/syntax` that the three
patterns of `Sanitize` parse to: `OpLiteral` (with or without `FoldCase`),
`OpCharClass`, `OpStar` over a one-character class, `OpConcat`, `OpAlternate`,
`OpCapture`, `OpBeginLine` (the `^` of `(?m)`) and `OpEndText` (the `$`
without `(?m)`). -/

/-- A regular expression of the fragment. -/
inductive Regex where
  | lit (fold : Bool) (s : List Char)
  | cls (p : Char → Bool)
  | star (p : Char → Bool)
  | cat (a b : Regex)
  | alt (a b : Regex)
  | cap (n : Nat) (a : Regex)
  | beginLine
  | endText

/-- A thread of the backtracking search: `prev` is the character before the
current position (`none` at the start of the text), `taken` the characters
consumed since the match attempt began, `rest` the text still ahead and
`caps` the capture groups closed so far, the latest first. -/
structure Thread where
  prev : Option Char
  taken : List Char
  rest : List Char
  caps : List (Nat × List Char)
  deriving DecidableEq, Repr

/-- The thread after consuming the character `c`, with `cs` left. -/
def Thread.step (t : Thread) (c : Char) (cs : List Char) : Thread :=
  ⟨some c, t.taken ++ [c], cs, t.caps⟩

/-- Does the text character `c` match the pattern character `l`?  Under
`FoldCase` the character matches when it lies in the simple-case-folding
orbit of `l` (`unicode.SimpleFold`): the two ASCII cases of a letter, and in
addition the Kelvin sign U+212A for `k` and the long s U+017F for `s`. -/
def chMatch (fold : Bool) (l c : Char) : Bool :=
  if fold then
    c.toLower == l.toLower
      || (l.toLower == 'k' && c == Char.ofNat 0x212A)
      || (l.toLower == 's' && c == Char.ofNat 0x17F)
  else c == l

/-- Matching of a literal, one character after the other. -/
def runLit (fold : Bool) : List Char → Thread → List Thread
  | [], t => [t]
  | l :: ls, t =>
    match t.rest with
    | [] => []
    | c :: cs => if chMatch fold l c then runLit fold ls (t.step c cs) else []

/-- Greedy `x*` for a one-character class `x`: the longest run first, then
every shorter one down to the empty run. -/
def runStar (p : Char → Bool) (prev : Option Char) (taken : List Char)
    (caps : List (Nat × List Char)) : List Char → List Thread
  | [] => [⟨prev, taken, [], caps⟩]
  | c :: cs =>
    if p c then
      runStar p (some c) (taken ++ [c]) caps cs ++ [⟨prev, taken, c :: cs, caps⟩]
    else [⟨prev, taken, c :: cs, caps⟩]

/-- All the ways the expression matches at the thread's position, in the
order in which a backtracking search finds them (the order of preference of
Go's leftmost-first matching). -/
def run : Regex → Thread → List Thread
  | .lit f s, t => runLit f s t
  | .cls p, t =>
    match t.rest with
    | [] => []
    | c :: cs => if p c then [t.step c cs] else []
  | .star p, t => runStar p t.prev t.taken t.caps t.rest
  | .cat a b, t => (run a t).flatMap (fun u => run b u)
  | .alt a b, t => run a t ++ run b t
  | .cap n a, t =>
    (run a t).map (fun u => { u with caps := (n, u.taken.drop t.taken.length) :: u.caps })
  | .beginLine, t => if t.prev = none ∨ t.prev = some '\n' then [t] else []
  | .endText, t => if t.rest = [] then [t] else []

/-- The preferred match that starts exactly at the given position. -/
def matchAt (re : Regex) (prev : Option Char) (s : List Char) : Option Thread :=
  (run re ⟨prev, [], s, []⟩).head?

/-- The leftmost match at or after the current position: the text skipped
before it, and the thread at the end of the match. -/
def find (re : Regex) : Option Char → List Char → Option (List Char × Thread)
  | prev, [] => (matchAt re prev []).map (fun m => ([], m))
  | prev, c :: cs =>
    match matchAt re prev (c :: cs) with
    | some m => some ([], m)
    | none => (find re (some c) cs).map (fun r => (c :: r.1, r.2))

/-- An item of a replacement template: text, or `$n`. -/
inductive TItem where
  | text (s : List Char)
  | group (n : Nat)

/-- The text of capture group `n` in a finished match (`$0` is the match). -/
def Thread.group (m : Thread) : Nat → List Char
  | 0 => m.taken
  | n + 1 => ((m.caps.lookup (n + 1)).getD [])

/-- Expansion of a replacement template for one match (`Regexp.expand`). -/
def expand (repl : List TItem) (m : Thread) : List Char :=
  repl.flatMap (fun i =>
    match i with
    | .text s => s
    | .group n => m.group n)

/-- The loop of `Regexp.replaceAll`.  `start` says that the search position
is 0, `pending` holds the text between the end of the last match and the
search position (one character after an empty match, else nothing) and the
first argument bounds the number of iterations. -/
def replaceLoop (re : Regex) (repl : List TItem) :
    Nat → Bool → Option Char → List Char → List Char → List Char
  | 0, _, _, pending, s => pending ++ s
  | fuel + 1, start, prev, pending, s =>
    match find re prev s with
    | none => pending ++ s
    | some (pre, m) =>
      let unmatched := pending ++ pre
      let out := unmatched ++
        (if !(unmatched ++ m.taken).isEmpty || start then expand repl m else [])
      if (pre ++ m.taken).isEmpty then
        match s with
        | [] => out
        | c :: cs => out ++ replaceLoop re repl fuel false (some c) [c] cs
      else
        out ++ replaceLoop re repl fuel false m.prev [] m.rest

/-- `re.ReplaceAllString(src, repl)`. -/
def replaceAllString (re : Regex) (src : List Char) (repl : List TItem) : List Char :=
  replaceLoop re repl (src.length + 1) true none [] src

/-! ## `Sanitize` -/

/-- The placeholder `privateDataPlaceholder`. -/
def privateDataPlaceholder : List Char := "[PRIVATE DATA HIDDEN]".toList

/-- The class `\s` of Go: `[\t\n\f\r ]`. -/
def isSpace (c : Char) : Bool :=
  c == '\t' || c == '\n' || c == Char.ofNat 0x0C || c == '\r' || c == ' '

/-- The keyword alternation `password|token|apikey` under `(?i)`. -/
def jsonWords : Regex :=
  .alt (.lit true "password".toList) (.alt (.lit true "token".toList) (.lit true "apikey".toList))

/-- The keyword alternation `password|token|apikey|passcode` under `(?i)`. -/
def queryWords : Regex :=
  .alt (.lit true "password".toList) (.alt (.lit true "token".toList)
    (.alt (.lit true "apikey".toList) (.lit true "passcode".toList)))

/-- The pattern `(?m)^(Authorization|X-Auth\S*): .*`. -/
def headerRe : Regex :=
  .cat .beginLine
    (.cat (.cap 1 (.alt (.lit false "Authorization".toList)
        (.cat (.lit false "X-Auth".toList) (.star (fun c => !isSpace c)))))
      (.cat (.lit false ": ".toList) (.star (fun c => c != '\n'))))

/-- The pattern `(?i)(password|token|apikey|passcode)=[^&]*(&|$)`. -/
def queryRe : Regex :=
  .cat (.cap 1 queryWords)
    (.cat (.lit true "=".toList)
      (.cat (.star (fun c => c != '&')) (.cap 2 (.alt (.lit true "&".toList) .endText))))

/-- The pattern `(?i)"([^"]*(password|token|apikey)[^"_]*)":\s*"[^\,]*"`. -/
def jsonRe : Regex :=
  .cat (.lit true "\"".toList)
    (.cat (.cap 1 (.cat (.star (fun c => c != '"'))
        (.cat (.cap 2 jsonWords) (.star (fun c => c != '"' && c != '_')))))
      (.cat (.lit true "\":".toList)
        (.cat (.star isSpace)
          (.cat (.lit true "\"".toList)
            (.cat (.star (fun c => c != ',')) (.lit true "\"".toList))))))

/-- The template `"$1: " + privateDataPlaceholder`. -/
def headerRepl : List TItem := [.group 1, .text (": ".toList ++ privateDataPlaceholder)]

/-- The template `"$1=" + privateDataPlaceholder + "$2"`. -/
def queryRepl : List TItem := [.group 1, .text ("=".toList ++ privateDataPlaceholder), .group 2]

/-- The template `"$1":"[PRIVATE DATA HIDDEN]"`, the result of the `Sprintf`. -/
def jsonRepl : List TItem :=
  [.text "\"".toList, .group 1, .text ("\":\"".toList ++ privateDataPlaceholder ++ "\"".toList)]

/-- `Sanitize`: the three replacements, one after the other. -/
def Sanitize (input : List Char) : List Char :=
  let sanitized := replaceAllString headerRe input headerRepl
  let sanitized := replaceAllString queryRe sanitized queryRepl
  let sanitized := replaceAllString jsonRe sanitized jsonRepl
  sanitized

/-! ## Auxiliary definitions for the proofs -/

/-- The character before the position reached by consuming `k`. -/
def lastOr (prev : Option Char) (k : List Char) : Option Char :=
  match k.getLast? with
  | some c => some c
  | none => prev

/-- The text `k` matches the literal `l` character by character. -/
def litOk (f : Bool) (l k : List Char) : Prop :=
  List.Forall₂ (fun a c => chMatch f a c = true) l k

/-- A lower bound on the number of characters a match consumes. -/
def minLen : Regex → Nat
  | .lit _ s => s.length
  | .cls _ => 1
  | .star _ => 0
  | .cat a b => minLen a + minLen b
  | .alt a b => min (minLen a) (minLen b)
  | .cap _ a => minLen a
  | .beginLine => 0
  | .endText => 0

/-- The replacement loop from a position after the start of the text, with
nothing pending. -/
def resume (re : Regex) (repl : List TItem) (prev : Option Char) (s : List Char) : List Char :=
  replaceLoop re repl (s.length + 1) false prev [] s

/-- The thread `t` after consuming `k`, with `r` left. -/
def Thread.adv (t : Thread) (k r : List Char) : Thread :=
  ⟨lastOr t.prev k, t.taken ++ k, r, t.caps⟩

/-- The thread `v` after closing group `n`, which was opened after `len`
consumed characters. -/
def Thread.close (v : Thread) (n len : Nat) : Thread :=
  { v with caps := (n, v.taken.drop len) :: v.caps }

/-! ## Sinks

The streams the package writes to live outside it, so the embedding passes a
`World` along: the text each stream has received, which streams are closed
and how often each was asked to close.  What the package takes from its
surroundings is gathered in `Env`. -/

/-- An `io.Writer` value: the stream it stands for, and whether its dynamic
type also has a `Close` method (is an `io.WriteCloser`). -/
structure Writer where
  id : Nat
  closable : Bool
  deriving DecidableEq, Repr

/-- The state of the streams. -/
structure World where
  written : Nat → List Char
  closed : Nat → Bool
  closeCalls : Nat → Nat

/-- What the package uses and does not define: `strings.ToLower`, the
variable `terminal.ErrOutput`, the outcome of `os.OpenFile` on a path (the
message of the error, or the stream of the opened file) and the error, if
any, that the `Close` of a stream returns (given whether the stream was
closed before). -/
structure Env where
  lower : List Char → List Char
  ErrOutput : Writer
  openFile : List Char → Except (List Char) Nat
  closeErr : Nat → Bool → Option (List Char)

/-- A `Write` call on a stream: a closed stream takes nothing. -/
def World.write (w : World) (out : Writer) (text : List Char) : World :=
  if w.closed out.id then w
  else { w with written := fun j => if j = out.id then w.written j ++ text else w.written j }

/-- A `Close` call on a stream: its result, and the world after it. -/
def World.close (env : Env) (w : World) (c : Writer) : Option (List Char) × World :=
  (env.closeErr c.id (w.closed c.id),
    { w with
      closed := fun j => if j = c.id then true else w.closed j
      closeCalls := fun j => if j = c.id then w.closeCalls j + 1 else w.closeCalls j })

/-! ### `fmt.Sprintf` without operands and `log.Logger.Output` -/

/-- The function `parsenum` of package fmt: the number read, whether a digit
was read, and the text after the digits.  A number above 1e6 makes it give up
and move to the end of the text. -/
def parsenum : Nat → Bool → List Char → Nat × Bool × List Char
  | num, isnum, [] => (num, isnum, [])
  | num, isnum, c :: cs =>
    if '0' ≤ c ∧ c ≤ '9' then
      if num > 1000000 then (0, false, [])
      else parsenum (num * 10 + (c.toNat - 48)) true cs
    else (num, isnum, c :: cs)

/-- The method `argNumber` of package fmt when there are no operands: the
text after an argument index `[n]`, whether an index was found, and whether
the argument number is still good. -/
def argNumber (s : List Char) (good : Bool) : List Char × Bool × Bool :=
  match s with
  | '[' :: cs =>
    if cs.length < 2 then (cs, false, false)
    else
      match cs.span (fun c => c != ']') with
      | (inner, _ :: after) =>
        match parsenum 0 false inner with
        | (_, ok, r) => (after, ok && r.isEmpty, false)
      | (_, []) => (cs, false, false)
  | _ => (s, false, good)

/-- One formatting directive of `doPrintf`, the `%` already read, when there
are no operands: the text it writes, and the format left (`none` when the
format ended inside the directive). -/
def directive (s : List Char) : List Char × Option (List Char) :=
  let s := s.dropWhile (fun c => c == '#' || c == '0' || c == '+' || c == '-' || c == ' ')
  match argNumber s true with
  | (s, afterIndex, good) =>
    -- width
    let (out, s, afterIndex, good) :=
      match s with
      | '*' :: r => ("%!(BADWIDTH)".toList, r, false, good)
      | _ =>
        match parsenum 0 false s with
        | (_, present, r) => ([], r, afterIndex, good && !(afterIndex && present))
    -- precision
    let (out, s, afterIndex, good) :=
      match s with
      | '.' :: r =>
        match argNumber r (good && !afterIndex) with
        | (r, afterIndex, good) =>
          match r with
          | '*' :: r => (out ++ "%!(BADPREC)".toList, r, false, good)
          | _ =>
            match parsenum 0 false r with
            | (_, _, r) => (out, r, afterIndex, good)
      | _ => (out, s, afterIndex, good)
    let (s, good) :=
      if afterIndex then (s, good)
      else
        match argNumber s good with
        | (s, _, good) => (s, good)
    match s with
    | [] => (out ++ "%!(NOVERB)".toList, none)
    | verb :: r =>
      if verb == '%' then (out ++ ['%'], some r)
      else if !good then (out ++ "%!".toList ++ [verb] ++ "(BADINDEX)".toList, some r)
      else (out ++ "%!".toList ++ [verb] ++ "(MISSING)".toList, some r)

/-- The loop of `doPrintf` without operands; the first argument bounds the
number of directives. -/
def sprintfLoop : Nat → List Char → List Char
  | 0, s => s
  | n + 1, s =>
    match s.span (fun c => c != '%') with
    | (text, []) => text
    | (text, _ :: r) =>
      match directive r with
      | (out, none) => text ++ out
      | (out, some r) => text ++ out ++ sprintfLoop n r

/-- `fmt.Sprintf(format)`, with no operand. -/
def Sprintf (format : List Char) : List Char :=
  sprintfLoop (format.length + 1) format

/-- What `log.Logger.Output` writes for the message `s` when the flags are 0,
as they are for every logger of the package: the prefix, the message, and a
line feed unless the message ends in one. -/
def logOutput (pfx s : List Char) : List Char :=
  pfx ++ s ++ (if s.getLast? = some '\n' then [] else ['\n'])

/-! ### The sinks of the package -/

/-- The struct `loggerImpl`: the embedded `*log.Logger` (its output, prefix
and flags) and the field `c`. -/
structure loggerImpl where
  out : Writer
  pfx : List Char
  flag : Nat
  c : Option Writer
  deriving DecidableEq, Repr

/-- A value of the interface `Printer`: a `*NullLogger` or a `*loggerImpl`. -/
inductive Printer where
  | null
  | impl (l : loggerImpl)
  deriving DecidableEq, Repr

/-- The method `Close` of `loggerImpl`. -/
def loggerImpl.Close (env : Env) (l : loggerImpl) (w : World) : Option (List Char) × World :=
  match l.c with
  | some c => w.close env c
  | none => (none, w)

/-- The function `newLoggerImpl`: `c` is `out` when `out` is an
`io.WriteCloser`, and nil otherwise. -/
def newLoggerImpl (out : Writer) (pfx : List Char) (flag : Nat) : loggerImpl :=
  { out := out, pfx := pfx, flag := flag, c := if out.closable then some out else none }

/-- The method `Printf`, called with a format and no operand: nothing for a
`NullLogger`, one `Write` of the formatted line for a `loggerImpl`. -/
def Printer.Printf (p : Printer) (format : List Char) (w : World) : World :=
  match p with
  | .null => w
  | .impl l => w.write l.out (logOutput l.pfx (Sprintf format))

/-- The method `Print`, called with string operands. -/
def Printer.Print (p : Printer) (v : List (List Char)) (w : World) : World :=
  match p with
  | .null => w
  | .impl l => w.write l.out (logOutput l.pfx v.flatten)

/-- The method `Println`, called with string operands. -/
def Printer.Println (p : Printer) (v : List (List Char)) (w : World) : World :=
  match p with
  | .null => w
  | .impl l => w.write l.out (logOutput l.pfx ((" ".toList).intercalate v ++ ['\n']))

/-- The type assertion of a `Printer` to `Closer`: a `NullLogger` has no
method `Close`. -/
def Printer.asCloser : Printer → Option loggerImpl
  | .null => none
  | .impl l => some l

/-- Modelled from the spec: the function `T` of package i18n, which is not
among the sources, applied to the message of `NewFileLogger`.  It puts the
named parameters `Path` and `Error` into the message. -/
def T (path err : List Char) : List Char :=
  "An error occurred when creating log file '".toList ++ path ++ "':\n".toList ++ err ++
    "\n\n".toList

/-- The function `NewStdLogger`. -/
def NewStdLogger (env : Env) (w : World) : loggerImpl × World :=
  (newLoggerImpl env.ErrOutput [] 0, w)

/-- The function `NewFileLogger`. -/
def NewFileLogger (env : Env) (path : List Char) (w : World) : loggerImpl × World :=
  match env.openFile path with
  | .error err =>
    match NewStdLogger env w with
    | (logger, w) => (logger, (Printer.impl logger).Printf (T path err) w)
  | .ok file => (newLoggerImpl ⟨file, true⟩ [] 0, w)

/-- The branch that the `switch` of `NewLogger` takes. -/
inductive Choice where
  | null
  | std
  | file (path : List Char)
  deriving DecidableEq, Repr

/-- The `switch` of `NewLogger` on `strings.ToLower(bluemix_trace)`. -/
def NewLogger.choice (env : Env) (bluemix_trace : List Char) : Choice :=
  if env.lower bluemix_trace = [] ∨ env.lower bluemix_trace = "false".toList then .null
  else if env.lower bluemix_trace = "true".toList then .std
  else .file bluemix_trace

/-- The function `NewLogger`. -/
def NewLogger (env : Env) (bluemix_trace : List Char) (w : World) : Printer × World :=
  match NewLogger.choice env bluemix_trace with
  | .null => (Printer.null, w)
  | .std =>
    match NewStdLogger env w with
    | (l, w) => (Printer.impl l, w)
  | .file path =>
    match NewFileLogger env path w with
    | (l, w) => (Printer.impl l, w)

/-- Does `sub` occur in `s`? -/
def occurs (sub : List Char) : List Char → Bool
  | [] => sub.isEmpty
  | c :: cs => sub.isPrefixOf (c :: cs) || occurs sub cs

/-! ## Vocabulary of the statements -/

/-- The four keywords of the query-parameter rule; the first three are the
keywords of the JSON-field rule. -/
def queryKeywords : List (List Char) :=
  ["password".toList, "token".toList, "apikey".toList, "passcode".toList]

/-- The three keywords of the JSON-field rule. -/
def jsonKeywords : List (List Char) :=
  ["password".toList, "token".toList, "apikey".toList]

/-- The text begins with the word `w`, in any letter case. -/
def prefixFold : List Char → List Char → Bool
  | [], _ => true
  | _ :: _, [] => false
  | l :: ls, c :: cs => chMatch true l c && prefixFold ls cs

/-- The word `w` occurs somewhere in the text, in any letter case. -/
def occursFold (w : List Char) : List Char → Bool
  | [] => prefixFold w []
  | c :: cs => prefixFold w (c :: cs) || occursFold w cs

/-- Some line of the text begins with `w`; a line begins at the start of the
text (`prev = none`) and after every line feed. -/
def lineBegins (w : List Char) : Option Char → List Char → Bool
  | prev, [] => decide (prev = none ∨ prev = some '\n') && w.isPrefixOf []
  | prev, c :: cs =>
    (decide (prev = none ∨ prev = some '\n') && w.isPrefixOf (c :: cs))
      || lineBegins w (some c) cs

/-- A character of a header name after `X-Auth`: an ASCII letter, a digit or
a hyphen. -/
def isNameChar (c : Char) : Bool := c.isAlphanum || c == '-'

/-- The header names of the claim: `Authorization`, or `X-Auth` followed by
any run of ASCII letters, digits and hyphens. -/
def isHeaderName (h : List Char) : Prop :=
  h = "Authorization".toList ∨
    ∃ r, h = "X-Auth".toList ++ r ∧ ∀ c ∈ r, isNameChar c = true

/-- A character of a JSON key of the claim: an ASCII letter, a digit or an
underscore. -/
def isKeyChar (c : Char) : Bool := c.isAlphanum || c == '_'

/-- A space, a tab or a line break. -/
def isBlank (c : Char) : Bool := c == ' ' || c == '\t' || c == '\n' || c == '\r'

/-- The text begins, in any letter case, with one of the keywords of the JSON
rule, and no underscore comes after that keyword. -/
def sensitiveAt (s : List Char) : Bool :=
  jsonKeywords.any (fun w => prefixFold w s && decide ('_' ∉ s.drop w.length))

/-- The key holds, in any letter case, an occurrence of `password`, `token` or
`apikey` after which no underscore occurs in the key. -/
def sensitiveKey : List Char → Bool
  | [] => false
  | c :: cs => sensitiveAt (c :: cs) || sensitiveKey cs

/-- A secret value on which the rules other than the JSON rule find nothing
and which the JSON rule takes whole: it holds no double quote and no comma, no
line feed in it is followed by `Authorization` or `X-Auth`, and in it none of
the four keywords is followed by `=`. -/
def PlainSecret (v : List Char) : Prop :=
  '"' ∉ v ∧ ',' ∉ v ∧
    lineBegins "Authorization".toList (some '"') v = false ∧
    lineBegins "X-Auth".toList (some '"') v = false ∧
    ∀ w ∈ queryKeywords, occursFold (w ++ ['=']) v = false


/-- A world in which nothing was written and nothing is closed. -/
def World.fresh : World := ⟨fun _ => [], fun _ => false, fun _ => 0⟩

/-- ASCII lower-casing, in the place of `strings.ToLower`. -/
def asciiLower (s : List Char) : List Char := s.map Char.toLower

/-- An environment in which `terminal.ErrOutput` is stream 2 and has a `Close`
method, as `os.Stderr` has, and in which no file can be opened. -/
def envClosableErr : Env :=
  ⟨asciiLower, ⟨2, true⟩,
    fun path => .error ("open ".toList ++ path ++ ": no such file or directory".toList),
    fun _ _ => none⟩

/-- An environment in which `terminal.ErrOutput` is stream 2 and has no `Close`
method, and in which no file can be opened. -/
def envPlainErr : Env :=
  ⟨asciiLower, ⟨2, false⟩,
    fun path => .error ("open ".toList ++ path ++ ": no such file or directory".toList),
    fun _ _ => none⟩


/-- The representative of a character under case folding, for the letters of
the keywords: the lower-case letter, with the Kelvin sign taken to `k` and the
long s to `s`. -/
def foldKey (c : Char) : Char :=
  if c = Char.ofNat 0x212A then 'k' else if c = Char.ofNat 0x17F then 's' else c.toLower

/-- A pattern character that matches, under case folding, exactly the
characters whose representative it is. -/
def niceChar (l : Char) : Bool :=
  l.toLower == l && l != Char.ofNat 0x212A && l != Char.ofNat 0x17F



/-- Every keyword followed by `=` in the text is followed by the placeholder
and then by `&` or the end of the text. -/
def QClean (s : List Char) : Prop :=
  ∀ pre kw r, kw.map foldKey ∈ queryKeywords → s = pre ++ (kw ++ '=' :: r) →
    ∃ r', r = privateDataPlaceholder ++ r' ∧ (r' = [] ∨ ∃ r'', r' = '&' :: r'')

/-- No keyword begins at the head of the text `x`, whatever follows it: the
first character begins no keyword, or the first two begin none. -/
def noKwStart (x : List Char) : Bool :=
  !x.isEmpty && queryKeywords.all (fun w =>
    (x.take 1).map foldKey != w.take 1
      || (decide (2 ≤ x.length) && (x.take 2).map foldKey != w.take 2))


/-- A header name as the header pattern takes it: `Authorization`, or
`X-Auth` followed by characters that are no white space. -/
def HeaderName (h : List Char) : Prop :=
  h = "Authorization".toList ∨ ∃ k, h = "X-Auth".toList ++ k ∧ ∀ c ∈ k, (!isSpace c) = true

/-- Every header line of the text, the first line taken to begin after
`prev`, holds the placeholder as its value. -/
def HCleanAt (prev : Option Char) (s : List Char) : Prop :=
  ∀ pre name r, (lastOr prev pre = none ∨ lastOr prev pre = some '\n') → HeaderName name →
    s = pre ++ (name ++ ':' :: ' ' :: r) →
    ∃ r', r = privateDataPlaceholder ++ r' ∧ (r' = [] ∨ ∃ r'', r' = '\n' :: r'')












/-! ## Lemmas and theorems -/

@[simp] theorem lastOr_nil (p : Option Char) : lastOr p [] = p := rfl

@[simp] theorem lastOr_concat (p : Option Char) (k : List Char) (c : Char) :
    lastOr p (k ++ [c]) = some c := by
  simp [lastOr]

theorem lastOr_cons (p : Option Char) (c : Char) (k : List Char) :
    lastOr p (c :: k) = lastOr (some c) k := by
  cases k with
  | nil => simp [lastOr]
  | cons d ds =>
    have h : (c :: d :: ds).getLast? = (d :: ds).getLast? := List.getLast?_cons_cons
    have h2 : (d :: ds).getLast? = some ((d :: ds).getLast (by simp)) :=
      List.getLast?_eq_getLast _ _
    simp only [lastOr, h, h2]

theorem lastOr_append (p : Option Char) (k1 k2 : List Char) :
    lastOr p (k1 ++ k2) = lastOr (lastOr p k1) k2 := by
  induction k1 generalizing p with
  | nil => simp
  | cons c cs ih => 
    rw [List.cons_append, lastOr_cons, ih, lastOr_cons]

theorem mem_runLit {f : Bool} {l : List Char} {t u : Thread} (h : u ∈ runLit f l t) :
    ∃ k, litOk f l k ∧ t.rest = k ++ u.rest ∧ u.taken = t.taken ++ k ∧
      u.caps = t.caps ∧ u.prev = lastOr t.prev k := by
  induction l generalizing t with
  | nil =>
    simp [runLit] at h
    subst h
    exact ⟨[], List.Forall₂.nil, by simp, by simp, rfl, by simp⟩
  | cons a l ih =>
    obtain ⟨p, tk, r, cp⟩ := t
    cases r with
    | nil => simp [runLit] at h
    | cons c cs =>
      simp only [runLit] at h
      split at h
      · rename_i hc
        obtain ⟨k, hk, h1, h2, h3, h4⟩ := ih h
        refine ⟨c :: k, List.Forall₂.cons hc hk, ?_, ?_, ?_, ?_⟩
        · simpa [Thread.step] using h1
        · simpa [Thread.step] using h2
        · simpa [Thread.step] using h3
        · rw [lastOr_cons]; simpa [Thread.step] using h4
      · simp at h

theorem runLit_append {f : Bool} {l k : List Char} (h : litOk f l k)
    (p : Option Char) (tk r : List Char) (cp : List (Nat × List Char)) :
    runLit f l ⟨p, tk, k ++ r, cp⟩ = [⟨lastOr p k, tk ++ k, r, cp⟩] := by
  induction h generalizing p tk with
  | nil => simp [runLit]
  | cons hc _ ih =>
    rename_i a c l k
    simp only [runLit, List.cons_append, hc, if_true, Thread.step]
    rw [ih, lastOr_cons]
    simp

theorem mem_runStar {p : Char → Bool} {pv : Option Char} {tk : List Char}
    {cp : List (Nat × List Char)} {s : List Char} {u : Thread} :
    u ∈ runStar p pv tk cp s ↔
      ∃ k, (∀ c ∈ k, p c = true) ∧ s = k ++ u.rest ∧ u.taken = tk ++ k ∧
        u.caps = cp ∧ u.prev = lastOr pv k := by
  induction s generalizing pv tk with
  | nil =>
    simp only [runStar, List.mem_singleton]
    constructor
    · rintro rfl
      exact ⟨[], by simp, by simp, by simp, rfl, by simp⟩
    · rintro ⟨k, -, h1, h2, h3, h4⟩
      have hk : k = [] := by
        cases k with
        | nil => rfl
        | cons _ _ => simp at h1
      subst hk
      obtain ⟨a, b, c, d⟩ := u
      simp at h1 h2 h3 h4
      simp [h1, h2, h3, h4]
  | cons c cs ih =>
    have base : u = ⟨pv, tk, c :: cs, cp⟩ ↔
        ((∀ x ∈ ([] : List Char), p x = true) ∧ c :: cs = [] ++ u.rest ∧ u.taken = tk ++ [] ∧
          u.caps = cp ∧ u.prev = lastOr pv []) := by
      obtain ⟨a, b, r, d⟩ := u
      simp
      constructor
      · rintro ⟨rfl, rfl, rfl, rfl⟩; simp
      · rintro ⟨h1, h2, h3, h4⟩; simp [h1, h2, h3, h4]
    simp only [runStar]
    split
    · rename_i hc
      rw [List.mem_append, ih, List.mem_singleton, base]
      constructor
      · rintro (⟨k, hk, h1, h2, h3, h4⟩ | h)
        · refine ⟨c :: k, ?_, ?_, ?_, h3, ?_⟩
          · intro x hx
            rcases List.mem_cons.1 hx with rfl | hx
            · exact hc
            · exact hk x hx
          · simp [h1]
          · simp [h2]
          · rw [lastOr_cons]; exact h4
        · exact ⟨[], h⟩
      · rintro ⟨k, hk, h1, h2, h3, h4⟩
        cases k with
        | nil => exact Or.inr ⟨hk, h1, h2, h3, h4⟩
        | cons d ds =>
          simp at h1
          obtain ⟨rfl, h1⟩ := h1
          refine Or.inl ⟨ds, fun x hx => hk x (List.mem_cons_of_mem _ hx), h1, ?_, h3, ?_⟩
          · simp [h2]
          · rw [← lastOr_cons]; exact h4
    · rename_i hc
      rw [List.mem_singleton, base]
      constructor
      · intro h; exact ⟨[], h⟩
      · rintro ⟨k, hk, h1, h2, h3, h4⟩
        cases k with
        | nil => exact ⟨hk, h1, h2, h3, h4⟩
        | cons d ds =>
          simp at h1
          obtain ⟨rfl, -⟩ := h1
          exact absurd (hk c (List.mem_cons_self _ _)) hc


theorem litOk_length {f : Bool} {l k : List Char} (h : litOk f l k) : k.length = l.length :=
  (List.Forall₂.length_eq h).symm

theorem run_frame {re : Regex} {t u : Thread} (h : u ∈ run re t) :
    ∃ k, t.rest = k ++ u.rest ∧ u.taken = t.taken ++ k ∧ u.prev = lastOr t.prev k ∧
      minLen re ≤ k.length := by
  induction re generalizing t u with
  | lit f s =>
    obtain ⟨k, hk, h1, h2, -, h4⟩ := mem_runLit h
    exact ⟨k, h1, h2, h4, by simp [minLen, litOk_length hk]⟩
  | cls p =>
    obtain ⟨pv, tk, r, cp⟩ := t
    cases r with
    | nil => simp [run] at h
    | cons c cs =>
      simp only [run] at h
      split at h
      · simp only [List.mem_singleton] at h
        subst h
        exact ⟨[c], by simp [Thread.step], by simp [Thread.step], by simp [Thread.step, lastOr],
          by simp [minLen]⟩
      · simp at h
  | star p =>
    simp only [run] at h
    obtain ⟨k, -, h1, h2, -, h4⟩ := mem_runStar.1 h
    exact ⟨k, h1, h2, h4, by simp [minLen]⟩
  | cat a b iha ihb =>
    simp only [run, List.mem_flatMap] at h
    obtain ⟨v, hv, hu⟩ := h
    obtain ⟨k1, a1, a2, a3, a4⟩ := iha hv
    obtain ⟨k2, b1, b2, b3, b4⟩ := ihb hu
    refine ⟨k1 ++ k2, ?_, ?_, ?_, ?_⟩
    · rw [a1, b1, List.append_assoc]
    · rw [b2, a2, List.append_assoc]
    · rw [b3, a3, lastOr_append]
    · simp only [minLen, List.length_append]; omega
  | alt a b iha ihb =>
    simp only [run, List.mem_append] at h
    rcases h with h | h
    · obtain ⟨k, h1, h2, h3, h4⟩ := iha h
      exact ⟨k, h1, h2, h3, by simp only [minLen]; omega⟩
    · obtain ⟨k, h1, h2, h3, h4⟩ := ihb h
      exact ⟨k, h1, h2, h3, by simp only [minLen]; omega⟩
  | cap n a ih =>
    simp only [run, List.mem_map] at h
    obtain ⟨v, hv, rfl⟩ := h
    obtain ⟨k, h1, h2, h3, h4⟩ := ih hv
    exact ⟨k, h1, h2, h3, h4⟩
  | beginLine =>
    simp only [run] at h
    split at h
    · simp only [List.mem_singleton] at h
      subst h
      exact ⟨[], by simp, by simp, by simp, by simp [minLen]⟩
    · simp at h
  | endText =>
    simp only [run] at h
    split at h
    · simp only [List.mem_singleton] at h
      subst h
      exact ⟨[], by simp, by simp, by simp, by simp [minLen]⟩
    · simp at h

theorem matchAt_frame {re : Regex} {prev : Option Char} {s : List Char} {m : Thread}
    (h : matchAt re prev s = some m) :
    s = m.taken ++ m.rest ∧ m.prev = lastOr prev m.taken ∧ minLen re ≤ m.taken.length := by
  have hm : m ∈ run re ⟨prev, [], s, []⟩ := List.mem_of_mem_head? h
  obtain ⟨k, h1, h2, h3, h4⟩ := run_frame hm
  simp only [List.nil_append] at h1 h2 h3
  subst h2
  exact ⟨h1, h3, h4⟩

theorem find_frame {re : Regex} {prev : Option Char} {s pre : List Char} {m : Thread}
    (h : find re prev s = some (pre, m)) :
    s = pre ++ m.taken ++ m.rest ∧ m.prev = lastOr prev (pre ++ m.taken) ∧
      minLen re ≤ m.taken.length := by
  induction s generalizing prev pre with
  | nil =>
    simp only [find, Option.map_eq_some'] at h
    obtain ⟨m', hm, heq⟩ := h
    simp only [Prod.mk.injEq] at heq
    obtain ⟨rfl, rfl⟩ := heq
    obtain ⟨h1, h2, h3⟩ := matchAt_frame hm
    exact ⟨by simpa using h1, by simpa using h2, h3⟩
  | cons c cs ih =>
    simp only [find] at h
    split at h
    · rename_i m' hm
      simp only [Option.some.injEq, Prod.mk.injEq] at h
      obtain ⟨rfl, rfl⟩ := h
      obtain ⟨h1, h2, h3⟩ := matchAt_frame hm
      exact ⟨by simpa using h1, by simpa using h2, h3⟩
    · simp only [Option.map_eq_some'] at h
      obtain ⟨⟨pre', m'⟩, hf, heq⟩ := h
      simp only [Prod.mk.injEq] at heq
      obtain ⟨rfl, rfl⟩ := heq
      obtain ⟨h1, h2, h3⟩ := ih hf
      refine ⟨by simp [h1], ?_, h3⟩
      rw [List.cons_append, lastOr_cons]; exact h2

theorem isEmpty_append_of_ne {a b : List Char} (h : b ≠ []) : (a ++ b).isEmpty = false := by
  cases a with
  | nil =>
    cases b with
    | nil => exact absurd rfl h
    | cons _ _ => rfl
  | cons _ _ => rfl

theorem replaceLoop_none {re : Regex} (repl : List TItem) (n : Nat) (b : Bool)
    {prev : Option Char} (pending : List Char) {s : List Char} (hf : find re prev s = none) :
    replaceLoop re repl (n + 1) b prev pending s = pending ++ s := by
  rw [replaceLoop, hf]

theorem replaceLoop_step {re : Regex} (repl : List TItem) (n : Nat) (b : Bool)
    {prev : Option Char} (pending : List Char) {s pre : List Char} {m : Thread}
    (hf : find re prev s = some (pre, m)) (hne1 : m.taken ≠ []) :
    replaceLoop re repl (n + 1) b prev pending s =
      pending ++ pre ++ expand repl m ++ replaceLoop re repl n false m.prev [] m.rest := by
  rw [replaceLoop, hf]
  simp only [isEmpty_append_of_ne hne1, Bool.not_false, Bool.true_or, if_true,
    Bool.false_eq_true, if_false]

theorem taken_ne_nil {re : Regex} (hne : 0 < minLen re) {m : Thread}
    (h : minLen re ≤ m.taken.length) : m.taken ≠ [] := by
  intro h0
  rw [h0] at h
  simp at h
  omega

theorem replaceLoop_fuel {re : Regex} (hne : 0 < minLen re) (repl : List TItem)
    (n1 n2 : Nat) (b1 b2 : Bool) (prev : Option Char) (pending s : List Char)
    (h1 : s.length + 1 ≤ n1) (h2 : s.length + 1 ≤ n2) :
    replaceLoop re repl n1 b1 prev pending s = replaceLoop re repl n2 b2 prev pending s := by
  induction n1 generalizing n2 b1 b2 prev pending s with
  | zero => omega
  | succ n1 ih =>
    cases n2 with
    | zero => omega
    | succ n2 =>
      cases hf : find re prev s with
      | none => rw [replaceLoop_none repl n1 b1 pending hf, replaceLoop_none repl n2 b2 pending hf]
      | some r =>
        obtain ⟨pre, m⟩ := r
        obtain ⟨e1, e2, e3⟩ := find_frame hf
        have hne1 := taken_ne_nil hne e3
        have hl : m.rest.length < s.length := by
          rw [e1]; simp only [List.length_append]; omega
        rw [replaceLoop_step repl n1 b1 pending hf hne1,
          replaceLoop_step repl n2 b2 pending hf hne1,
          ih n2 false false m.prev [] m.rest (by omega) (by omega)]

theorem replaceAllString_eq_resume {re : Regex} (hne : 0 < minLen re) (repl : List TItem)
    (s : List Char) : replaceAllString re s repl = resume re repl none s :=
  replaceLoop_fuel hne repl _ _ _ _ _ _ _ (Nat.le_refl _) (Nat.le_refl _)

theorem resume_nil {re : Regex} (hne : 0 < minLen re) (repl : List TItem) (prev : Option Char) :
    resume re repl prev [] = [] := by
  cases hf : find re prev [] with
  | none => rw [resume, replaceLoop_none repl _ false [] hf]; rfl
  | some r =>
    obtain ⟨pre, m⟩ := r
    obtain ⟨e1, -, e3⟩ := find_frame hf
    have : m.taken.length = 0 := by
      have := congrArg List.length e1
      simp only [List.length_nil, List.length_append] at this
      omega
    omega

theorem resume_hit {re : Regex} (hne : 0 < minLen re) (repl : List TItem) {prev : Option Char}
    {s : List Char} {m : Thread} (h : matchAt re prev s = some m) :
    resume re repl prev s = expand repl m ++ resume re repl m.prev m.rest := by
  have hf : find re prev s = some ([], m) := by
    cases s with
    | nil => simp [find, h]
    | cons c cs => simp [find, h]
  obtain ⟨e1, e2, e3⟩ := find_frame hf
  have hne1 := taken_ne_nil hne e3
  have hl : m.rest.length < s.length := by
    rw [e1]; simp only [List.length_append]; omega
  rw [resume, replaceLoop_step repl _ false [] hf hne1, resume,
    replaceLoop_fuel hne repl s.length (m.rest.length + 1) false false m.prev [] m.rest
      (by omega) (Nat.le_refl _)]
  simp

theorem resume_skip {re : Regex} (hne : 0 < minLen re) (repl : List TItem) {prev : Option Char}
    {c : Char} {cs : List Char} (h : matchAt re prev (c :: cs) = none) :
    resume re repl prev (c :: cs) = c :: resume re repl (some c) cs := by
  cases hf : find re (some c) cs with
  | none =>
    have hf2 : find re prev (c :: cs) = none := by simp [find, h, hf]
    rw [resume, replaceLoop_none repl _ false [] hf2, resume, replaceLoop_none repl _ false [] hf]
    rfl
  | some r =>
    obtain ⟨pre, m⟩ := r
    have hf2 : find re prev (c :: cs) = some (c :: pre, m) := by simp [find, h, hf]
    obtain ⟨e1, e2, e3⟩ := find_frame hf
    have hne1 := taken_ne_nil hne e3
    have hl : m.rest.length < cs.length := by
      rw [e1]; simp only [List.length_append]; omega
    rw [resume, replaceLoop_step repl _ false [] hf2 hne1, resume,
      replaceLoop_step repl _ false [] hf hne1,
      replaceLoop_fuel hne repl (c :: cs).length cs.length false false m.prev [] m.rest
        (by simp; omega) (by omega)]
    simp

/-- Where no match starts at any position, the text is returned as it is. -/
theorem resume_id {re : Regex} (hne : 0 < minLen re) (repl : List TItem) (prev : Option Char)
    (s : List Char)
    (h : ∀ pre suf, s = pre ++ suf → matchAt re (lastOr prev pre) suf = none) :
    resume re repl prev s = s := by
  induction s generalizing prev with
  | nil => exact resume_nil hne repl prev
  | cons c cs ih =>
    have h0 : matchAt re prev (c :: cs) = none := h [] (c :: cs) rfl
    rw [resume_skip hne repl h0, ih]
    intro pre suf hs
    have := h (c :: pre) suf (by rw [hs]; rfl)
    rwa [lastOr_cons] at this

/-! ### Where a match can start -/

theorem litOk_false_eq {l k : List Char} (h : litOk false l k) : k = l := by
  induction h with
  | nil => rfl
  | cons hc _ ih =>
    simp only [chMatch, Bool.false_eq_true, if_false, beq_iff_eq] at hc
    rw [hc, ih]

theorem prefixFold_of_litOk {l k : List Char} (h : litOk true l k) (r : List Char) :
    prefixFold l (k ++ r) = true := by
  induction h with
  | nil => simp [prefixFold]
  | cons hc _ ih => simp [prefixFold, hc, ih]

theorem occursFold_of_head {w s : List Char} (h : prefixFold w s = true) :
    occursFold w s = true := by
  cases s with
  | nil => simpa [occursFold] using h
  | cons c cs => simp [occursFold, h]

theorem occursFold_append_left (w a s : List Char) (h : occursFold w s = true) :
    occursFold w (a ++ s) = true := by
  induction a with
  | nil => simpa using h
  | cons c cs ih => simp [occursFold, ih]

theorem occursFold_suffix {w : List Char} {s : List Char} (h : occursFold w s = false)
    (pre suf : List Char) (hs : s = pre ++ suf) : occursFold w suf = false := by
  cases hsuf : occursFold w suf with
  | false => rfl
  | true =>
    rw [hs, occursFold_append_left w pre suf hsuf] at h
    exact absurd h (by simp)

theorem lineBegins_split {w : List Char} {prev : Option Char} {s : List Char}
    (h : lineBegins w prev s = false) (pre suf : List Char) (hs : s = pre ++ suf) :
    ¬((lastOr prev pre = none ∨ lastOr prev pre = some '\n') ∧ w.isPrefixOf suf = true) := by
  induction pre generalizing prev s with
  | nil =>
    simp only [List.nil_append] at hs
    subst hs
    rintro ⟨hp, hw⟩
    simp only [lastOr_nil] at hp
    cases s with
    | nil =>
      simp only [lineBegins, hw, Bool.and_true, decide_eq_false_iff_not] at h
      exact h hp
    | cons c cs =>
      simp only [lineBegins, hw, Bool.and_true, Bool.or_eq_false_iff,
        decide_eq_false_iff_not] at h
      exact h.1 hp
  | cons c cs ih =>
    subst hs
    simp only [List.cons_append, lineBegins, Bool.or_eq_false_iff] at h
    rw [lastOr_cons]
    exact ih h.2 rfl

theorem isPrefixOf_append (l r : List Char) : l.isPrefixOf (l ++ r) = true := by
  induction l with
  | nil => simp
  | cons c cs ih => simp [List.isPrefixOf, ih]

theorem mem_run_cat {a b : Regex} {t u : Thread} :
    u ∈ run (.cat a b) t ↔ ∃ v, v ∈ run a t ∧ u ∈ run b v := by
  simp [run, List.mem_flatMap]

theorem mem_run_alt {a b : Regex} {t u : Thread} :
    u ∈ run (.alt a b) t ↔ u ∈ run a t ∨ u ∈ run b t := by
  simp [run]

theorem mem_run_cap {n : Nat} {a : Regex} {t u : Thread} :
    u ∈ run (.cap n a) t ↔
      ∃ v, v ∈ run a t ∧ u = { v with caps := (n, v.taken.drop t.taken.length) :: v.caps } := by
  simp only [run, List.mem_map]
  constructor
  · rintro ⟨v, hv, rfl⟩; exact ⟨v, hv, rfl⟩
  · rintro ⟨v, hv, rfl⟩; exact ⟨v, hv, rfl⟩

theorem mem_run_lit {f : Bool} {l : List Char} {t u : Thread} (h : u ∈ run (.lit f l) t) :
    ∃ k, litOk f l k ∧ t.rest = k ++ u.rest ∧ u.taken = t.taken ++ k ∧
      u.caps = t.caps ∧ u.prev = lastOr t.prev k :=
  mem_runLit h

theorem mem_run_beginLine {t u : Thread} :
    u ∈ run .beginLine t ↔ u = t ∧ (t.prev = none ∨ t.prev = some '\n') := by
  simp only [run]
  split <;> simp_all

theorem headerRe_start {prev : Option Char} {s : List Char} {m : Thread}
    (h : matchAt headerRe prev s = some m) :
    (prev = none ∨ prev = some '\n') ∧
      ("Authorization".toList.isPrefixOf s = true ∨ "X-Auth".toList.isPrefixOf s = true) := by
  have hm : m ∈ run headerRe ⟨prev, [], s, []⟩ := List.mem_of_mem_head? h
  rw [headerRe, mem_run_cat] at hm
  obtain ⟨v, hv, hm⟩ := hm
  rw [mem_run_beginLine] at hv
  obtain ⟨rfl, hp⟩ := hv
  refine ⟨hp, ?_⟩
  rw [mem_run_cat] at hm
  obtain ⟨v, hv, -⟩ := hm
  rw [mem_run_cap] at hv
  obtain ⟨v', hv', -⟩ := hv
  rw [mem_run_alt] at hv'
  rcases hv' with hv' | hv'
  · obtain ⟨k, hk, h1, -⟩ := mem_run_lit hv'
    left
    simp only at h1
    rw [h1, litOk_false_eq hk]
    exact isPrefixOf_append _ _
  · rw [mem_run_cat] at hv'
    obtain ⟨v2, hv2, -⟩ := hv'
    obtain ⟨k, hk, h1, -⟩ := mem_run_lit hv2
    right
    simp only at h1
    rw [h1, litOk_false_eq hk]
    exact isPrefixOf_append _ _

theorem queryWords_start {t u : Thread} (h : u ∈ run queryWords t) :
    ∃ w ∈ queryKeywords, ∃ k, litOk true w k ∧ t.rest = k ++ u.rest ∧
      u.taken = t.taken ++ k ∧ u.caps = t.caps ∧ u.prev = lastOr t.prev k := by
  simp only [queryWords, mem_run_alt] at h
  rcases h with h | h | h | h
  · exact ⟨_, by simp [queryKeywords], mem_run_lit h⟩
  · exact ⟨_, by simp [queryKeywords], mem_run_lit h⟩
  · exact ⟨_, by simp [queryKeywords], mem_run_lit h⟩
  · exact ⟨_, by simp [queryKeywords], mem_run_lit h⟩

theorem jsonWords_start {t u : Thread} (h : u ∈ run jsonWords t) :
    ∃ w ∈ jsonKeywords, ∃ k, litOk true w k ∧ t.rest = k ++ u.rest ∧
      u.taken = t.taken ++ k ∧ u.caps = t.caps ∧ u.prev = lastOr t.prev k := by
  simp only [jsonWords, mem_run_alt] at h
  rcases h with h | h | h
  · exact ⟨_, by simp [jsonKeywords], mem_run_lit h⟩
  · exact ⟨_, by simp [jsonKeywords], mem_run_lit h⟩
  · exact ⟨_, by simp [jsonKeywords], mem_run_lit h⟩

theorem queryRe_start {prev : Option Char} {s : List Char} {m : Thread}
    (h : matchAt queryRe prev s = some m) :
    ∃ w ∈ queryKeywords, prefixFold (w ++ ['=']) s = true := by
  have hm : m ∈ run queryRe ⟨prev, [], s, []⟩ := List.mem_of_mem_head? h
  rw [queryRe, mem_run_cat] at hm
  obtain ⟨v, hv, hm⟩ := hm
  rw [mem_run_cap] at hv
  obtain ⟨v', hv', rfl⟩ := hv
  obtain ⟨w, hw, k, hk, h1, -⟩ := queryWords_start hv'
  rw [mem_run_cat] at hm
  obtain ⟨v2, hv2, -⟩ := hm
  obtain ⟨k2, hk2, h2, -⟩ := mem_run_lit hv2
  refine ⟨w, hw, ?_⟩
  simp only at h1 h2
  rw [h1, h2, ← List.append_assoc]
  exact prefixFold_of_litOk (List.rel_append hk hk2) _

theorem jsonRe_start {prev : Option Char} {s : List Char} {m : Thread}
    (h : matchAt jsonRe prev s = some m) :
    ∃ w ∈ jsonKeywords, occursFold w s = true := by
  have hm : m ∈ run jsonRe ⟨prev, [], s, []⟩ := List.mem_of_mem_head? h
  rw [jsonRe, mem_run_cat] at hm
  obtain ⟨v, hv, hm⟩ := hm
  obtain ⟨k0, -, h0, -⟩ := mem_run_lit hv
  rw [mem_run_cat] at hm
  obtain ⟨v1, hv1, -⟩ := hm
  rw [mem_run_cap] at hv1
  obtain ⟨v2, hv2, -⟩ := hv1
  rw [mem_run_cat] at hv2
  obtain ⟨v3, hv3, hv2⟩ := hv2
  obtain ⟨k3, h3, -⟩ := run_frame hv3
  rw [mem_run_cat] at hv2
  obtain ⟨v4, hv4, -⟩ := hv2
  rw [mem_run_cap] at hv4
  obtain ⟨v5, hv5, -⟩ := hv4
  obtain ⟨w, hw, k, hk, h1, -⟩ := jsonWords_start hv5
  refine ⟨w, hw, ?_⟩
  simp only at h0
  rw [h0, h3, h1]
  apply occursFold_append_left
  apply occursFold_append_left
  exact occursFold_of_head (prefixFold_of_litOk hk _)

theorem minLen_headerRe : 0 < minLen headerRe := by decide

theorem minLen_queryRe : 0 < minLen queryRe := by decide

theorem minLen_jsonRe : 0 < minLen jsonRe := by decide

theorem prefixFold_append_left {w e s : List Char} (h : prefixFold (w ++ e) s = true) :
    prefixFold w s = true := by
  induction w generalizing s with
  | nil => simp [prefixFold]
  | cons l ls ih =>
    cases s with
    | nil => simp [prefixFold] at h
    | cons c cs =>
      simp only [List.cons_append, prefixFold, Bool.and_eq_true] at h ⊢
      exact ⟨h.1, ih h.2⟩

/-- The header rule leaves a text alone in which no line begins with a header name. -/
theorem headerRe_id (prev : Option Char) (s : List Char)
    (hA : lineBegins "Authorization".toList prev s = false)
    (hX : lineBegins "X-Auth".toList prev s = false) :
    resume headerRe headerRepl prev s = s := by
  apply resume_id minLen_headerRe
  intro pre suf hs
  cases hm : matchAt headerRe (lastOr prev pre) suf with
  | none => rfl
  | some m =>
    obtain ⟨hp, h | h⟩ := headerRe_start hm
    · exact absurd ⟨hp, h⟩ (lineBegins_split hA pre suf hs)
    · exact absurd ⟨hp, h⟩ (lineBegins_split hX pre suf hs)

/-- The query rule leaves a text alone in which no keyword is followed by `=`. -/
theorem queryRe_id (prev : Option Char) (s : List Char)
    (hw : ∀ w ∈ queryKeywords, occursFold (w ++ ['=']) s = false) :
    resume queryRe queryRepl prev s = s := by
  apply resume_id minLen_queryRe
  intro pre suf hs
  cases hm : matchAt queryRe (lastOr prev pre) suf with
  | none => rfl
  | some m =>
    obtain ⟨w, hw1, hw2⟩ := queryRe_start hm
    have := occursFold_suffix (hw w hw1) pre suf hs
    rw [occursFold_of_head hw2] at this
    exact absurd this (by simp)

/-- The JSON rule leaves a text alone in which none of its keywords occurs. -/
theorem jsonRe_id (prev : Option Char) (s : List Char)
    (hw : ∀ w ∈ jsonKeywords, occursFold w s = false) :
    resume jsonRe jsonRepl prev s = s := by
  apply resume_id minLen_jsonRe
  intro pre suf hs
  cases hm : matchAt jsonRe (lastOr prev pre) suf with
  | none => rfl
  | some m =>
    obtain ⟨w, hw1, hw2⟩ := jsonRe_start hm
    have := occursFold_suffix (hw w hw1) pre suf hs
    rw [hw2] at this
    exact absurd this (by simp)

theorem occursFold_append_word {w e s : List Char} (h : occursFold w s = false) :
    occursFold (w ++ e) s = false := by
  induction s with
  | nil =>
    cases hp : prefixFold (w ++ e) [] with
    | false => simpa [occursFold] using hp
    | true =>
      have := prefixFold_append_left hp
      simp [occursFold, this] at h
  | cons c cs ih =>
    simp only [occursFold, Bool.or_eq_false_iff] at h ⊢
    refine ⟨?_, ih h.2⟩
    cases hp : prefixFold (w ++ e) (c :: cs) with
    | false => rfl
    | true =>
      have := prefixFold_append_left hp
      rw [this] at h
      exact absurd h.1 (by simp)

theorem Sanitize_eq (s : List Char) :
    Sanitize s = resume jsonRe jsonRepl none
      (resume queryRe queryRepl none (resume headerRe headerRepl none s)) := by
  simp only [Sanitize, replaceAllString_eq_resume minLen_headerRe,
    replaceAllString_eq_resume minLen_queryRe, replaceAllString_eq_resume minLen_jsonRe]

/-- C10: a text that holds none of the words `password`, `token`, `apikey`,
`passcode` in any letter case (letter case being Unicode simple case folding,
under which the Kelvin sign is a `k` and the long s an `s`), and in which no
line begins with `Authorization` or `X-Auth`, is returned unchanged by
`Sanitize`. -/
theorem Sanitize_no_trigger (s : List Char)
    (hw : ∀ w ∈ queryKeywords, occursFold w s = false)
    (hA : lineBegins "Authorization".toList none s = false)
    (hX : lineBegins "X-Auth".toList none s = false) :
    Sanitize s = s := by
  rw [Sanitize_eq, headerRe_id none s hA hX,
    queryRe_id none s (fun w h => occursFold_append_word (hw w h)),
    jsonRe_id none s (fun w h => hw w (by
      simp only [jsonKeywords, List.mem_cons, List.mem_singleton, List.not_mem_nil, or_false] at h
      simp only [queryKeywords, List.mem_cons, List.mem_singleton, List.not_mem_nil, or_false]
      rcases h with h | h | h
      · exact Or.inl h
      · exact Or.inr (Or.inl h)
      · exact Or.inr (Or.inr (Or.inl h))))]

/-- C10 at the lower-case header line of the claim. -/
theorem Sanitize_no_trigger_witness :
    Sanitize "authorization: Bearer abc123".toList = "authorization: Bearer abc123".toList :=
  Sanitize_no_trigger "authorization: Bearer abc123".toList (by decide) (by decide) (by decide)

/-! ### Membership in `run`, by the consumed text -/

@[simp] theorem adv_rest (t : Thread) (k r : List Char) : (t.adv k r).rest = r := rfl
@[simp] theorem adv_taken (t : Thread) (k r : List Char) : (t.adv k r).taken = t.taken ++ k := rfl
@[simp] theorem adv_caps (t : Thread) (k r : List Char) : (t.adv k r).caps = t.caps := rfl
@[simp] theorem adv_prev (t : Thread) (k r : List Char) :
    (t.adv k r).prev = lastOr t.prev k := rfl
@[simp] theorem close_rest (v : Thread) (n len : Nat) : (v.close n len).rest = v.rest := rfl
@[simp] theorem close_taken (v : Thread) (n len : Nat) : (v.close n len).taken = v.taken := rfl
@[simp] theorem close_prev (v : Thread) (n len : Nat) : (v.close n len).prev = v.prev := rfl
@[simp] theorem close_caps (v : Thread) (n len : Nat) :
    (v.close n len).caps = (n, v.taken.drop len) :: v.caps := rfl

theorem adv_adv (t : Thread) (k1 r1 k2 r2 : List Char) :
    (t.adv k1 r1).adv k2 r2 = t.adv (k1 ++ k2) r2 := by
  simp [Thread.adv, lastOr_append]

theorem adv_nil (t : Thread) : t.adv [] t.rest = t := by
  cases t; simp [Thread.adv]

theorem mem_lit {f : Bool} {l : List Char} {t u : Thread} :
    u ∈ run (.lit f l) t ↔ ∃ k r, litOk f l k ∧ t.rest = k ++ r ∧ u = t.adv k r := by
  constructor
  · intro h
    obtain ⟨k, hk, h1, h2, h3, h4⟩ := mem_runLit h
    refine ⟨k, u.rest, hk, h1, ?_⟩
    cases u
    simp only [Thread.adv, Thread.mk.injEq, true_and]
    exact ⟨h4, h2, h3⟩
  · rintro ⟨k, r, hk, h1, rfl⟩
    obtain ⟨p, tk, rest, cp⟩ := t
    simp only at h1
    subst h1
    simp only [run, runLit_append hk, Thread.adv, List.mem_singleton]

theorem run_lit_eq {f : Bool} {l k : List Char} (hk : litOk f l k) (t : Thread) (r : List Char)
    (h : t.rest = k ++ r) : run (.lit f l) t = [t.adv k r] := by
  obtain ⟨p, tk, rest, cp⟩ := t
  simp only at h
  subst h
  simp only [run, runLit_append hk, Thread.adv]

theorem mem_star {p : Char → Bool} {t u : Thread} :
    u ∈ run (.star p) t ↔ ∃ k r, (∀ c ∈ k, p c = true) ∧ t.rest = k ++ r ∧ u = t.adv k r := by
  simp only [run, mem_runStar]
  constructor
  · rintro ⟨k, hk, h1, h2, h3, h4⟩
    refine ⟨k, u.rest, hk, h1, ?_⟩
    cases u
    simp only [Thread.adv, Thread.mk.injEq, true_and]
    exact ⟨h4, h2, h3⟩
  · rintro ⟨k, r, hk, h1, rfl⟩
    exact ⟨k, hk, h1, rfl, rfl, rfl⟩

theorem mem_cap {n : Nat} {a : Regex} {t u : Thread} :
    u ∈ run (.cap n a) t ↔ ∃ v, v ∈ run a t ∧ u = v.close n t.taken.length :=
  mem_run_cap

theorem mem_endText {t u : Thread} : u ∈ run .endText t ↔ u = t ∧ t.rest = [] := by
  simp only [run]
  split <;> simp_all

/-- The longest run is the preferred result of a greedy star. -/
theorem runStar_head {p : Char → Bool} (pv : Option Char) (tk : List Char)
    (cp : List (Nat × List Char)) (k r : List Char) (hk : ∀ c ∈ k, p c = true)
    (hr : ∀ c ∈ r.head?, p c = false) :
    (runStar p pv tk cp (k ++ r)).head? = some ⟨lastOr pv k, tk ++ k, r, cp⟩ := by
  induction k generalizing pv tk with
  | nil =>
    cases r with
    | nil => simp [runStar]
    | cons c cs =>
      have : p c = false := hr c (by simp)
      simp [runStar, this]
  | cons c cs ih =>
    have hc : p c = true := hk c (List.mem_cons_self _ _)
    have e : runStar p pv tk cp (c :: (cs ++ r)) =
        runStar p (some c) (tk ++ [c]) cp (cs ++ r) ++ [⟨pv, tk, c :: (cs ++ r), cp⟩] := by
      simp only [runStar, hc, if_true]
    rw [List.cons_append, e, List.head?_append,
      ih (some c) (tk ++ [c]) (fun x hx => hk x (List.mem_cons_of_mem _ hx))]
    simp [lastOr_cons]

theorem run_star_head {p : Char → Bool} (t : Thread) (k r : List Char)
    (h : t.rest = k ++ r) (hk : ∀ c ∈ k, p c = true) (hr : ∀ c ∈ r.head?, p c = false) :
    (run (.star p) t).head? = some (t.adv k r) := by
  simp only [run, h, runStar_head t.prev t.taken t.caps k r hk hr, Thread.adv]

theorem head?_of_forall {α : Type} {l : List α} {a : α} (hne : l ≠ [])
    (h : ∀ x ∈ l, x = a) : l.head? = some a := by
  cases l with
  | nil => exact absurd rfl hne
  | cons x xs => simp [h x (List.mem_cons_self _ _)]

theorem head?_flatMap {α β : Type} {l : List α} {f : α → List β} {a : α} {b : β}
    (hl : l.head? = some a) (hf : (f a).head? = some b) : (l.flatMap f).head? = some b := by
  cases l with
  | nil => simp at hl
  | cons x xs =>
    simp only [List.head?_cons, Option.some.injEq] at hl
    subst hl
    simp [List.flatMap_cons, List.head?_append, hf]

theorem run_cat_assoc (a b c : Regex) (t : Thread) :
    run (.cat a (.cat b c)) t = run (.cat (.cat a b) c) t := by
  simp only [run, List.flatMap_assoc]

theorem head?_run_cat {a b : Regex} {t v u : Thread} (ha : (run a t).head? = some v)
    (hb : (run b v).head? = some u) : (run (.cat a b) t).head? = some u := by
  simp only [run]
  exact head?_flatMap ha hb

/-- Two splits of one text at the first character outside a class agree. -/
theorem span_unique {p : Char → Bool} {a a' b b' : List Char} {x x' : Char}
    (h : a ++ x :: b = a' ++ x' :: b') (ha : ∀ c ∈ a, p c = true) (ha' : ∀ c ∈ a', p c = true)
    (hx : p x = false) (hx' : p x' = false) : a = a' ∧ x = x' ∧ b = b' := by
  induction a generalizing a' with
  | nil =>
    cases a' with
    | nil => simpa using h
    | cons d ds =>
      simp only [List.nil_append, List.cons_append, List.cons.injEq] at h
      have := ha' d (List.mem_cons_self _ _)
      rw [← h.1, hx] at this
      exact absurd this (by simp)
  | cons c cs ih =>
    cases a' with
    | nil =>
      simp only [List.nil_append, List.cons_append, List.cons.injEq] at h
      have := ha c (List.mem_cons_self _ _)
      rw [h.1, hx'] at this
      exact absurd this (by simp)
    | cons d ds =>
      simp only [List.cons_append, List.cons.injEq] at h
      obtain ⟨h1, h2, h3⟩ := ih h.2 (fun y hy => ha y (List.mem_cons_of_mem _ hy))
        (fun y hy => ha' y (List.mem_cons_of_mem _ hy))
      exact ⟨by rw [h.1, h1], h2, h3⟩

/-- A split at the end of the text agrees with a split at a character outside the class
only when that character is missing. -/
theorem span_end {p : Char → Bool} {a l r : List Char} (x : Char)
    (h : a = l ++ x :: r) (ha : ∀ c ∈ a, p c = true) (hx : p x = false) : False := by
  have := ha x (by rw [h]; simp)
  rw [hx] at this
  exact absurd this (by simp)

/-! ### The header rule on a header line -/

/-- The name group and the separator of the header pattern: `(Authorization|X-Auth\S*): `. -/
theorem header_name_mem {t u : Thread} :
    u ∈ run (.cat (.cap 1 (.alt (.lit false "Authorization".toList)
        (.cat (.lit false "X-Auth".toList) (.star (fun c => !isSpace c)))))
      (.lit false ": ".toList)) t ↔
    ∃ h r, (h = "Authorization".toList ∨
        ∃ k, h = "X-Auth".toList ++ k ∧ ∀ c ∈ k, (!isSpace c) = true) ∧
      t.rest = h ++ ':' :: ' ' :: r ∧
      u = ((t.adv h (':' :: ' ' :: r)).close 1 t.taken.length).adv [':', ' '] r := by
  simp only [mem_run_cat, mem_cap, mem_run_alt, mem_lit, mem_star]
  constructor
  · rintro ⟨c, ⟨w, hw, rfl⟩, k2, r2, hk2, h2, rfl⟩
    have e2 := litOk_false_eq hk2
    subst e2
    simp only [close_rest] at h2
    rcases hw with ⟨k, r, hk, h1, rfl⟩ | ⟨x, ⟨kx, rx, hkx, h1, rfl⟩, k, r, hk, h3, rfl⟩
    · have e := litOk_false_eq hk
      subst e
      simp only [adv_rest] at h2
      subst h2
      exact ⟨_, r2, Or.inl rfl, by simpa using h1, rfl⟩
    · have e := litOk_false_eq hkx
      subst e
      simp only [adv_rest] at h2 h3
      subst h2 h3
      refine ⟨"X-Auth".toList ++ k, r2, Or.inr ⟨k, rfl, hk⟩, by simpa using h1, ?_⟩
      simp only [adv_adv]
      rfl
  · rintro ⟨h, r, hh, h1, rfl⟩
    rcases hh with rfl | ⟨k, rfl, hk⟩
    · refine ⟨_, ⟨_, Or.inl ⟨_, _, ?_, h1, rfl⟩, rfl⟩, [':', ' '], r, ?_, rfl, rfl⟩
      · exact List.forall₂_same.2 (fun c _ => by simp [chMatch])
      · exact List.forall₂_same.2 (fun c _ => by simp [chMatch])
    · refine ⟨_, ⟨_, Or.inr ⟨_, ⟨"X-Auth".toList, k ++ ':' :: ' ' :: r, ?_, ?_, rfl⟩,
          k, ':' :: ' ' :: r, hk, rfl, rfl⟩, rfl⟩, [':', ' '], r, ?_, rfl, ?_⟩
      · exact List.forall₂_same.2 (fun c _ => by simp [chMatch])
      · simpa using h1
      · exact List.forall₂_same.2 (fun c _ => by simp [chMatch])
      · simp only [adv_adv]

theorem headerRe_run (t : Thread) :
    run headerRe t =
      if t.prev = none ∨ t.prev = some '\n' then
        (run (.cat (.cap 1 (.alt (.lit false "Authorization".toList)
            (.cat (.lit false "X-Auth".toList) (.star (fun c => !isSpace c)))))
          (.lit false ": ".toList)) t).flatMap (fun u => run (.star (fun c => c != '\n')) u)
      else [] := by
  rw [headerRe]
  split
  · rename_i hp
    have : run (.cat .beginLine (.cat (.cap 1 (.alt (.lit false "Authorization".toList)
          (.cat (.lit false "X-Auth".toList) (.star (fun c => !isSpace c)))))
        (.cat (.lit false ": ".toList) (.star (fun c => c != '\n'))))) t =
        run (.cat (.cap 1 (.alt (.lit false "Authorization".toList)
          (.cat (.lit false "X-Auth".toList) (.star (fun c => !isSpace c)))))
        (.cat (.lit false ": ".toList) (.star (fun c => c != '\n')))) t := by
      conv_lhs => rw [run]
      simp [run, hp]
    rw [this, run_cat_assoc]
    conv_lhs => rw [run]
  · rename_i hp
    conv_lhs => rw [run]
    simp [run, hp]

theorem header_split_unique {h h' x x' : List Char}
    (hh : h = "Authorization".toList ∨
      ∃ k, h = "X-Auth".toList ++ k ∧ ∀ c ∈ k, (!isSpace c) = true)
    (hh' : h' = "Authorization".toList ∨
      ∃ k, h' = "X-Auth".toList ++ k ∧ ∀ c ∈ k, (!isSpace c) = true)
    (e : h ++ ':' :: ' ' :: x = h' ++ ':' :: ' ' :: x') : h = h' ∧ x = x' := by
  rcases hh with rfl | ⟨k, rfl, hk⟩ <;> rcases hh' with rfl | ⟨k', rfl, hk'⟩
  · simpa using e
  · simp at e
  · simp at e
  · have e' : (k ++ [':']) ++ ' ' :: x = (k' ++ [':']) ++ ' ' :: x' := by simpa using e
    have hmem : ∀ (l : List Char), (∀ c ∈ l, (!isSpace c) = true) →
        ∀ c ∈ l ++ [':'], (fun c => !isSpace c) c = true := by
      intro l hl c hc
      rcases List.mem_append.1 hc with hc | hc
      · exact hl c hc
      · simp only [List.mem_singleton] at hc
        subst hc
        decide
    obtain ⟨h1, -, h3⟩ := span_unique e' (hmem k hk) (hmem k' hk') (by decide) (by decide)
    have := List.append_cancel_right h1
    exact ⟨by rw [this], h3⟩

/-- The header rule on a header line: the match runs to the end of the line
and group 1 holds the name. -/
theorem headerRe_match (prev : Option Char) (h v r : List Char)
    (hp : prev = none ∨ prev = some '\n')
    (hh : h = "Authorization".toList ∨
      ∃ k, h = "X-Auth".toList ++ k ∧ ∀ c ∈ k, (!isSpace c) = true)
    (hv : ∀ c ∈ v, (c != '\n') = true) (hr : ∀ c ∈ r.head?, (c != '\n') = false) :
    matchAt headerRe prev (h ++ ':' :: ' ' :: (v ++ r)) =
      some ⟨lastOr (some ' ') v, h ++ ':' :: ' ' :: v, r, [(1, h)]⟩ := by
  rw [matchAt, headerRe_run]
  simp only [hp, if_true]
  refine head?_flatMap (a := ((Thread.adv ⟨prev, [], h ++ ':' :: ' ' :: (v ++ r), []⟩ h
    (':' :: ' ' :: (v ++ r))).close 1 0).adv [':', ' '] (v ++ r)) ?_ ?_
  · apply head?_of_forall
    · apply List.ne_nil_of_mem
      exact header_name_mem.2 ⟨h, v ++ r, hh, rfl, rfl⟩
    · intro u hu
      obtain ⟨h', r', hh', e, rfl⟩ := header_name_mem.1 hu
      simp only at e
      obtain ⟨rfl, rfl⟩ := header_split_unique hh hh' e
      rfl
  · rw [run_star_head _ v r rfl hv hr]
    simp [Thread.adv, Thread.close, lastOr_append, lastOr_cons]

/-! ### Characters -/

theorem toLower_cases (c : Char) : c.toLower = c ∨ c.toLower.isLower = true := by
  unfold Char.toLower
  simp only
  split
  · rename_i h
    right
    obtain ⟨h1, h2⟩ := h
    generalize c.toNat = n at h1 h2
    interval_cases n <;> decide
  · left; rfl

/-- Under case folding a pattern character that is no letter matches itself only. -/
theorem chMatch_fold_punct {l c : Char} (hl : l.toLower = l) (hl2 : l.isLower = false)
    (hk : (l == 'k') = false) (hs : (l == 's') = false) (h : chMatch true l c = true) :
    c = l := by
  simp only [chMatch, if_true, hl, hk, hs, Bool.false_and, Bool.or_false, beq_iff_eq] at h
  rcases toLower_cases c with h' | h'
  · rw [← h', h]
  · rw [h, hl2] at h'
    exact absurd h' (by simp)

theorem chMatch_eq_sign {c : Char} (h : chMatch true '=' c = true) : c = '=' :=
  chMatch_fold_punct (by decide) (by decide) (by decide) (by decide) h

theorem chMatch_quote {c : Char} (h : chMatch true '"' c = true) : c = '"' :=
  chMatch_fold_punct (by decide) (by decide) (by decide) (by decide) h

theorem chMatch_colon {c : Char} (h : chMatch true ':' c = true) : c = ':' :=
  chMatch_fold_punct (by decide) (by decide) (by decide) (by decide) h

theorem chMatch_amp {c : Char} (h : chMatch true '&' c = true) : c = '&' :=
  chMatch_fold_punct (by decide) (by decide) (by decide) (by decide) h

theorem prefixFold_mem {w s : List Char} (h : prefixFold w s = true) {l : Char} (hl : l ∈ w) :
    ∃ c ∈ s, chMatch true l c = true := by
  induction w generalizing s with
  | nil => simp at hl
  | cons a as ih =>
    cases s with
    | nil => simp [prefixFold] at h
    | cons c cs =>
      simp only [prefixFold, Bool.and_eq_true] at h
      rcases List.mem_cons.1 hl with rfl | hl
      · exact ⟨c, List.mem_cons_self _ _, h.1⟩
      · obtain ⟨d, hd, hm⟩ := ih h.2 hl
        exact ⟨d, List.mem_cons_of_mem _ hd, hm⟩

theorem prefixFold_split {w s : List Char} (h : prefixFold w s = true) :
    ∃ k r, s = k ++ r ∧ litOk true w k := by
  induction w generalizing s with
  | nil => exact ⟨[], s, rfl, List.Forall₂.nil⟩
  | cons a as ih =>
    cases s with
    | nil => simp [prefixFold] at h
    | cons c cs =>
      simp only [prefixFold, Bool.and_eq_true] at h
      obtain ⟨k, r, rfl, hk⟩ := ih h.2
      exact ⟨c :: k, r, rfl, List.Forall₂.cons h.1 hk⟩

/-- A text without `=` is left alone by the query rule. -/
theorem queryRe_id_of_no_eq (prev : Option Char) (s : List Char) (h : '=' ∉ s) :
    resume queryRe queryRepl prev s = s := by
  apply resume_id minLen_queryRe
  intro pre suf hs
  cases hm : matchAt queryRe (lastOr prev pre) suf with
  | none => rfl
  | some m =>
    obtain ⟨w, -, hw2⟩ := queryRe_start hm
    obtain ⟨c, hc, hcm⟩ := prefixFold_mem hw2 (l := '=') (by simp)
    rw [chMatch_eq_sign hcm] at hc
    exact absurd (by rw [hs]; exact List.mem_append_right _ hc) h

theorem jsonRe_quote {prev : Option Char} {s : List Char} {m : Thread}
    (h : matchAt jsonRe prev s = some m) : s.head? = some '"' := by
  have hm : m ∈ run jsonRe ⟨prev, [], s, []⟩ := List.mem_of_mem_head? h
  rw [jsonRe, mem_run_cat] at hm
  obtain ⟨v, hv, -⟩ := hm
  obtain ⟨k, r, hk, h1, -⟩ := mem_lit.1 hv
  simp only at h1
  subst h1
  cases hk with
  | cons hc hk' =>
    rw [chMatch_quote hc]
    rfl

/-- A text without a double quote is left alone by the JSON rule. -/
theorem jsonRe_id_of_no_quote (prev : Option Char) (s : List Char) (h : '"' ∉ s) :
    resume jsonRe jsonRepl prev s = s := by
  apply resume_id minLen_jsonRe
  intro pre suf hs
  cases hm : matchAt jsonRe (lastOr prev pre) suf with
  | none => rfl
  | some m =>
    have hq := jsonRe_quote hm
    have : '"' ∈ suf := List.mem_of_mem_head? hq
    exact absurd (by rw [hs]; exact List.mem_append_right _ this) h

theorem nameChar_not_space {c : Char} (h : isNameChar c = true) : (!isSpace c) = true := by
  cases hs : isSpace c with
  | false => rfl
  | true =>
    simp only [isSpace, Bool.or_eq_true, beq_iff_eq] at hs
    rcases hs with (((rfl | rfl) | rfl) | rfl) | rfl <;> exact absurd h (by decide)

theorem headerName_chars {h : List Char} (hh : isHeaderName h) :
    (h = "Authorization".toList ∨
      ∃ k, h = "X-Auth".toList ++ k ∧ ∀ c ∈ k, (!isSpace c) = true) ∧
    '=' ∉ h ∧ '"' ∉ h := by
  rcases hh with rfl | ⟨r, rfl, hr⟩
  · exact ⟨Or.inl rfl, by decide, by decide⟩
  · refine ⟨Or.inr ⟨r, rfl, fun c hc => nameChar_not_space (hr c hc)⟩, ?_, ?_⟩
    · intro hmem
      rcases List.mem_append.1 hmem with hmem | hmem
      · exact absurd hmem (by decide)
      · exact absurd (hr _ hmem) (by decide)
    · intro hmem
      rcases List.mem_append.1 hmem with hmem | hmem
      · exact absurd hmem (by decide)
      · exact absurd (hr _ hmem) (by decide)

/-- C4: for a header name `h` (`Authorization`, or `X-Auth` followed by ASCII
letters, digits and hyphens) and a value `v` without a line feed, `Sanitize`
turns the line `h: v` into `h: [PRIVATE DATA HIDDEN]`, the name kept and the
whole value replaced. -/
theorem Sanitize_header (h v : List Char) (hh : isHeaderName h) (hv : '\n' ∉ v) :
    Sanitize (h ++ ": ".toList ++ v ++ "\n".toList) =
      h ++ ": ".toList ++ privateDataPlaceholder ++ "\n".toList := by
  obtain ⟨hh', he, hq⟩ := headerName_chars hh
  have hm := headerRe_match none h v ['\n'] (Or.inl rfl) hh'
    (fun c hc => by
      simp only [bne_iff_ne, ne_eq]
      rintro rfl
      exact hv hc)
    (by simp)
  have hnl : matchAt headerRe (lastOr (some ' ') v) ['\n'] = none := by
    cases hx : matchAt headerRe (lastOr (some ' ') v) ['\n'] with
    | none => rfl
    | some m =>
      obtain ⟨-, h1 | h1⟩ := headerRe_start hx
      · exact absurd h1 (by decide)
      · exact absurd h1 (by decide)
  have e1 : resume headerRe headerRepl none (h ++ ": ".toList ++ v ++ "\n".toList) =
      h ++ ": ".toList ++ privateDataPlaceholder ++ "\n".toList := by
    have : h ++ ": ".toList ++ v ++ "\n".toList = h ++ ':' :: ' ' :: (v ++ ['\n']) := by simp
    rw [this, resume_hit minLen_headerRe headerRepl hm]
    simp only
    rw [resume_skip minLen_headerRe headerRepl hnl, resume_nil minLen_headerRe]
    simp [expand, headerRepl, Thread.group, List.lookup]
  have hne : '=' ∉ h ++ ": ".toList ++ privateDataPlaceholder ++ "\n".toList := by
    simp only [List.mem_append, not_or]
    exact ⟨⟨⟨he, by decide⟩, by decide⟩, by decide⟩
  have hnq : '"' ∉ h ++ ": ".toList ++ privateDataPlaceholder ++ "\n".toList := by
    simp only [List.mem_append, not_or]
    exact ⟨⟨⟨hq, by decide⟩, by decide⟩, by decide⟩
  rw [Sanitize_eq, e1, queryRe_id_of_no_eq none _ hne, jsonRe_id_of_no_quote none _ hnq]

/-- C4 at the example of the specification. -/
theorem Sanitize_header_witness :
    Sanitize ("Authorization".toList ++ ": ".toList ++ "Bearer abc123".toList ++ "\n".toList) =
      "Authorization".toList ++ ": ".toList ++ privateDataPlaceholder ++ "\n".toList :=
  Sanitize_header "Authorization".toList "Bearer abc123".toList (Or.inl rfl) (by decide)

/-! ### The query rule on a keyword -/

theorem map_eq_cons_elim {f : Char → Char} {k : List Char} {a : Char} {as : List Char}
    (h : k.map f = a :: as) : ∃ c cs, k = c :: cs ∧ f c = a ∧ cs.map f = as := by
  cases k with
  | nil => simp at h
  | cons c cs =>
    simp only [List.map_cons, List.cons.injEq] at h
    exact ⟨c, cs, rfl, h.1, h.2⟩

theorem litOk_of_map_toLower {w k : List Char} (h : k.map Char.toLower = w)
    (hw : ∀ l ∈ w, l.toLower = l) : litOk true w k := by
  induction k generalizing w with
  | nil =>
    simp only [List.map_nil] at h
    subst h
    exact List.Forall₂.nil
  | cons c cs ih =>
    simp only [List.map_cons] at h
    subst h
    refine List.Forall₂.cons ?_ (ih rfl (fun l hl => hw l (List.mem_cons_of_mem _ hl)))
    have := hw c.toLower (List.mem_cons_self _ _)
    simp [chMatch, this]

theorem queryWords_run {k : List Char} (hk : k.map Char.toLower ∈ queryKeywords) (t : Thread)
    (r : List Char) (h : t.rest = k ++ r) : run queryWords t = [t.adv k r] := by
  obtain ⟨pv, tk, rest, cp⟩ := t
  simp only at h
  subst h
  simp only [queryKeywords, List.mem_cons, List.mem_singleton, List.not_mem_nil, or_false] at hk
  rcases hk with hk | hk | hk | hk
  all_goals
    obtain ⟨c1, k1, rfl, h1, hk⟩ := map_eq_cons_elim hk
    obtain ⟨c2, k2, rfl, h2, hk⟩ := map_eq_cons_elim hk
    obtain ⟨c3, k3, rfl, h3, hk⟩ := map_eq_cons_elim hk
    obtain ⟨c4, k4, rfl, h4, hk⟩ := map_eq_cons_elim hk
    obtain ⟨c5, k5, rfl, h5, hk⟩ := map_eq_cons_elim hk
  · obtain ⟨c6, k6, rfl, h6, hk⟩ := map_eq_cons_elim hk
    obtain ⟨c7, k7, rfl, h7, hk⟩ := map_eq_cons_elim hk
    obtain ⟨c8, k8, rfl, h8, hk⟩ := map_eq_cons_elim hk
    simp only [List.map_eq_nil_iff] at hk
    subst hk
    simp [queryWords, run, runLit, chMatch, Thread.step, Thread.adv, h1, h2, h3, h4, h5, h6, h7,
      h8, lastOr_cons]
  · simp only [List.map_eq_nil_iff] at hk
    subst hk
    simp [queryWords, run, runLit, chMatch, Thread.step, Thread.adv, h1, h2, h3, h4, h5,
      lastOr_cons]
  · obtain ⟨c6, k6, rfl, h6, hk⟩ := map_eq_cons_elim hk
    simp only [List.map_eq_nil_iff] at hk
    subst hk
    simp [queryWords, run, runLit, chMatch, Thread.step, Thread.adv, h1, h2, h3, h4, h5, h6,
      lastOr_cons]
  · obtain ⟨c6, k6, rfl, h6, hk⟩ := map_eq_cons_elim hk
    obtain ⟨c7, k7, rfl, h7, hk⟩ := map_eq_cons_elim hk
    obtain ⟨c8, k8, rfl, h8, hk⟩ := map_eq_cons_elim hk
    simp only [List.map_eq_nil_iff] at hk
    subst hk
    simp [queryWords, run, runLit, chMatch, Thread.step, Thread.adv, h1, h2, h3, h4, h5, h6, h7,
      h8, lastOr_cons]

@[simp] theorem lastOr_singleton (p : Option Char) (c : Char) : lastOr p [c] = some c := rfl

@[simp] theorem lastOr_cons_cons (p : Option Char) (c d : Char) (k : List Char) :
    lastOr p (c :: d :: k) = lastOr p (d :: k) := by
  rw [lastOr_cons, lastOr_cons p d k, lastOr_cons (some c)]

theorem litOk_single {l c : Char} (h : chMatch true l c = true) : litOk true [l] [c] :=
  List.Forall₂.cons h List.Forall₂.nil

theorem litOk_single_inv {l : Char} {k : List Char} (h : litOk true [l] k) :
    ∃ c, k = [c] ∧ chMatch true l c = true := by
  cases h with
  | cons hc hk =>
    cases hk
    exact ⟨_, rfl, hc⟩

/-- The value and the delimiter of the query pattern, `[^&]*(&|$)`, on a text
that holds an `&`: the value runs up to the first `&`. -/
theorem query_tail_amp (t : Thread) (v r : List Char) (h : t.rest = v ++ '&' :: r)
    (hv : '&' ∉ v) :
    (run (.cat (.star (fun c => c != '&')) (.cap 2 (.alt (.lit true "&".toList) .endText)))
      t).head? = some (((t.adv v ('&' :: r)).adv ['&'] r).close 2 (t.taken ++ v).length) := by
  have hv' : ∀ c ∈ v, (fun c => c != '&') c = true := by
    intro c hc
    simp only [bne_iff_ne, ne_eq]
    rintro rfl
    exact hv hc
  apply head?_of_forall
  · apply List.ne_nil_of_mem
    rw [mem_run_cat]
    refine ⟨t.adv v ('&' :: r), mem_star.2 ⟨v, _, hv', h, rfl⟩, ?_⟩
    rw [mem_cap]
    refine ⟨_, mem_run_alt.2 (Or.inl (mem_lit.2 ⟨['&'], r, ?_, rfl, rfl⟩)), rfl⟩
    exact litOk_single (by decide)
  · intro u hu
    rw [mem_run_cat] at hu
    obtain ⟨w, hw, hu⟩ := hu
    obtain ⟨k, r1, hk, h1, rfl⟩ := mem_star.1 hw
    rw [mem_cap] at hu
    obtain ⟨x, hx, rfl⟩ := hu
    rw [h] at h1
    rcases mem_run_alt.1 hx with hx | hx
    · obtain ⟨k2, r2, hk2, h2, rfl⟩ := mem_lit.1 hx
      obtain ⟨c, rfl, hc⟩ := litOk_single_inv hk2
      have := chMatch_amp hc
      subst this
      simp only [adv_rest] at h2
      subst h2
      obtain ⟨rfl, -, rfl⟩ := span_unique h1 hv' hk (by decide) (by decide)
      rfl
    · obtain ⟨rfl, h2⟩ := mem_endText.1 hx
      simp only [adv_rest] at h2
      subst h2
      simp only [List.append_nil] at h1
      exact (span_end '&' h1.symm hk (by decide)).elim

/-- The value and the delimiter of the query pattern on a text without `&`:
the value runs to the end of the text. -/
theorem query_tail_end (t : Thread) (v : List Char) (h : t.rest = v) (hv : '&' ∉ v) :
    (run (.cat (.star (fun c => c != '&')) (.cap 2 (.alt (.lit true "&".toList) .endText)))
      t).head? = some ((t.adv v []).close 2 (t.taken ++ v).length) := by
  have hv' : ∀ c ∈ v, (fun c => c != '&') c = true := by
    intro c hc
    simp only [bne_iff_ne, ne_eq]
    rintro rfl
    exact hv hc
  apply head?_of_forall
  · apply List.ne_nil_of_mem
    rw [mem_run_cat]
    refine ⟨t.adv v [], mem_star.2 ⟨v, _, hv', by simpa using h, rfl⟩, ?_⟩
    rw [mem_cap]
    exact ⟨_, mem_run_alt.2 (Or.inr (mem_endText.2 ⟨rfl, rfl⟩)), rfl⟩
  · intro u hu
    rw [mem_run_cat] at hu
    obtain ⟨w, hw, hu⟩ := hu
    obtain ⟨k, r1, hk, h1, rfl⟩ := mem_star.1 hw
    rw [mem_cap] at hu
    obtain ⟨x, hx, rfl⟩ := hu
    rw [h] at h1
    rcases mem_run_alt.1 hx with hx | hx
    · obtain ⟨k2, r2, hk2, h2, rfl⟩ := mem_lit.1 hx
      obtain ⟨c, rfl, hc⟩ := litOk_single_inv hk2
      have := chMatch_amp hc
      subst this
      simp only [adv_rest] at h2
      subst h2
      exact (span_end '&' h1 hv' (by decide)).elim
    · obtain ⟨rfl, h2⟩ := mem_endText.1 hx
      simp only [adv_rest] at h2
      subst h2
      simp only [List.append_nil] at h1
      subst h1
      rfl

theorem queryRe_run_kw {k : List Char} (hk : k.map Char.toLower ∈ queryKeywords)
    (prev : Option Char) (r : List Char) :
    run queryRe ⟨prev, [], k ++ '=' :: r, []⟩ =
      run (.cat (.star (fun c => c != '&')) (.cap 2 (.alt (.lit true "&".toList) .endText)))
        ⟨some '=', k ++ ['='], r, [(1, k)]⟩ := by
  have e1 : run (.cap 1 queryWords) ⟨prev, [], k ++ '=' :: r, []⟩ =
      [⟨lastOr prev k, k, '=' :: r, [(1, k)]⟩] := by
    conv_lhs => rw [run]
    rw [queryWords_run hk _ ('=' :: r) rfl]
    simp [Thread.adv]
  have e2 : run (.lit true "=".toList) ⟨lastOr prev k, k, '=' :: r, [(1, k)]⟩ =
      [⟨some '=', k ++ ['='], r, [(1, k)]⟩] := by
    have hl : litOk true "=".toList ['='] := litOk_single (by decide)
    rw [run_lit_eq hl _ r rfl]
    simp [Thread.adv, lastOr_append]
  rw [queryRe]
  conv_lhs => rw [run]
  rw [e1]
  simp only [List.flatMap_cons, List.flatMap_nil, List.append_nil]
  conv_lhs => rw [run]
  rw [e2]
  simp only [List.flatMap_cons, List.flatMap_nil, List.append_nil]

/-- The query rule at a keyword whose value ends at an `&`. -/
theorem queryRe_match_amp {k : List Char} (hk : k.map Char.toLower ∈ queryKeywords)
    (prev : Option Char) (v r : List Char) (hv : '&' ∉ v) :
    matchAt queryRe prev (k ++ '=' :: (v ++ '&' :: r)) =
      some ⟨some '&', k ++ '=' :: (v ++ ['&']), r, [(2, ['&']), (1, k)]⟩ := by
  rw [matchAt, queryRe_run_kw hk, query_tail_amp _ v r rfl hv]
  simp [Thread.adv, Thread.close, lastOr_cons]

/-- The query rule at a keyword whose value runs to the end of the text. -/
theorem queryRe_match_end {k : List Char} (hk : k.map Char.toLower ∈ queryKeywords)
    (prev : Option Char) (v : List Char) (hv : '&' ∉ v) :
    matchAt queryRe prev (k ++ '=' :: v) =
      some ⟨lastOr (some '=') v, k ++ '=' :: v, [], [(2, []), (1, k)]⟩ := by
  rw [matchAt, queryRe_run_kw hk, query_tail_end _ v rfl hv]
  simp [Thread.adv, Thread.close]

theorem kw_not_mem {k : List Char} (hk : k.map Char.toLower ∈ queryKeywords) (x : Char)
    (hx : ∀ w ∈ queryKeywords, x.toLower ∉ w) : x ∉ k := by
  intro hmem
  exact hx _ hk (List.mem_map_of_mem _ hmem)

theorem lineBegins_of_no_nl (w : List Char) (prev : Option Char) (s : List Char)
    (hp : ¬(prev = none ∨ prev = some '\n')) (hs : '\n' ∉ s) : lineBegins w prev s = false := by
  induction s generalizing prev with
  | nil => simp [lineBegins, hp]
  | cons c cs ih =>
    simp only [lineBegins, hp, decide_False, Bool.false_and, Bool.false_or]
    apply ih
    · rintro (h | h)
      · exact absurd h (by simp)
      · simp only [Option.some.injEq] at h
        subst h
        exact hs (List.mem_cons_self _ _)
    · exact fun h => hs (List.mem_cons_of_mem _ h)

theorem lineBegins_first_line (w : List Char) (s : List Char)
    (h1 : w.isPrefixOf s = false) (h2 : '\n' ∉ s) : lineBegins w none s = false := by
  cases s with
  | nil => simp [lineBegins, h1]
  | cons c cs =>
    simp only [lineBegins, h1, Bool.and_false, Bool.false_or]
    apply lineBegins_of_no_nl w
    · rintro (h | h)
      · exact absurd h (by simp)
      · simp only [Option.some.injEq] at h
        subst h
        exact h2 (List.mem_cons_self _ _)
    · exact fun h => h2 (List.mem_cons_of_mem _ h)

/-- No match of the query rule starts at a character that begins no keyword. -/
theorem queryRe_none_cons (prev : Option Char) (c : Char) (cs : List Char)
    (hc : chMatch true 'p' c = false ∧ chMatch true 't' c = false ∧ chMatch true 'a' c = false) :
    matchAt queryRe prev (c :: cs) = none := by
  cases hm : matchAt queryRe prev (c :: cs) with
  | none => rfl
  | some m =>
    obtain ⟨w, hw, hp⟩ := queryRe_start hm
    simp only [queryKeywords, List.mem_cons, List.mem_singleton, List.not_mem_nil,
      or_false] at hw
    rcases hw with rfl | rfl | rfl | rfl <;>
      simp [prefixFold, hc.1, hc.2.1, hc.2.2] at hp

/-- C5: for a keyword `k` (`password`, `token`, `apikey` or `passcode` in any
ASCII letter case) and a value `v` without `&` and without a line feed,
`Sanitize` turns `foo=1&k=v&bar=2` into `foo=1&k=[PRIVATE DATA HIDDEN]&bar=2`:
the key, in its letter case, and the `&` are kept and the value is replaced. -/
theorem Sanitize_query (k v : List Char) (hk : k.map Char.toLower ∈ queryKeywords)
    (hv : '&' ∉ v) (hnl : '\n' ∉ v) :
    Sanitize ("foo=1&".toList ++ k ++ "=".toList ++ v ++ "&bar=2".toList) =
      "foo=1&".toList ++ k ++ "=".toList ++ privateDataPlaceholder ++ "&bar=2".toList := by
  have hknl : '\n' ∉ k := kw_not_mem hk '\n' (by decide)
  have hkq : '"' ∉ k := kw_not_mem hk '"' (by decide)
  have hin : "foo=1&".toList ++ k ++ "=".toList ++ v ++ "&bar=2".toList =
      'f' :: 'o' :: 'o' :: '=' :: '1' :: '&' :: (k ++ '=' :: (v ++ '&' :: "bar=2".toList)) := by
    simp
  -- the header rule finds no header line
  have e1 : resume headerRe headerRepl none
      ('f' :: 'o' :: 'o' :: '=' :: '1' :: '&' :: (k ++ '=' :: (v ++ '&' :: "bar=2".toList))) =
      'f' :: 'o' :: 'o' :: '=' :: '1' :: '&' :: (k ++ '=' :: (v ++ '&' :: "bar=2".toList)) := by
    have hno : '\n' ∉ 'f' :: 'o' :: 'o' :: '=' :: '1' :: '&' ::
        (k ++ '=' :: (v ++ '&' :: "bar=2".toList)) := by
      simp only [List.mem_cons, List.mem_append, not_or]
      refine ⟨by decide, by decide, by decide, by decide, by decide, by decide, hknl, by decide,
        hnl, by decide, by decide⟩
    exact headerRe_id _ _ (lineBegins_first_line _ _ rfl hno)
      (lineBegins_first_line _ _ rfl hno)
  -- the query rule replaces the value
  have e2 : resume queryRe queryRepl none
      ('f' :: 'o' :: 'o' :: '=' :: '1' :: '&' :: (k ++ '=' :: (v ++ '&' :: "bar=2".toList))) =
      "foo=1&".toList ++ k ++ "=".toList ++ privateDataPlaceholder ++ "&bar=2".toList := by
    rw [resume_skip minLen_queryRe _ (queryRe_none_cons _ _ _ (by decide)),
      resume_skip minLen_queryRe _ (queryRe_none_cons _ _ _ (by decide)),
      resume_skip minLen_queryRe _ (queryRe_none_cons _ _ _ (by decide)),
      resume_skip minLen_queryRe _ (queryRe_none_cons _ _ _ (by decide)),
      resume_skip minLen_queryRe _ (queryRe_none_cons _ _ _ (by decide)),
      resume_skip minLen_queryRe _ (queryRe_none_cons _ _ _ (by decide)),
      resume_hit minLen_queryRe _ (queryRe_match_amp hk _ v _ hv)]
    have e3 : resume queryRe queryRepl (some '&') "bar=2".toList = "bar=2".toList := by decide
    simp only [e3]
    simp [expand, queryRepl, Thread.group, List.lookup]
  -- the JSON rule finds no double quote
  have hnq : '"' ∉ "foo=1&".toList ++ k ++ "=".toList ++ privateDataPlaceholder ++
      "&bar=2".toList := by
    simp only [List.mem_append, not_or]
    exact ⟨⟨⟨⟨by decide, hkq⟩, by decide⟩, by decide⟩, by decide⟩
  rw [Sanitize_eq, hin, e1, e2, jsonRe_id_of_no_quote none _ hnq]

/-- C5 at the example of the specification. -/
theorem Sanitize_query_witness :
    Sanitize ("foo=1&".toList ++ "password".toList ++ "=".toList ++ "secret".toList ++
        "&bar=2".toList) =
      "foo=1&".toList ++ "password".toList ++ "=".toList ++ privateDataPlaceholder ++
        "&bar=2".toList :=
  Sanitize_query "password".toList "secret".toList (by decide) (by decide) (by decide)

/-! ### The JSON rule, by the consumed text -/

theorem jsonWords_mem {t u : Thread} :
    u ∈ run jsonWords t ↔
      ∃ w ∈ jsonKeywords, ∃ kw r, litOk true w kw ∧ t.rest = kw ++ r ∧ u = t.adv kw r := by
  simp only [jsonWords, mem_run_alt, mem_lit, jsonKeywords, List.mem_cons, List.mem_singleton,
    List.not_mem_nil, or_false]
  constructor
  · rintro (⟨k, r, hk, h1, rfl⟩ | ⟨k, r, hk, h1, rfl⟩ | ⟨k, r, hk, h1, rfl⟩)
    · exact ⟨_, Or.inl rfl, k, r, hk, h1, rfl⟩
    · exact ⟨_, Or.inr (Or.inl rfl), k, r, hk, h1, rfl⟩
    · exact ⟨_, Or.inr (Or.inr rfl), k, r, hk, h1, rfl⟩
  · rintro ⟨w, (rfl | rfl | rfl), k, r, hk, h1, rfl⟩
    · exact Or.inl ⟨k, r, hk, h1, rfl⟩
    · exact Or.inr (Or.inl ⟨k, r, hk, h1, rfl⟩)
    · exact Or.inr (Or.inr ⟨k, r, hk, h1, rfl⟩)

/-- The key group of the JSON pattern, `([^"]*(password|token|apikey)[^"_]*)`. -/
theorem json_key_mem {t u : Thread} :
    u ∈ run (.cap 1 (.cat (.star (fun c => c != '"'))
        (.cat (.cap 2 jsonWords) (.star (fun c => c != '"' && c != '_'))))) t ↔
    ∃ a kw b r, (∀ c ∈ a, (c != '"') = true) ∧ (∃ w ∈ jsonKeywords, litOk true w kw) ∧
      (∀ c ∈ b, (c != '"' && c != '_') = true) ∧ t.rest = a ++ (kw ++ (b ++ r)) ∧
      u = ⟨lastOr t.prev (a ++ (kw ++ b)), t.taken ++ (a ++ (kw ++ b)), r,
        (1, a ++ (kw ++ b)) :: (2, kw) :: t.caps⟩ := by
  simp only [mem_cap, mem_run_cat, mem_star, jsonWords_mem]
  constructor
  · rintro ⟨x, ⟨y, ⟨a, r1, ha, h1, rfl⟩, z, ⟨z', ⟨w, hw, kw, r2, hkw, h2, rfl⟩, rfl⟩,
      b, r3, hb, h3, rfl⟩, rfl⟩
    simp only [adv_rest, close_rest] at h2 h3
    subst h2 h3
    refine ⟨a, kw, b, r3, ha, ⟨w, hw, hkw⟩, hb, h1, ?_⟩
    simp [Thread.adv, Thread.close, lastOr_append, List.append_assoc]
  · rintro ⟨a, kw, b, r, ha, ⟨w, hw, hkw⟩, hb, h1, rfl⟩
    refine ⟨_, ⟨t.adv a (kw ++ (b ++ r)), ⟨a, _, ha, h1, rfl⟩, _,
      ⟨_, ⟨w, hw, kw, b ++ r, hkw, rfl, rfl⟩, rfl⟩, b, r, hb, rfl, rfl⟩, ?_⟩
    simp [Thread.adv, Thread.close, lastOr_append, List.append_assoc]

/-- The part of the JSON pattern after the key, `":\s*"[^\,]*"`. -/
theorem json_tail_mem {t u : Thread} :
    u ∈ run (.cat (.lit true "\":".toList) (.cat (.star isSpace) (.cat (.lit true "\"".toList)
        (.cat (.star (fun c => c != ',')) (.lit true "\"".toList))))) t ↔
    ∃ sp val r, (∀ c ∈ sp, isSpace c = true) ∧ (∀ c ∈ val, (c != ',') = true) ∧
      t.rest = '"' :: ':' :: (sp ++ '"' :: (val ++ '"' :: r)) ∧
      u = t.adv ('"' :: ':' :: (sp ++ '"' :: (val ++ ['"']))) r := by
  simp only [mem_run_cat, mem_star, mem_lit]
  constructor
  · rintro ⟨x1, ⟨k1, r1, hk1, h1, rfl⟩, x2, ⟨sp, r2, hsp, h2, rfl⟩, x3, ⟨k3, r3, hk3, h3, rfl⟩,
      x4, ⟨val, r4, hval, h4, rfl⟩, k5, r5, hk5, h5, rfl⟩
    simp only [adv_rest] at h2 h3 h4 h5
    subst h2 h3 h4 h5
    obtain ⟨c3, rfl, hc3⟩ := litOk_single_inv hk3
    obtain ⟨c5, rfl, hc5⟩ := litOk_single_inv hk5
    have e3 := chMatch_quote hc3
    have e5 := chMatch_quote hc5
    subst e3 e5
    cases hk1 with
    | cons ha hk1' =>
      cases hk1' with
      | cons hb hk1'' =>
        cases hk1''
        have ea := chMatch_quote ha
        have eb := chMatch_colon hb
        subst ea eb
        refine ⟨sp, val, r5, hsp, hval, by simpa using h1, ?_⟩
        simp [adv_adv]
  · rintro ⟨sp, val, r, hsp, hval, h1, rfl⟩
    have l1 : litOk true "\":".toList ['"', ':'] :=
      List.Forall₂.cons (by decide) (List.Forall₂.cons (by decide) List.Forall₂.nil)
    have l2 : litOk true "\"".toList ['"'] := litOk_single (by decide)
    refine ⟨_, ⟨['"', ':'], sp ++ '"' :: (val ++ '"' :: r), l1, by simpa using h1, rfl⟩,
      _, ⟨sp, '"' :: (val ++ '"' :: r), hsp, rfl, rfl⟩,
      _, ⟨['"'], val ++ '"' :: r, l2, rfl, rfl⟩,
      _, ⟨val, '"' :: r, hval, rfl, rfl⟩, ['"'], r, l2, rfl, ?_⟩
    simp [adv_adv]

/-- The matches of the JSON pattern at a position, by the text they consume. -/
theorem jsonRe_mem {t u : Thread} :
    u ∈ run jsonRe t ↔
    ∃ a kw b sp val r, (∀ c ∈ a, (c != '"') = true) ∧ (∃ w ∈ jsonKeywords, litOk true w kw) ∧
      (∀ c ∈ b, (c != '"' && c != '_') = true) ∧ (∀ c ∈ sp, isSpace c = true) ∧
      (∀ c ∈ val, (c != ',') = true) ∧
      t.rest = '"' :: (a ++ (kw ++ (b ++ '"' :: ':' :: (sp ++ '"' :: (val ++ '"' :: r))))) ∧
      u = ⟨some '"',
        t.taken ++ '"' :: (a ++ (kw ++ (b ++ '"' :: ':' :: (sp ++ '"' :: (val ++ ['"']))))), r,
        (1, a ++ (kw ++ b)) :: (2, kw) :: t.caps⟩ := by
  rw [jsonRe, mem_run_cat]
  simp only [mem_lit]
  constructor
  · rintro ⟨x, ⟨k0, r0, hk0, h0, rfl⟩, hu⟩
    rw [mem_run_cat] at hu
    obtain ⟨y, hy, hu⟩ := hu
    obtain ⟨a, kw, b, r1, ha, hkw, hb, h1, rfl⟩ := json_key_mem.1 hy
    obtain ⟨sp, val, r, hsp, hval, h2, rfl⟩ := json_tail_mem.1 hu
    simp only [adv_rest] at h1 h2
    subst h1 h2
    obtain ⟨c0, rfl, hc0⟩ := litOk_single_inv hk0
    have e0 := chMatch_quote hc0
    subst e0
    refine ⟨a, kw, b, sp, val, r, ha, hkw, hb, hsp, hval, by simpa using h0, ?_⟩
    simp [Thread.adv, lastOr_append, lastOr_cons, List.append_assoc]
  · rintro ⟨a, kw, b, sp, val, r, ha, hkw, hb, hsp, hval, h1, rfl⟩
    have l2 : litOk true "\"".toList ['"'] := litOk_single (by decide)
    refine ⟨_, ⟨['"'], _, l2, by simpa using h1, rfl⟩, ?_⟩
    rw [mem_run_cat]
    refine ⟨_, json_key_mem.2 ⟨a, kw, b, _, ha, hkw, hb, rfl, rfl⟩, ?_⟩
    rw [json_tail_mem]
    refine ⟨sp, val, r, hsp, hval, rfl, ?_⟩
    simp [Thread.adv, lastOr_append, lastOr_cons, List.append_assoc]

/-! ### The JSON rule on one field -/

theorem litOk_mem {f : Bool} {w k : List Char} (h : litOk f w k) {c : Char} (hc : c ∈ k) :
    ∃ l ∈ w, chMatch f l c = true := by
  induction h with
  | nil => simp at hc
  | cons hm _ ih =>
    rcases List.mem_cons.1 hc with rfl | hc
    · exact ⟨_, List.mem_cons_self _ _, hm⟩
    · obtain ⟨l, hl, hlm⟩ := ih hc
      exact ⟨l, List.mem_cons_of_mem _ hl, hlm⟩

/-- A character that no letter of a keyword matches does not occur in a text
that matches a keyword. -/
theorem kw_text_not_mem {w kw : List Char} (hw : w ∈ queryKeywords) (h : litOk true w kw)
    (x : Char) (hx : ∀ w ∈ queryKeywords, ∀ l ∈ w, chMatch true l x = false) : x ∉ kw := by
  intro hmem
  obtain ⟨l, hl, hlm⟩ := litOk_mem h hmem
  rw [hx w hw l hl] at hlm
  exact absurd hlm (by simp)

theorem jsonKeywords_sub {w : List Char} (h : w ∈ jsonKeywords) : w ∈ queryKeywords := by
  simp only [jsonKeywords, List.mem_cons, List.mem_singleton, List.not_mem_nil, or_false] at h
  simp only [queryKeywords, List.mem_cons, List.mem_singleton, List.not_mem_nil, or_false]
  rcases h with h | h | h
  · exact Or.inl h
  · exact Or.inr (Or.inl h)
  · exact Or.inr (Or.inr (Or.inl h))

/-- Two splits of one text at an occurrence of `x`, the first at its first occurrence. -/
theorem first_occurrence {x : Char} {a b a' b' : List Char} (h : a ++ x :: b = a' ++ x :: b')
    (ha : x ∉ a) : (a' = a ∧ b' = b) ∨ ∃ y, a' = a ++ x :: y ∧ b = y ++ x :: b' := by
  induction a generalizing a' with
  | nil =>
    cases a' with
    | nil =>
      simp only [List.nil_append, List.cons.injEq, true_and] at h
      exact Or.inl ⟨rfl, h.symm⟩
    | cons d ds =>
      simp only [List.nil_append, List.cons_append, List.cons.injEq] at h
      obtain ⟨rfl, h2⟩ := h
      exact Or.inr ⟨ds, rfl, h2⟩
  | cons c cs ih =>
    cases a' with
    | nil =>
      simp only [List.nil_append, List.cons_append, List.cons.injEq] at h
      exact absurd (h.1 ▸ List.mem_cons_self c cs) ha
    | cons d ds =>
      simp only [List.cons_append, List.cons.injEq] at h
      obtain ⟨rfl, h2⟩ := h
      rcases ih h2 (fun hx => ha (List.mem_cons_of_mem _ hx)) with ⟨h3, h4⟩ | ⟨y, h3, h4⟩
      · exact Or.inl ⟨by rw [h3], h4⟩
      · exact Or.inr ⟨y, by rw [h3]; rfl, h4⟩

theorem sensitiveKey_iff {k : List Char} :
    sensitiveKey k = true ↔
      ∃ a kw b, k = a ++ (kw ++ b) ∧ (∃ w ∈ jsonKeywords, litOk true w kw) ∧ '_' ∉ b := by
  constructor
  · intro h
    induction k with
    | nil => simp [sensitiveKey] at h
    | cons c cs ih =>
      simp only [sensitiveKey, Bool.or_eq_true] at h
      rcases h with h | h
      · simp only [sensitiveAt, List.any_eq_true, Bool.and_eq_true, decide_eq_true_eq] at h
        obtain ⟨w, hw, hp, hd⟩ := h
        obtain ⟨kw, r, hs, hkw⟩ := prefixFold_split hp
        refine ⟨[], kw, r, by simpa using hs, ⟨w, hw, hkw⟩, ?_⟩
        have hl := litOk_length hkw
        rw [hs, ← hl, List.drop_left] at hd
        exact hd
      · obtain ⟨a, kw, b, rfl, hkw, hb⟩ := ih h
        exact ⟨c :: a, kw, b, rfl, hkw, hb⟩
  · rintro ⟨a, kw, b, rfl, ⟨w, hw, hkw⟩, hb⟩
    have hat : sensitiveAt (kw ++ b) = true := by
      simp only [sensitiveAt, List.any_eq_true, Bool.and_eq_true, decide_eq_true_eq]
      refine ⟨w, hw, prefixFold_of_litOk hkw b, ?_⟩
      rw [← litOk_length hkw, List.drop_left]
      exact hb
    have hne : kw ≠ [] := by
      intro h0
      have := litOk_length hkw
      rw [h0] at this
      simp only [jsonKeywords, List.mem_cons, List.mem_singleton, List.not_mem_nil,
        or_false] at hw
      rcases hw with rfl | rfl | rfl <;> simp at this
    induction a with
    | nil =>
      cases hk : kw with
      | nil => exact absurd hk hne
      | cons c cs =>
        rw [hk] at hat
        simp only [List.nil_append, List.cons_append, sensitiveKey, Bool.or_eq_true]
        exact Or.inl hat
    | cons c cs ih =>
      simp only [List.cons_append, sensitiveKey, Bool.or_eq_true]
      exact Or.inr ih

/-- Every match of the JSON pattern on one field `"k":w"v"` covers the whole
field, with the key in group 1. -/
theorem json_field_matches {prev : Option Char} {k w v r0 : List Char} {u : Thread}
    (hk : '"' ∉ k) (hw : ∀ c ∈ w, isSpace c = true) (hv : '"' ∉ v) (hr : '"' ∉ r0)
    (hu : u ∈ run jsonRe ⟨prev, [], '"' :: (k ++ '"' :: ':' :: (w ++ '"' :: (v ++ '"' :: r0))),
      []⟩) :
    u.rest = r0 ∧ u.group 1 = k ∧ u.prev = some '"' ∧ sensitiveKey k = true ∧
      (∀ c ∈ v, (c != ',') = true) := by
  obtain ⟨a, kw, b, sp, val, r, ha, ⟨x, hx, hkw⟩, hb, hsp, hval, h1, rfl⟩ := jsonRe_mem.1 hu
  simp only [List.cons.injEq, true_and] at h1
  have hkq : ∀ c ∈ k, (fun c => c != '"') c = true := by
    intro c hc
    simp only [bne_iff_ne, ne_eq]
    rintro rfl
    exact hk hc
  have hkey : ∀ c ∈ a ++ (kw ++ b), (fun c => c != '"') c = true := by
    intro c hc
    rcases List.mem_append.1 hc with hc | hc
    · exact ha c hc
    · rcases List.mem_append.1 hc with hc | hc
      · simp only [bne_iff_ne, ne_eq]
        rintro rfl
        exact kw_text_not_mem (jsonKeywords_sub hx) hkw '"' (by decide) hc
      · have := hb c hc
        simp only [Bool.and_eq_true] at this
        exact this.1
  have h1' : k ++ '"' :: ':' :: (w ++ '"' :: (v ++ '"' :: r0)) =
      (a ++ (kw ++ b)) ++ '"' :: ':' :: (sp ++ '"' :: (val ++ '"' :: r)) := by
    rw [h1]; simp
  obtain ⟨e1, -, e2⟩ := span_unique h1' hkq hkey (by decide) (by decide)
  simp only [List.cons.injEq, true_and] at e2
  obtain ⟨e3, -, e4⟩ := span_unique (p := isSpace) e2 hw hsp (by decide) (by decide)
  have hb' : '_' ∉ b := by
    intro hmem
    have := hb _ hmem
    simp at this
  refine ⟨?_, ?_, rfl, ?_, ?_⟩
  · rcases first_occurrence e4 hv with ⟨-, h6⟩ | ⟨y, -, h6⟩
    · exact h6
    · exact absurd (by rw [h6]; simp) hr
  · simp [Thread.group, List.lookup, e1]
  · exact sensitiveKey_iff.2 ⟨a, kw, b, e1, ⟨x, hx, hkw⟩, hb'⟩
  · rcases first_occurrence e4 hv with ⟨h5, -⟩ | ⟨y, -, h6⟩
    · rw [← h5]; exact hval
    · exact absurd (by rw [h6]; simp) hr

/-- On one field `"k":w"v"` with a sensitive key the JSON pattern matches. -/
theorem json_field_exists (prev : Option Char) {k w v : List Char} (r0 : List Char)
    (hk : '"' ∉ k) (hw : ∀ c ∈ w, isSpace c = true) (hv : ∀ c ∈ v, (c != ',') = true)
    (hs : sensitiveKey k = true) :
    run jsonRe ⟨prev, [], '"' :: (k ++ '"' :: ':' :: (w ++ '"' :: (v ++ '"' :: r0))), []⟩
      ≠ [] := by
  obtain ⟨a, kw, b, rfl, hkw, hb⟩ := sensitiveKey_iff.1 hs
  apply List.ne_nil_of_mem
  rw [jsonRe_mem]
  refine ⟨a, kw, b, w, v, r0, ?_, hkw, ?_, hw, hv, by simp, rfl⟩
  · intro c hc
    simp only [bne_iff_ne, ne_eq]
    rintro rfl
    exact hk (List.mem_append_left _ hc)
  · intro c hc
    simp only [Bool.and_eq_true, bne_iff_ne, ne_eq]
    constructor
    · rintro rfl
      exact hk (List.mem_append_right _ (List.mem_append_right _ hc))
    · rintro rfl
      exact hb hc

theorem lineBegins_skip_no_nl (W : List Char) (p : Option Char) (a b : List Char)
    (hp : ¬(p = none ∨ p = some '\n')) (ha : '\n' ∉ a) :
    lineBegins W p (a ++ b) = lineBegins W (lastOr p a) b := by
  induction a generalizing p with
  | nil => rfl
  | cons c cs ih =>
    have e : lineBegins W p (c :: (cs ++ b)) =
        ((decide (p = none ∨ p = some '\n') && W.isPrefixOf (c :: (cs ++ b)))
          || lineBegins W (some c) (cs ++ b)) := rfl
    rw [List.cons_append, e, ih, lastOr_cons]
    · simp [hp]
    · rintro (h | h)
      · exact absurd h (by simp)
      · simp only [Option.some.injEq] at h
        subst h
        exact ha (List.mem_cons_self _ _)
    · exact fun h => ha (List.mem_cons_of_mem _ h)

theorem lineBegins_skip_head (l : Char) (W : List Char) (p : Option Char) (a b : List Char)
    (ha : l ∉ a) : lineBegins (l :: W) p (a ++ b) = lineBegins (l :: W) (lastOr p a) b := by
  induction a generalizing p with
  | nil => rfl
  | cons c cs ih =>
    have hc : (l == c) = false := by
      simp only [beq_eq_false_iff_ne, ne_eq]
      rintro rfl
      exact ha (List.mem_cons_self _ _)
    have e : lineBegins (l :: W) p (c :: (cs ++ b)) =
        ((decide (p = none ∨ p = some '\n') && (l :: W).isPrefixOf (c :: (cs ++ b)))
          || lineBegins (l :: W) (some c) (cs ++ b)) := rfl
    rw [List.cons_append, e, ih _ (fun h => ha (List.mem_cons_of_mem _ h)), lastOr_cons]
    simp [List.isPrefixOf, hc]

/-- No line of a field `{"k":w"v"}` begins with a word whose first letter is
`l`, when `l` is no brace, no quote and no blank. -/
theorem json_field_no_header (l : Char) (W k w v : List Char) (h1 : l ≠ '{') (h2 : l ≠ '"')
    (h3 : isBlank l = false) (hk : '\n' ∉ k) (hw : ∀ c ∈ w, isBlank c = true) (hv : '\n' ∉ v) :
    lineBegins (l :: W) none ('{' :: '"' :: (k ++ '"' :: ':' :: (w ++ '"' :: (v ++ ['"', '}']))))
      = false := by
  have e : '{' :: '"' :: (k ++ '"' :: ':' :: (w ++ '"' :: (v ++ ['"', '}']))) =
      ['{', '"'] ++ ((k ++ ['"', ':']) ++ ((w ++ ['"']) ++ (v ++ ['"', '}']))) := by simp
  rw [e, lineBegins_skip_head l W none ['{', '"'] _ (by
    simp only [List.mem_cons, List.not_mem_nil, or_false, not_or]
    exact ⟨h1, h2⟩)]
  rw [lineBegins_skip_no_nl _ _ _ _ (by simp [lastOr_cons]) (by
    simp only [List.mem_append, List.mem_cons, List.not_mem_nil, or_false, not_or]
    exact ⟨hk, by decide, by decide⟩)]
  rw [lineBegins_skip_head l W _ (w ++ ['"']) _ (by
    simp only [List.mem_append, List.mem_singleton, not_or]
    refine ⟨fun hm => ?_, h2⟩
    rw [hw l hm] at h3
    exact absurd h3 (by simp))]
  apply lineBegins_of_no_nl
  · simp [lastOr_append]
  · simp only [List.mem_append, List.mem_cons, List.not_mem_nil, or_false, not_or]
    exact ⟨hv, by decide, by decide⟩

theorem keyChar_ne {c x : Char} (h : isKeyChar c = true) (hx : isKeyChar x = false) : c ≠ x := by
  rintro rfl
  rw [h] at hx
  exact absurd hx (by simp)

theorem blank_ne {c x : Char} (h : isBlank c = true) (hx : isBlank x = false) : c ≠ x := by
  rintro rfl
  rw [h] at hx
  exact absurd hx (by simp)

theorem alnum_ne {c x : Char} (h : c.isAlphanum = true) (hx : x.isAlphanum = false) : c ≠ x := by
  rintro rfl
  rw [h] at hx
  exact absurd hx (by simp)

theorem blank_isSpace {c : Char} (h : isBlank c = true) : isSpace c = true := by
  simp only [isBlank, Bool.or_eq_true, beq_iff_eq] at h
  rcases h with ((rfl | rfl) | rfl) | rfl <;> decide

theorem not_mem_of_forall {p : Char → Bool} {s : List Char} (h : ∀ c ∈ s, p c = true)
    {x : Char} (hx : p x = false) : x ∉ s := by
  intro hm
  rw [h x hm] at hx
  exact absurd hx (by simp)

/-- The JSON rule on the field `{"k":w"v"}`. -/
theorem jsonRe_field (k w v : List Char) (hk : '"' ∉ k) (hw : ∀ c ∈ w, isSpace c = true)
    (hwq : '"' ∉ w) (hv : '"' ∉ v) (hvc : ∀ c ∈ v, (c != ',') = true) :
    resume jsonRe jsonRepl none
        ('{' :: '"' :: (k ++ '"' :: ':' :: (w ++ '"' :: (v ++ ['"', '}'])))) =
      if sensitiveKey k = true then
        '{' :: '"' :: (k ++ '"' :: ':' :: '"' :: (privateDataPlaceholder ++ ['"', '}']))
      else '{' :: '"' :: (k ++ '"' :: ':' :: (w ++ '"' :: (v ++ ['"', '}']))) := by
  split
  · rename_i hs
    have h0 : matchAt jsonRe none
        ('{' :: '"' :: (k ++ '"' :: ':' :: (w ++ '"' :: (v ++ ['"', '}'])))) = none := by
      cases hm : matchAt jsonRe none
          ('{' :: '"' :: (k ++ '"' :: ':' :: (w ++ '"' :: (v ++ ['"', '}'])))) with
      | none => rfl
      | some m => exact absurd (jsonRe_quote hm) (by simp)
    have hne := json_field_exists (some '{') ['}'] hk hw hvc hs
    cases hrun : run jsonRe ⟨some '{', [], '"' :: (k ++ '"' :: ':' :: (w ++ '"' :: (v ++ '"' :: ['}']))),
        []⟩ with
    | nil => exact absurd hrun hne
    | cons m ms =>
      have hmem : m ∈ run jsonRe ⟨some '{', [], '"' :: (k ++ '"' :: ':' :: (w ++ '"' ::
          (v ++ '"' :: ['}']))), []⟩ := by rw [hrun]; exact List.mem_cons_self _ _
      obtain ⟨p1, p2, p3, -, -⟩ := json_field_matches hk hw hv (by decide) hmem
      have hm : matchAt jsonRe (some '{')
          ('"' :: (k ++ '"' :: ':' :: (w ++ '"' :: (v ++ ['"', '}'])))) = some m := by
        rw [matchAt, hrun]; rfl
      rw [resume_skip minLen_jsonRe _ h0, resume_hit minLen_jsonRe _ hm, p1, p3]
      have e3 : resume jsonRe jsonRepl (some '"') ['}'] = ['}'] := by decide
      rw [e3]
      simp [expand, jsonRepl, p2]
  · rename_i hs
    apply resume_id minLen_jsonRe
    intro pre suf hsplit
    cases hm : matchAt jsonRe (lastOr none pre) suf with
    | none => rfl
    | some m =>
      exfalso
      have hmem : m ∈ run jsonRe ⟨lastOr none pre, [], suf, []⟩ := List.mem_of_mem_head? hm
      obtain ⟨a, kw, b, sp, val, r, -, -, -, -, -, h1, -⟩ := jsonRe_mem.1 hmem
      simp only at h1
      have hk0 : k.count '"' = 0 := List.count_eq_zero.2 hk
      have hw0 : w.count '"' = 0 := List.count_eq_zero.2 hwq
      have hv0 : v.count '"' = 0 := List.count_eq_zero.2 hv
      have hc := congrArg (List.count '"') hsplit
      rw [h1] at hc
      simp only [List.count_cons, List.count_append, List.count_nil, hk0, hw0, hv0,
        beq_self_eq_true, if_true] at hc
      have hpre : pre.count '"' = 0 := by
        have d1 : ('{' == '"') = false := by decide
        have d2 : (':' == '"') = false := by decide
        have d3 : ('}' == '"') = false := by decide
        simp only [d1, d2, d3] at hc
        simp at hc
        omega
      have hpre' : ∀ c ∈ pre, (fun c => c != '"') c = true := by
        intro c hc'
        simp only [bne_iff_ne, ne_eq]
        rintro rfl
        exact (List.count_eq_zero.1 hpre) hc'
      rw [h1] at hsplit
      have hsplit' : ['{'] ++ '"' :: (k ++ '"' :: ':' :: (w ++ '"' :: (v ++ ['"', '}']))) =
          pre ++ '"' :: (a ++ (kw ++ (b ++ '"' :: ':' :: (sp ++ '"' :: (val ++ '"' :: r))))) := by
        simpa using hsplit
      obtain ⟨e1, -, e2⟩ := span_unique hsplit' (by simp) hpre' (by decide) (by decide)
      subst e1
      have hmem' : m ∈ run jsonRe ⟨some '{', [],
          '"' :: (k ++ '"' :: ':' :: (w ++ '"' :: (v ++ '"' :: ['}']))), []⟩ := by
        rw [h1, ← e2] at hmem
        exact hmem
      obtain ⟨-, -, -, p4, -⟩ := json_field_matches hk hw hv (by decide) hmem'
      exact hs p4

/-- C3: on a field `{"k":w"v"}`, with `k` made of ASCII letters, digits and
underscores, `w` a run of spaces, tabs and line breaks and `v` made of ASCII
letters and digits, `Sanitize` returns `{"k":"[PRIVATE DATA HIDDEN]"}` (the key
kept, the blanks dropped) when `k` holds, in any letter case, an occurrence of
`password`, `token` or `apikey` with no underscore after it, and returns the
field unchanged otherwise. -/
theorem Sanitize_json_field (k w v : List Char) (hk : ∀ c ∈ k, isKeyChar c = true)
    (hw : ∀ c ∈ w, isBlank c = true) (hv : ∀ c ∈ v, c.isAlphanum = true) :
    Sanitize ("\x7b\"".toList ++ k ++ "\":".toList ++ w ++ "\"".toList ++ v ++ "\"\x7d".toList) =
      if sensitiveKey k = true then
        "\x7b\"".toList ++ k ++ "\":\"".toList ++ privateDataPlaceholder ++ "\"\x7d".toList
      else "\x7b\"".toList ++ k ++ "\":".toList ++ w ++ "\"".toList ++ v ++ "\"\x7d".toList := by
  have hin : "\x7b\"".toList ++ k ++ "\":".toList ++ w ++ "\"".toList ++ v ++ "\"\x7d".toList =
      '{' :: '"' :: (k ++ '"' :: ':' :: (w ++ '"' :: (v ++ ['"', '}']))) := by simp
  have hout : "\x7b\"".toList ++ k ++ "\":\"".toList ++ privateDataPlaceholder ++ "\"\x7d".toList =
      '{' :: '"' :: (k ++ '"' :: ':' :: '"' :: (privateDataPlaceholder ++ ['"', '}'])) := by simp
  have e1 : resume headerRe headerRepl none
      ('{' :: '"' :: (k ++ '"' :: ':' :: (w ++ '"' :: (v ++ ['"', '}'])))) =
      '{' :: '"' :: (k ++ '"' :: ':' :: (w ++ '"' :: (v ++ ['"', '}']))) :=
    headerRe_id _ _
      (json_field_no_header 'A' _ k w v (by decide) (by decide) (by decide)
        (not_mem_of_forall hk (by decide)) hw (not_mem_of_forall hv (by decide)))
      (json_field_no_header 'X' _ k w v (by decide) (by decide) (by decide)
        (not_mem_of_forall hk (by decide)) hw (not_mem_of_forall hv (by decide)))
  have e2 : resume queryRe queryRepl none
      ('{' :: '"' :: (k ++ '"' :: ':' :: (w ++ '"' :: (v ++ ['"', '}'])))) =
      '{' :: '"' :: (k ++ '"' :: ':' :: (w ++ '"' :: (v ++ ['"', '}']))) := by
    apply queryRe_id_of_no_eq
    simp only [List.mem_cons, List.mem_append, List.not_mem_nil, or_false, not_or]
    exact ⟨by decide, by decide, not_mem_of_forall hk (by decide), by decide, by decide,
      not_mem_of_forall hw (by decide), by decide, not_mem_of_forall hv (by decide), by decide,
      by decide⟩
  rw [Sanitize_eq, hin, hout, e1, e2]
  exact jsonRe_field k w v (not_mem_of_forall hk (by decide))
    (fun c hc => blank_isSpace (hw c hc)) (not_mem_of_forall hw (by decide))
    (not_mem_of_forall hv (by decide))
    (fun c hc => by
      simp only [bne_iff_ne, ne_eq]
      exact alnum_ne (hv c hc) (by decide))

/-- C3 at the `apikey` example of the specification. -/
theorem Sanitize_json_field_witness :
    Sanitize ("\x7b\"".toList ++ "apikey".toList ++ "\":".toList ++ " ".toList ++ "\"".toList ++
        "xyz987".toList ++ "\"\x7d".toList) =
      if sensitiveKey "apikey".toList = true then
        "\x7b\"".toList ++ "apikey".toList ++ "\":\"".toList ++ privateDataPlaceholder ++
          "\"\x7d".toList
      else "\x7b\"".toList ++ "apikey".toList ++ "\":".toList ++ " ".toList ++ "\"".toList ++
        "xyz987".toList ++ "\"\x7d".toList :=
  Sanitize_json_field "apikey".toList " ".toList "xyz987".toList (by decide) (by decide)
    (by decide)

theorem isPrefixOf_append_cut {W a b : List Char} {x : Char} (hx : x ∉ W)
    (h : W.isPrefixOf (a ++ x :: b) = true) : W.isPrefixOf a = true := by
  induction W generalizing a with
  | nil => simp
  | cons l ls ih =>
    cases a with
    | nil =>
      simp only [List.nil_append, List.isPrefixOf, Bool.and_eq_true, beq_iff_eq] at h
      exact absurd (h.1 ▸ List.mem_cons_self l ls) hx
    | cons c cs =>
      simp only [List.cons_append, List.isPrefixOf, Bool.and_eq_true, beq_iff_eq] at h ⊢
      exact ⟨h.1, ih (fun hm => hx (List.mem_cons_of_mem _ hm)) h.2⟩

theorem lineBegins_append_quote (l : Char) (W : List Char) (p : Option Char) (a : List Char)
    (hl : '"' ∉ l :: W) (h : lineBegins (l :: W) p a = false) :
    lineBegins (l :: W) p (a ++ ['"', '}']) = false := by
  induction a generalizing p with
  | nil =>
    have hq : (l == '"') = false := by
      simp only [beq_eq_false_iff_ne, ne_eq]
      rintro rfl
      exact hl (List.mem_cons_self _ _)
    simp [lineBegins, List.isPrefixOf, hq]
  | cons c cs ih =>
    have e : lineBegins (l :: W) p (c :: (cs ++ ['"', '}'])) =
        ((decide (p = none ∨ p = some '\n') && (l :: W).isPrefixOf (c :: (cs ++ ['"', '}'])))
          || lineBegins (l :: W) (some c) (cs ++ ['"', '}'])) := rfl
    have e0 : lineBegins (l :: W) p (c :: cs) =
        ((decide (p = none ∨ p = some '\n') && (l :: W).isPrefixOf (c :: cs))
          || lineBegins (l :: W) (some c) cs) := rfl
    rw [e0, Bool.or_eq_false_iff] at h
    rw [List.cons_append, e, ih _ h.2, Bool.or_false]
    cases hd : decide (p = none ∨ p = some '\n') with
    | false => rfl
    | true =>
      rw [hd, Bool.true_and] at h
      rw [Bool.true_and]
      cases hp : (l :: W).isPrefixOf (c :: (cs ++ ['"', '}'])) with
      | false => rfl
      | true =>
        have := isPrefixOf_append_cut (a := c :: cs) (b := ['}']) hl hp
        rw [this] at h
        exact absurd h.1 (by simp)

theorem prefixFold_append_cut {W a b : List Char} {x : Char}
    (hx : ∀ l ∈ W, chMatch true l x = false) (h : prefixFold W (a ++ x :: b) = true) :
    prefixFold W a = true := by
  induction W generalizing a with
  | nil => simp [prefixFold]
  | cons l ls ih =>
    cases a with
    | nil =>
      simp only [List.nil_append, prefixFold, Bool.and_eq_true] at h
      rw [hx l (List.mem_cons_self _ _)] at h
      exact absurd h.1 (by simp)
    | cons c cs =>
      simp only [List.cons_append, prefixFold, Bool.and_eq_true] at h ⊢
      exact ⟨h.1, ih (fun l hl => hx l (List.mem_cons_of_mem _ hl)) h.2⟩

theorem occursFold_append_quote (l : Char) (W : List Char) (a : List Char)
    (hq : ∀ x ∈ l :: W, chMatch true x '"' = false) (hb : chMatch true l '}' = false)
    (h : occursFold (l :: W) a = false) : occursFold (l :: W) (a ++ ['"', '}']) = false := by
  induction a with
  | nil =>
    simp [occursFold, prefixFold, hq l (List.mem_cons_self _ _), hb]
  | cons c cs ih =>
    simp only [occursFold, Bool.or_eq_false_iff] at h
    simp only [List.cons_append, occursFold, Bool.or_eq_false_iff]
    refine ⟨?_, ih h.2⟩
    cases hp : prefixFold (l :: W) (c :: (cs ++ ['"', '}'])) with
    | false => rfl
    | true =>
      have := prefixFold_append_cut (a := c :: cs) (b := ['}']) hq hp
      rw [this] at h
      exact absurd h.1 (by simp)

/-- On a password field with a plain secret, `Sanitize` returns the field with
the secret replaced. -/
theorem Sanitize_password_plain (v : List Char) (h : PlainSecret v) :
    Sanitize ("\x7b\"password\":\"".toList ++ v ++ "\"\x7d".toList) =
      "\x7b\"password\":\"[PRIVATE DATA HIDDEN]\"\x7d".toList := by
  obtain ⟨hq, hc, hA, hX, hkw⟩ := h
  have hin : "\x7b\"password\":\"".toList ++ v ++ "\"\x7d".toList =
      '{' :: '"' :: ("password".toList ++ '"' :: ':' :: ([] ++ '"' :: (v ++ ['"', '}']))) := by
    simp
  have hline : ∀ (l : Char) (W : List Char), l ≠ '{' → l ≠ '"' → '"' ∉ l :: W →
      lineBegins (l :: W) (some '"') v = false →
      lineBegins (l :: W) none
        ('{' :: '"' :: ("password".toList ++ '"' :: ':' :: ([] ++ '"' :: (v ++ ['"', '}']))))
        = false := by
    intro l W h1 h2 h3 h4
    have e : '{' :: '"' :: ("password".toList ++ '"' :: ':' :: ([] ++ '"' :: (v ++ ['"', '}'])))
        = ['{', '"'] ++ ("password\":\"".toList ++ (v ++ ['"', '}'])) := by simp
    rw [e, lineBegins_skip_head l W none ['{', '"'] _ (by
      simp only [List.mem_cons, List.not_mem_nil, or_false, not_or]
      exact ⟨h1, h2⟩)]
    rw [lineBegins_skip_no_nl _ _ _ _ (by simp [lastOr_cons]) (by decide)]
    exact lineBegins_append_quote l W _ v h3 h4
  have e1 := headerRe_id none _
    (hline 'A' _ (by decide) (by decide) (by decide) hA)
    (hline 'X' _ (by decide) (by decide) (by decide) hX)
  have e2 : resume queryRe queryRepl none
      ('{' :: '"' :: ("password".toList ++ '"' :: ':' :: ([] ++ '"' :: (v ++ ['"', '}'])))) =
      '{' :: '"' :: ("password".toList ++ '"' :: ':' :: ([] ++ '"' :: (v ++ ['"', '}']))) := by
    apply queryRe_id
    intro w hw
    have h5 := hkw w hw
    simp only [queryKeywords, List.mem_cons, List.mem_singleton, List.not_mem_nil,
      or_false] at hw
    rcases hw with rfl | rfl | rfl | rfl
    all_goals
      have h6 := occursFold_append_quote _ _ v (by decide) (by decide) h5
      simpa [occursFold, prefixFold, chMatch] using h6
  have e3 := jsonRe_field "password".toList [] v (by decide) (by simp) (by simp) hq
    (fun c hc' => by
      simp only [bne_iff_ne, ne_eq]
      rintro rfl
      exact hc hc')
  have hs : sensitiveKey "password".toList = true := by decide
  rw [Sanitize_eq, hin, e1, e2, e3, if_pos hs]
  rfl

/-- C2, as amended: for two plain secrets (no double quote and no comma, no
line feed followed by `Authorization` or `X-Auth`, no keyword followed by
`=`) the output of `Sanitize` on the password field does not depend on the
secret: both outputs are `{"password":"[PRIVATE DATA HIDDEN]"}`. -/
theorem Sanitize_password_independent (v1 v2 : List Char) (h1 : PlainSecret v1)
    (h2 : PlainSecret v2) :
    Sanitize ("\x7b\"password\":\"".toList ++ v1 ++ "\"\x7d".toList) =
        Sanitize ("\x7b\"password\":\"".toList ++ v2 ++ "\"\x7d".toList) ∧
      Sanitize ("\x7b\"password\":\"".toList ++ v1 ++ "\"\x7d".toList) =
        "\x7b\"password\":\"[PRIVATE DATA HIDDEN]\"\x7d".toList := by
  rw [Sanitize_password_plain v1 h1, Sanitize_password_plain v2 h2]
  exact ⟨rfl, rfl⟩

/-- C2, as amended, at the secrets `dog` and `hunter2&x=1`. -/
theorem Sanitize_password_independent_witness :
    Sanitize ("\x7b\"password\":\"".toList ++ "dog".toList ++ "\"\x7d".toList) =
        Sanitize ("\x7b\"password\":\"".toList ++ "hunter2&x=1".toList ++ "\"\x7d".toList) ∧
      Sanitize ("\x7b\"password\":\"".toList ++ "dog".toList ++ "\"\x7d".toList) =
        "\x7b\"password\":\"[PRIVATE DATA HIDDEN]\"\x7d".toList :=
  Sanitize_password_independent "dog".toList "hunter2&x=1".toList
    ⟨by decide, by decide, by decide, by decide, by decide⟩
    ⟨by decide, by decide, by decide, by decide, by decide⟩

/-- C2 fails as stated: the secrets `a,b` and `dog` hold no double quote, yet
`Sanitize` leaves the field with `a,b` as it is and redacts the one with `dog`. -/
theorem Sanitize_password_comma :
    '"' ∉ "a,b".toList ∧ '"' ∉ "dog".toList ∧
      Sanitize ("\x7b\"password\":\"".toList ++ "a,b".toList ++ "\"\x7d".toList) =
        "\x7b\"password\":\"a,b\"\x7d".toList ∧
      Sanitize ("\x7b\"password\":\"".toList ++ "dog".toList ++ "\"\x7d".toList) =
        "\x7b\"password\":\"[PRIVATE DATA HIDDEN]\"\x7d".toList ∧
      Sanitize ("\x7b\"password\":\"".toList ++ "a,b".toList ++ "\"\x7d".toList) ≠
        Sanitize ("\x7b\"password\":\"".toList ++ "dog".toList ++ "\"\x7d".toList) := by
  decide

/-! ### The sinks -/

/-- C6: `NewLogger` chooses its sink by the lower-cased setting alone: the
no-op sink when it is empty or "false", `NewStdLogger()` when it is "true" and
`NewFileLogger` on the setting in its own letter case otherwise; the sink is a
`NullLogger` exactly in the first case, and the prints of a `NullLogger` write
nothing. -/
theorem NewLogger_choice (env : Env) (s : List Char) (w : World) :
    (NewLogger env s w =
      if env.lower s = [] ∨ env.lower s = "false".toList then (Printer.null, w)
      else if env.lower s = "true".toList then
        (Printer.impl (NewStdLogger env w).1, (NewStdLogger env w).2)
      else (Printer.impl (NewFileLogger env s w).1, (NewFileLogger env s w).2)) ∧
    (NewLogger.choice env s = Choice.null ↔
      (env.lower s = [] ∨ env.lower s = "false".toList)) ∧
    (NewLogger.choice env s = Choice.std ↔ env.lower s = "true".toList) ∧
    (∀ p, NewLogger.choice env s = Choice.file p ↔
      (p = s ∧ ¬(env.lower s = [] ∨ env.lower s = "false".toList) ∧
        env.lower s ≠ "true".toList)) ∧
    ((NewLogger env s w).1 = Printer.null ↔
      (env.lower s = [] ∨ env.lower s = "false".toList)) ∧
    (∀ (v : List (List Char)) (f : List Char) (x : World),
      Printer.null.Print v x = x ∧ Printer.null.Printf f x = x ∧
        Printer.null.Println v x = x) := by
  have ht : ¬("true".toList = [] ∨ "true".toList = "false".toList) := by decide
  have hc : NewLogger.choice env s =
      if env.lower s = [] ∨ env.lower s = "false".toList then Choice.null
      else if env.lower s = "true".toList then Choice.std else Choice.file s := rfl
  by_cases h1 : env.lower s = [] ∨ env.lower s = "false".toList
  · have h2 : env.lower s ≠ "true".toList := fun h => ht (h ▸ h1)
    have hc1 : NewLogger.choice env s = Choice.null := by rw [hc, if_pos h1]
    have hn : NewLogger env s w = (Printer.null, w) := by
      unfold NewLogger
      rw [hc1]
    refine ⟨by rw [hn, if_pos h1], ⟨fun _ => h1, fun _ => hc1⟩, ?_, ?_, ?_,
      fun _ _ _ => ⟨rfl, rfl, rfl⟩⟩
    · rw [hc1]
      exact ⟨fun h => (by cases h), fun h => absurd h h2⟩
    · intro p
      rw [hc1]
      exact ⟨fun h => (by cases h), fun h => absurd h1 h.2.1⟩
    · rw [hn]
      exact ⟨fun _ => h1, fun _ => rfl⟩
  · by_cases h2 : env.lower s = "true".toList
    · have hc1 : NewLogger.choice env s = Choice.std := by rw [hc, if_neg h1, if_pos h2]
      have hn : NewLogger env s w =
          (Printer.impl (NewStdLogger env w).1, (NewStdLogger env w).2) := by
        unfold NewLogger
        rw [hc1]
      refine ⟨by rw [hn, if_neg h1, if_pos h2], ?_, ⟨fun _ => h2, fun _ => hc1⟩, ?_, ?_,
        fun _ _ _ => ⟨rfl, rfl, rfl⟩⟩
      · rw [hc1]
        exact ⟨fun h => (by cases h), fun h => absurd h h1⟩
      · intro p
        rw [hc1]
        exact ⟨fun h => (by cases h), fun h => absurd h2 h.2.2⟩
      · rw [hn]
        exact ⟨fun h => (by cases h), fun h => absurd h h1⟩
    · have hc1 : NewLogger.choice env s = Choice.file s := by rw [hc, if_neg h1, if_neg h2]
      have hn : NewLogger env s w =
          (Printer.impl (NewFileLogger env s w).1, (NewFileLogger env s w).2) := by
        unfold NewLogger
        rw [hc1]
      refine ⟨by rw [hn, if_neg h1, if_neg h2], ?_, ?_, ?_, ?_, fun _ _ _ => ⟨rfl, rfl, rfl⟩⟩
      · rw [hc1]
        exact ⟨fun h => (by cases h), fun h => absurd h h1⟩
      · rw [hc1]
        exact ⟨fun h => (by cases h), fun h => absurd h h2⟩
      · intro p
        rw [hc1]
        constructor
        · intro h
          cases h
          exact ⟨rfl, h1, h2⟩
        · rintro ⟨rfl, -, -⟩
          rfl
      · rw [hn]
        exact ⟨fun h => (by cases h), fun h => absurd h h1⟩

/-- C9: the `Close` of a sink built by `newLoggerImpl` over the writer `out`
is, when `out` is closable, one `Close` call on `out`, whose result it returns
(the call count of `out` goes up by one, that of no other stream changes and
nothing is written); when `out` is not closable it returns nil and leaves the
world as it is. -/
theorem Close_propagates (env : Env) (out : Writer) (pfx : List Char) (flag : Nat) (w : World) :
    ((newLoggerImpl out pfx flag).Close env w =
      if out.closable = true then w.close env out else (none, w)) ∧
    (w.close env out).1 = env.closeErr out.id (w.closed out.id) ∧
    (w.close env out).2.closeCalls out.id = w.closeCalls out.id + 1 ∧
    (∀ j, j ≠ out.id → (w.close env out).2.closeCalls j = w.closeCalls j) ∧
    (w.close env out).2.written = w.written := by
  refine ⟨?_, rfl, ?_, ?_, rfl⟩
  · unfold loggerImpl.Close newLoggerImpl
    cases h : out.closable <;> simp
  · simp [World.close]
  · intro j hj
    simp [World.close, hj]

/-- C8 fails as stated: the sink returned for the empty setting is a
`NullLogger`, which has no close operation at all, and when
`terminal.ErrOutput` is closable, as `os.Stderr` is, closing the sink of
`NewStdLogger` closes the error stream, which takes no text afterwards. -/
theorem Close_std_closes_stderr :
    (NewLogger envClosableErr [] World.fresh).1.asCloser = none ∧
    ((NewStdLogger envClosableErr World.fresh).1.Close envClosableErr World.fresh).2.closed
      envClosableErr.ErrOutput.id = true ∧
    ((((NewStdLogger envClosableErr World.fresh).1.Close envClosableErr World.fresh).2.write
      envClosableErr.ErrOutput "trace".toList).written envClosableErr.ErrOutput.id) = [] := by
  decide

/-- C8, as amended: the sink returned for the empty setting and for "false"
has no close operation; the `Close` of the sink of `NewStdLogger` returns nil
and leaves every stream as it is, the error stream open and writable as
before, when `terminal.ErrOutput` is not closable, and is one `Close` call on
`terminal.ErrOutput`, which closes it, when it is closable. -/
theorem Close_unowned (env : Env) (s : List Char) (w : World) :
    ((env.lower s = [] ∨ env.lower s = "false".toList) →
      (NewLogger env s w).1.asCloser = none) ∧
    (env.ErrOutput.closable = false →
      (NewStdLogger env w).1.Close env w = (none, w)) ∧
    (env.ErrOutput.closable = true →
      (NewStdLogger env w).1.Close env w = w.close env env.ErrOutput ∧
      (w.close env env.ErrOutput).2.closed env.ErrOutput.id = true) := by
  refine ⟨fun h => ?_, fun h => ?_, fun h => ⟨?_, ?_⟩⟩
  · have hc : NewLogger.choice env s = Choice.null := by
      unfold NewLogger.choice
      rw [if_pos h]
    have : (NewLogger env s w).1 = Printer.null := by
      unfold NewLogger
      rw [hc]
    rw [this]
    rfl
  · simp [NewStdLogger, newLoggerImpl, loggerImpl.Close, h]
  · simp [NewStdLogger, newLoggerImpl, loggerImpl.Close, h]
  · simp [World.close]

/-- C8, as amended, where `terminal.ErrOutput` has no `Close` method. -/
theorem Close_unowned_witness :
    (NewLogger envPlainErr "FALSE".toList World.fresh).1.asCloser = none ∧
    (NewStdLogger envPlainErr World.fresh).1.Close envPlainErr World.fresh =
      (none, World.fresh) :=
  ⟨(Close_unowned envPlainErr "FALSE".toList World.fresh).1 (by decide),
    (Close_unowned envPlainErr "FALSE".toList World.fresh).2.1 (by decide)⟩

theorem span_of_all {p : Char → Bool} {s : List Char} (h : ∀ c ∈ s, p c = true) :
    s.span p = (s, []) := by
  rw [List.span_eq_take_drop, List.takeWhile_eq_self_iff.2 h]
  simp only [Prod.mk.injEq, true_and, List.dropWhile_eq_nil_iff]
  exact h

/-- A format without `%` is written as it is. -/
theorem Sprintf_plain (s : List Char) (h : '%' ∉ s) : Sprintf s = s := by
  have hs : s.span (fun c => c != '%') = (s, []) := by
    apply span_of_all
    intro c hc
    simp only [bne_iff_ne, ne_eq]
    rintro rfl
    exact h hc
  rw [Sprintf, sprintfLoop, hs]

/-- When the file cannot be opened, `NewFileLogger` returns the sink of
`NewStdLogger` and writes one line to `terminal.ErrOutput`: the message,
passed through `Printf` as a format. -/
theorem NewFileLogger_fallback (env : Env) (path err : List Char) (w : World)
    (h : env.openFile path = .error err) :
    NewFileLogger env path w =
      (newLoggerImpl env.ErrOutput [] 0,
        w.write env.ErrOutput (logOutput [] (Sprintf (T path err)))) := by
  simp [NewFileLogger, h, NewStdLogger, Printer.Printf, newLoggerImpl]

set_option maxRecDepth 20000 in
/-- C7 fails on a path that holds a `%`: `NewFileLogger` does fall back to the
error stream, but the message is used as the format of `Printf`, so what is
written holds neither the path nor the message of the error as given. -/
theorem NewFileLogger_percent_path :
    envPlainErr.openFile "/nonexistent/50%off/trace.log".toList =
      .error "open /nonexistent/50%off/trace.log: no such file or directory".toList ∧
    (NewFileLogger envPlainErr "/nonexistent/50%off/trace.log".toList World.fresh).1 =
      (NewStdLogger envPlainErr World.fresh).1 ∧
    (NewFileLogger envPlainErr "/nonexistent/50%off/trace.log".toList World.fresh).2.written 2 =
      ("An error occurred when creating log file '/nonexistent/50%!o(MISSING)ff/trace.log':\n"
        ++ "open /nonexistent/50%!o(MISSING)ff/trace.log: no such file or directory\n\n").toList ∧
    occurs "/nonexistent/50%off/trace.log".toList
      ((NewFileLogger envPlainErr "/nonexistent/50%off/trace.log".toList
        World.fresh).2.written 2) = false ∧
    occurs "open /nonexistent/50%off/trace.log: no such file or directory".toList
      ((NewFileLogger envPlainErr "/nonexistent/50%off/trace.log".toList
        World.fresh).2.written 2) = false := by
  refine ⟨rfl, ?_⟩
  decide



theorem chMatch_nice {l : Char} (hl : niceChar l = true) (c : Char) :
    chMatch true l c = (foldKey c == l) := by
  simp only [niceChar, Bool.and_eq_true, beq_iff_eq, bne_iff_ne, ne_eq] at hl
  obtain ⟨⟨h1, h2⟩, h3⟩ := hl
  simp only [chMatch, if_true, h1, foldKey]
  by_cases hK : c = Char.ofNat 0x212A
  · subst hK
    have e1 : (Char.ofNat 0x212A).toLower = Char.ofNat 0x212A := by decide
    have e2 : (Char.ofNat 0x212A == Char.ofNat 0x17F) = false := by decide
    have e3 : (Char.ofNat 0x212A == l) = false := by
      simp only [beq_eq_false_iff_ne, ne_eq]
      exact fun h => h2 h.symm
    simp only [e1, e2, e3, if_true, beq_self_eq_true, Bool.and_true, Bool.and_false,
      Bool.or_false, Bool.false_or]
    exact Bool.beq_comm
  · by_cases hS : c = Char.ofNat 0x17F
    · subst hS
      have e1 : (Char.ofNat 0x17F).toLower = Char.ofNat 0x17F := by decide
      have e2 : (Char.ofNat 0x17F == Char.ofNat 0x212A) = false := by decide
      have e3 : (Char.ofNat 0x17F == l) = false := by
        simp only [beq_eq_false_iff_ne, ne_eq]
        exact fun h => h3 h.symm
      have e4 : ¬(Char.ofNat 0x17F = Char.ofNat 0x212A) := by decide
      simp only [e1, e2, e3, e4, if_true, if_false, beq_self_eq_true, Bool.and_true,
        Bool.and_false, Bool.or_false, Bool.false_or]
      exact Bool.beq_comm
    · have e1 : (c == Char.ofNat 0x212A) = false := by simpa using hK
      have e2 : (c == Char.ofNat 0x17F) = false := by simpa using hS
      simp only [e1, e2, hK, hS, if_false, Bool.and_false, Bool.or_false]

theorem litOk_fold_iff {w : List Char} (hw : ∀ l ∈ w, niceChar l = true) (k : List Char) :
    litOk true w k ↔ k.map foldKey = w := by
  constructor
  · intro h
    induction h with
    | nil => rfl
    | cons hc _ ih =>
      rw [chMatch_nice (hw _ (List.mem_cons_self _ _)), beq_iff_eq] at hc
      rw [List.map_cons, hc, ih (fun l hl => hw l (List.mem_cons_of_mem _ hl))]
  · intro h
    induction k generalizing w with
    | nil =>
      simp only [List.map_nil] at h
      subst h
      exact List.Forall₂.nil
    | cons c cs ih =>
      simp only [List.map_cons] at h
      subst h
      refine List.Forall₂.cons ?_ (ih (fun l hl => hw l (List.mem_cons_of_mem _ hl)) rfl)
      rw [chMatch_nice (hw _ (List.mem_cons_self _ _))]
      simp

theorem queryKeywords_nice : ∀ w ∈ queryKeywords, ∀ l ∈ w, niceChar l = true := by decide

theorem eqSign_nice : ∀ l ∈ ['='], niceChar l = true := by decide

/-- A text that matches a keyword, in any letter case. -/
theorem kw_litOk {w kw : List Char} (hw : w ∈ queryKeywords) :
    litOk true w kw ↔ kw.map foldKey = w :=
  litOk_fold_iff (queryKeywords_nice w hw) kw

theorem foldKey_of_toLower {c l : Char} (h : c.toLower = l) (hl : l.isLower = true) :
    foldKey c = l := by
  unfold foldKey
  split
  · rename_i hK
    subst hK
    rw [show (Char.ofNat 0x212A).toLower = Char.ofNat 0x212A from by decide] at h
    subst h
    exact absurd hl (by decide)
  · split
    · rename_i hS
      subst hS
      rw [show (Char.ofNat 0x17F).toLower = Char.ofNat 0x17F from by decide] at h
      subst h
      exact absurd hl (by decide)
    · exact h

theorem map_foldKey_of_toLower {k w : List Char} (h : k.map Char.toLower = w)
    (hw : ∀ l ∈ w, l.isLower = true) : k.map foldKey = w := by
  induction k generalizing w with
  | nil => simpa using h
  | cons c cs ih =>
    simp only [List.map_cons] at h
    subst h
    rw [List.map_cons, foldKey_of_toLower rfl (hw _ (List.mem_cons_self _ _)),
      ih rfl (fun l hl => hw l (List.mem_cons_of_mem _ hl))]

/-- No keyword is a proper beginning of another. -/
theorem keywords_no_prefix :
    ∀ w ∈ queryKeywords, ∀ w' ∈ queryKeywords, w <+: w' → w = w' := by decide

/-- No keyword is a proper end of another. -/
theorem keywords_no_suffix :
    ∀ w ∈ queryKeywords, ∀ w' ∈ queryKeywords, w <:+ w' → w = w' := by decide

/-- Two keyword texts at the head of one text are the same. -/
theorem kw_head_unique {k k' r r' : List Char} (hk : k.map foldKey ∈ queryKeywords)
    (hk' : k'.map foldKey ∈ queryKeywords) (h : k ++ r = k' ++ r') : k = k' ∧ r = r' := by
  rcases List.append_eq_append_iff.1 h with ⟨x, h1, h2⟩ | ⟨x, h1, h2⟩
  · have hp : k.map foldKey <+: k'.map foldKey := by
      rw [h1, List.map_append]; exact List.prefix_append _ _
    have e := keywords_no_prefix _ hk _ hk' hp
    have hl : k.length = k'.length := by
      have := congrArg List.length e
      simpa using this
    rw [h1] at hl
    simp only [List.length_append] at hl
    have hx : x = [] := List.eq_nil_of_length_eq_zero (by omega)
    subst hx
    simp only [List.append_nil] at h1
    simp only [List.nil_append] at h2
    exact ⟨h1.symm, h2⟩
  · have hp : k'.map foldKey <+: k.map foldKey := by
      rw [h1, List.map_append]; exact List.prefix_append _ _
    have e := keywords_no_prefix _ hk' _ hk hp
    have hl : k'.length = k.length := by
      have := congrArg List.length e
      simpa using this
    rw [h1] at hl
    simp only [List.length_append] at hl
    have hx : x = [] := List.eq_nil_of_length_eq_zero (by omega)
    subst hx
    simp only [List.append_nil] at h1
    simp only [List.nil_append] at h2
    exact ⟨h1, h2.symm⟩

/-- A character whose representative is in no keyword is in no keyword text. -/
theorem kwText_not_mem {kw : List Char} (hk : kw.map foldKey ∈ queryKeywords) (x : Char)
    (hx : ∀ w ∈ queryKeywords, foldKey x ∉ w) : x ∉ kw := by
  intro hmem
  exact hx _ hk (List.mem_map_of_mem _ hmem)

theorem kwText_ne_nil {kw : List Char} (hk : kw.map foldKey ∈ queryKeywords) : kw ≠ [] := by
  rintro rfl
  exact absurd hk (by decide)



/-! ### The query rule at any position -/

theorem queryWords_mem {t u : Thread} :
    u ∈ run queryWords t ↔
      ∃ kw r, kw.map foldKey ∈ queryKeywords ∧ t.rest = kw ++ r ∧ u = t.adv kw r := by
  simp only [queryWords, mem_run_alt, mem_lit]
  constructor
  · rintro (⟨k, r, hk, h1, rfl⟩ | ⟨k, r, hk, h1, rfl⟩ | ⟨k, r, hk, h1, rfl⟩ |
      ⟨k, r, hk, h1, rfl⟩)
    · exact ⟨k, r, by rw [(kw_litOk (by decide)).1 hk]; decide, h1, rfl⟩
    · exact ⟨k, r, by rw [(kw_litOk (by decide)).1 hk]; decide, h1, rfl⟩
    · exact ⟨k, r, by rw [(kw_litOk (by decide)).1 hk]; decide, h1, rfl⟩
    · exact ⟨k, r, by rw [(kw_litOk (by decide)).1 hk]; decide, h1, rfl⟩
  · rintro ⟨k, r, hk, h1, rfl⟩
    have hk' := hk
    simp only [queryKeywords, List.mem_cons, List.mem_singleton, List.not_mem_nil,
      or_false] at hk'
    rcases hk' with h | h | h | h
    · exact Or.inl ⟨k, r, (kw_litOk (by decide)).2 h, h1, rfl⟩
    · exact Or.inr (Or.inl ⟨k, r, (kw_litOk (by decide)).2 h, h1, rfl⟩)
    · exact Or.inr (Or.inr (Or.inl ⟨k, r, (kw_litOk (by decide)).2 h, h1, rfl⟩))
    · exact Or.inr (Or.inr (Or.inr ⟨k, r, (kw_litOk (by decide)).2 h, h1, rfl⟩))

theorem queryWords_head {kw r : List Char} (hk : kw.map foldKey ∈ queryKeywords) (t : Thread)
    (h : t.rest = kw ++ r) : (run queryWords t).head? = some (t.adv kw r) := by
  apply head?_of_forall
  · exact List.ne_nil_of_mem (queryWords_mem.2 ⟨kw, r, hk, h, rfl⟩)
  · intro u hu
    obtain ⟨kw', r', hk', h', rfl⟩ := queryWords_mem.1 hu
    rw [h] at h'
    obtain ⟨e1, e2⟩ := kw_head_unique hk hk' h'
    rw [e1, e2]

theorem head?_map_some {α β : Type} {l : List α} {a : α} (f : α → β) (h : l.head? = some a) :
    (l.map f).head? = some (f a) := by
  cases l with
  | nil => simp at h
  | cons x xs =>
    simp only [List.head?_cons, Option.some.injEq] at h
    subst h
    rfl

/-- The query rule at a keyword followed by `=`: the match runs through the
first `&`, or to the end of the text when there is none. -/
theorem queryRe_match {kw v d r : List Char} (hk : kw.map foldKey ∈ queryKeywords)
    (prev : Option Char) (hv : '&' ∉ v) (hd : d = ['&'] ∨ (d = [] ∧ r = [])) :
    matchAt queryRe prev (kw ++ '=' :: (v ++ (d ++ r))) =
      some ⟨lastOr (some '=') (v ++ d), kw ++ '=' :: (v ++ d), r, [(2, d), (1, kw)]⟩ := by
  rw [matchAt, queryRe]
  have h1 : (run (.cap 1 queryWords) ⟨prev, [], kw ++ '=' :: (v ++ (d ++ r)), []⟩).head? =
      some ⟨lastOr prev kw, kw, '=' :: (v ++ (d ++ r)), [(1, kw)]⟩ := by
    conv_lhs => rw [run]
    rw [head?_map_some _ (queryWords_head hk _ rfl)]
    simp [Thread.adv]
  refine head?_run_cat h1 ?_
  have hl : litOk true "=".toList ['='] := litOk_single (by decide)
  conv_lhs => rw [run]
  rw [run_lit_eq hl _ (v ++ (d ++ r)) rfl]
  simp only [List.flatMap_cons, List.flatMap_nil, List.append_nil]
  rcases hd with rfl | ⟨rfl, rfl⟩
  · rw [query_tail_amp _ v r (by simp [Thread.adv]) hv]
    simp [Thread.adv, Thread.close, lastOr_append]
  · rw [query_tail_end _ v (by simp [Thread.adv]) hv]
    simp [Thread.adv, Thread.close, lastOr_append]

theorem span_at_first (x : Char) (s : List Char) :
    ∃ v rest, s = v ++ rest ∧ x ∉ v ∧ (rest = [] ∨ ∃ r, rest = x :: r) := by
  induction s with
  | nil => exact ⟨[], [], rfl, by simp, Or.inl rfl⟩
  | cons c cs ih =>
    by_cases hc : c = x
    · subst hc
      exact ⟨[], c :: cs, rfl, by simp, Or.inr ⟨cs, rfl⟩⟩
    · obtain ⟨v, rest, h1, h2, h3⟩ := ih
      refine ⟨c :: v, rest, by rw [h1]; rfl, ?_, h3⟩
      simp only [List.mem_cons, not_or]
      exact ⟨fun h => hc h.symm, h2⟩

theorem litOk_append_inv {f : Bool} {w1 w2 k : List Char} (h : litOk f (w1 ++ w2) k) :
    ∃ k1 k2, k = k1 ++ k2 ∧ litOk f w1 k1 ∧ litOk f w2 k2 := by
  induction w1 generalizing k with
  | nil => exact ⟨[], k, rfl, List.Forall₂.nil, h⟩
  | cons a as ih =>
    cases h with
    | cons hc hk =>
      obtain ⟨k1, k2, rfl, h1, h2⟩ := ih hk
      exact ⟨_ :: k1, k2, rfl, List.Forall₂.cons hc h1, h2⟩

/-- The shape of every match of the query rule. -/
theorem queryRe_match_inv {prev : Option Char} {s : List Char} {m : Thread}
    (h : matchAt queryRe prev s = some m) :
    ∃ kw v d r, kw.map foldKey ∈ queryKeywords ∧ '&' ∉ v ∧ (d = ['&'] ∨ (d = [] ∧ r = [])) ∧
      s = kw ++ '=' :: (v ++ (d ++ r)) ∧
      m = ⟨lastOr (some '=') (v ++ d), kw ++ '=' :: (v ++ d), r, [(2, d), (1, kw)]⟩ := by
  obtain ⟨w, hw, hp⟩ := queryRe_start h
  obtain ⟨k, r0, hs, hk⟩ := prefixFold_split hp
  obtain ⟨kw, k2, rfl, hkw, hk2⟩ := litOk_append_inv hk
  obtain ⟨c, rfl, hc⟩ := litOk_single_inv hk2
  have hc' := chMatch_eq_sign hc
  subst hc'
  have hkw' : kw.map foldKey ∈ queryKeywords := by
    rw [(kw_litOk hw).1 hkw]; exact hw
  obtain ⟨v, rest, h1, h2, h3⟩ := span_at_first '&' r0
  rcases h3 with rfl | ⟨r, rfl⟩
  · refine ⟨kw, v, [], [], hkw', h2, Or.inr ⟨rfl, rfl⟩, by simp [hs, h1], ?_⟩
    have := queryRe_match hkw' prev h2 (Or.inr ⟨rfl, rfl⟩) (d := []) (r := [])
    have hs' : s = kw ++ '=' :: (v ++ ([] ++ [])) := by simp [hs, h1]
    rw [hs', this] at h
    exact (Option.some.inj h).symm
  · refine ⟨kw, v, ['&'], r, hkw', h2, Or.inl rfl, by simp [hs, h1], ?_⟩
    have := queryRe_match hkw' prev h2 (Or.inl rfl) (d := ['&']) (r := r)
    have hs' : s = kw ++ '=' :: (v ++ (['&'] ++ r)) := by simp [hs, h1]
    rw [hs', this] at h
    exact (Option.some.inj h).symm

theorem queryRe_prev (p p' : Option Char) (s : List Char) :
    matchAt queryRe p s = matchAt queryRe p' s := by
  cases h : matchAt queryRe p s with
  | some m =>
    obtain ⟨kw, v, d, r, hk, hv, hd, rfl, rfl⟩ := queryRe_match_inv h
    exact (queryRe_match hk p' hv hd).symm
  | none =>
    cases h' : matchAt queryRe p' s with
    | none => rfl
    | some m =>
      obtain ⟨kw, v, d, r, hk, hv, hd, rfl, rfl⟩ := queryRe_match_inv h'
      rw [queryRe_match hk p hv hd] at h
      exact absurd h (by simp)



/-! ### Fixed points of a replacement -/

theorem resume_prev_irrel {re : Regex} (hne : 0 < minLen re) (repl : List TItem)
    (hp : ∀ p q s, matchAt re p s = matchAt re q s) (p q : Option Char) (s : List Char) :
    resume re repl p s = resume re repl q s := by
  cases s with
  | nil => rw [resume_nil hne, resume_nil hne]
  | cons c cs =>
    cases hm : matchAt re p (c :: cs) with
    | none =>
      have hm' : matchAt re q (c :: cs) = none := by rw [← hp p q]; exact hm
      rw [resume_skip hne repl hm, resume_skip hne repl hm']
    | some m =>
      have hm' : matchAt re q (c :: cs) = some m := by rw [← hp p q]; exact hm
      rw [resume_hit hne repl hm, resume_hit hne repl hm']

/-- A text in which every match, at every position, is replaced by itself is
returned as it is. -/
theorem resume_fixed {re : Regex} (hne : 0 < minLen re) (repl : List TItem) :
    ∀ (n : Nat) (prev : Option Char) (s : List Char), s.length ≤ n →
      (∀ pre suf m, s = pre ++ suf → matchAt re (lastOr prev pre) suf = some m →
        expand repl m = m.taken) →
      resume re repl prev s = s := by
  intro n
  induction n with
  | zero =>
    intro prev s hn _
    have : s = [] := List.eq_nil_of_length_eq_zero (by omega)
    subst this
    exact resume_nil hne repl prev
  | succ n ih =>
    intro prev s hn h
    cases s with
    | nil => exact resume_nil hne repl prev
    | cons c cs =>
      cases hm : matchAt re prev (c :: cs) with
      | none =>
        rw [resume_skip hne repl hm, ih (some c) cs (by simpa using hn)]
        intro pre suf m hs hm'
        exact h (c :: pre) suf m (by rw [hs]; rfl) (by rw [lastOr_cons]; exact hm')
      | some m =>
        obtain ⟨e1, e2, e3⟩ := matchAt_frame hm
        have hne1 := taken_ne_nil hne e3
        have hl : m.rest.length ≤ n := by
          have := congrArg List.length e1
          simp only [List.length_cons, List.length_append] at this hn
          have : 0 < m.taken.length := List.length_pos.2 hne1
          omega
        rw [resume_hit hne repl hm, h [] (c :: cs) m rfl hm, ih m.prev m.rest hl]
        · exact e1.symm
        · intro pre suf m' hs hm'
          refine h (m.taken ++ pre) suf m' (by rw [e1, hs, List.append_assoc]) ?_
          rw [lastOr_append, ← e2]
          exact hm'

/-- A property of texts that survives the replacement of one match survives
the replacement of all. -/
theorem preserve_resume {re : Regex} (hne : 0 < minLen re) (repl : List TItem)
    (hp : ∀ p q s, matchAt re p s = matchAt re q s) (G : List Char → Prop)
    (hSR : ∀ a s m, matchAt re none s = some m → G (a ++ s) →
      G (a ++ (expand repl m ++ m.rest))) :
    ∀ (n : Nat) (a s : List Char) (p : Option Char), s.length ≤ n → G (a ++ s) →
      G (a ++ resume re repl p s) := by
  intro n
  induction n with
  | zero =>
    intro a s p hn h
    have : s = [] := List.eq_nil_of_length_eq_zero (by omega)
    subst this
    rw [resume_nil hne]
    exact h
  | succ n ih =>
    intro a s p hn h
    cases s with
    | nil =>
      rw [resume_nil hne]
      exact h
    | cons c cs =>
      cases hm : matchAt re p (c :: cs) with
      | none =>
        rw [resume_skip hne repl hm]
        have := ih (a ++ [c]) cs (some c) (by simpa using hn) (by simpa using h)
        simpa using this
      | some m =>
        obtain ⟨e1, e2, e3⟩ := matchAt_frame hm
        have hne1 := taken_ne_nil hne e3
        have hl : m.rest.length ≤ n := by
          have := congrArg List.length e1
          simp only [List.length_cons, List.length_append] at this hn
          have : 0 < m.taken.length := List.length_pos.2 hne1
          omega
        rw [resume_hit hne repl hm]
        have h2 := hSR a (c :: cs) m (by rw [hp none p]; exact hm) h
        have := ih (a ++ expand repl m) m.rest m.prev hl (by simpa using h2)
        simpa using this



theorem noKwStart_spec {x : List Char} (hx : noKwStart x = true) (T kw r : List Char)
    (hk : kw.map foldKey ∈ queryKeywords) : x ++ T ≠ kw ++ r := by
  intro h
  simp only [noKwStart, Bool.and_eq_true, Bool.not_eq_true', List.all_eq_true,
    Bool.or_eq_true, bne_iff_ne, ne_eq, decide_eq_true_eq] at hx
  obtain ⟨hne, hall⟩ := hx
  have hlen : 5 ≤ kw.length := by
    have : ∀ w ∈ queryKeywords, 5 ≤ w.length := by decide
    have := this _ hk
    simpa using this
  cases x with
  | nil => simp at hne
  | cons c cs =>
    cases kw with
    | nil => simp at hlen
    | cons k ks =>
      simp only [List.cons_append, List.cons.injEq] at h
      obtain ⟨rfl, h⟩ := h
      rcases hall _ hk with h1 | ⟨h2, h3⟩
      · apply h1
        simp
      · cases cs with
        | nil => simp at h2
        | cons c2 cs2 =>
          cases ks with
          | nil => simp at hlen
          | cons k2 ks2 =>
            simp only [List.cons_append, List.cons.injEq] at h
            obtain ⟨rfl, h⟩ := h
            apply h3
            simp

theorem split_first_of_mem {x : Char} {s : List Char} (h : x ∈ s) :
    ∃ a b, s = a ++ x :: b ∧ x ∉ a := by
  obtain ⟨v, rest, h1, h2, h3⟩ := span_at_first x s
  rcases h3 with rfl | ⟨r, rfl⟩
  · simp only [List.append_nil] at h1
    subst h1
    exact absurd h h2
  · exact ⟨v, r, h1, h2⟩

theorem kw_eq_unique {kw kw' r r' : List Char} (hk : kw.map foldKey ∈ queryKeywords)
    (hk' : kw'.map foldKey ∈ queryKeywords) (h : kw ++ '=' :: r = kw' ++ '=' :: r') :
    kw = kw' ∧ r = r' := by
  have h1 : ∀ {k : List Char}, k.map foldKey ∈ queryKeywords →
      ∀ c ∈ k, (fun c => c != '=') c = true := by
    intro k hk c hc
    simp only [bne_iff_ne, ne_eq]
    rintro rfl
    exact kwText_not_mem hk '=' (by decide) hc
  obtain ⟨e1, -, e2⟩ := span_unique h (h1 hk) (h1 hk') (by decide) (by decide)
  exact ⟨e1, e2⟩

/-- A keyword followed by `=` at the head of `x ++ resume s` is one at the
head of `x ++ s`. -/
theorem query_head_preserved :
    ∀ (n : Nat) (x s : List Char) (p : Option Char) (kw r : List Char), s.length ≤ n →
      kw.map foldKey ∈ queryKeywords → x ++ resume queryRe queryRepl p s = kw ++ '=' :: r →
      ∃ r2, x ++ s = kw ++ '=' :: r2 := by
  intro n
  induction n with
  | zero =>
    intro x s p kw r hn hk h
    have : s = [] := List.eq_nil_of_length_eq_zero (by omega)
    subst this
    rw [resume_nil minLen_queryRe] at h
    exact ⟨r, h⟩
  | succ n ih =>
    intro x s p kw r hn hk h
    cases s with
    | nil =>
      rw [resume_nil minLen_queryRe] at h
      exact ⟨r, h⟩
    | cons c cs =>
      cases hm : matchAt queryRe p (c :: cs) with
      | none =>
        rw [resume_skip minLen_queryRe _ hm] at h
        obtain ⟨r2, h2⟩ := ih (x ++ [c]) cs (some c) kw r (by simpa using hn) hk
          (by simpa using h)
        exact ⟨r2, by simpa using h2⟩
      | some m =>
        obtain ⟨kw0, v, d, r0, hk0, hv, hd, hs, rfl⟩ := queryRe_match_inv hm
        rw [resume_hit minLen_queryRe _ hm, hs] at *
        have hkne : ∀ {k : List Char}, k.map foldKey ∈ queryKeywords →
            ∀ c ∈ k, (fun c => c != '=') c = true := by
          intro k hk c hc
          simp only [bne_iff_ne, ne_eq]
          rintro rfl
          exact kwText_not_mem hk '=' (by decide) hc
        by_cases hx : '=' ∈ x
        · obtain ⟨x1, x2, rfl, hx1⟩ := split_first_of_mem hx
          have hx1' : ∀ c ∈ x1, (fun c => c != '=') c = true := by
            intro c hc
            simp only [bne_iff_ne, ne_eq]
            rintro rfl
            exact hx1 hc
          have h' : x1 ++ '=' :: (x2 ++ expand queryRepl
              ⟨lastOr (some '=') (v ++ d), kw0 ++ '=' :: (v ++ d), r0, [(2, d), (1, kw0)]⟩ ++
              resume queryRe queryRepl (lastOr (some '=') (v ++ d)) r0) = kw ++ '=' :: r := by
            simpa using h
          obtain ⟨e1, -, -⟩ := span_unique h' hx1' (hkne hk) (by decide) (by decide)
          subst e1
          exact ⟨x2 ++ (kw0 ++ '=' :: (v ++ (d ++ r0))), by simp⟩
        · have hx' : ∀ c ∈ x ++ kw0, (fun c => c != '=') c = true := by
            intro c hc
            rcases List.mem_append.1 hc with hc | hc
            · simp only [bne_iff_ne, ne_eq]
              rintro rfl
              exact hx hc
            · exact hkne hk0 c hc
          have h' : (x ++ kw0) ++ '=' :: (privateDataPlaceholder ++ d ++
              resume queryRe queryRepl (lastOr (some '=') (v ++ d)) r0) = kw ++ '=' :: r := by
            rw [← h]
            simp [expand, queryRepl, Thread.group, List.lookup]
          obtain ⟨e1, -, -⟩ := span_unique h' hx' (hkne hk) (by decide) (by decide)
          exact ⟨v ++ (d ++ r0), by rw [← e1]; simp⟩



theorem expand_query (kw v d r : List Char) (p : Option Char) :
    expand queryRepl ⟨p, kw ++ '=' :: (v ++ d), r, [(2, d), (1, kw)]⟩ =
      kw ++ '=' :: (privateDataPlaceholder ++ d) := by
  simp [expand, queryRepl, Thread.group, List.lookup]

theorem placeholder_tails_amp :
    ∀ x ∈ ('=' :: (privateDataPlaceholder ++ ['&'])).tails, x = [] ∨ noKwStart x = true := by
  decide

theorem placeholder_tails_end :
    ∀ x ∈ ('=' :: privateDataPlaceholder).tails, x = [] ∨ noKwStart x = true := by
  decide

theorem placeholder_tails (d : List Char) (hd : d = ['&'] ∨ d = []) {x pre : List Char}
    (h : '=' :: (privateDataPlaceholder ++ d) = pre ++ x) : x = [] ∨ noKwStart x = true := by
  have hx : x <:+ '=' :: (privateDataPlaceholder ++ d) := ⟨pre, h.symm⟩
  rcases hd with rfl | rfl
  · exact placeholder_tails_amp x ((List.mem_tails _ _).2 hx)
  · rw [List.append_nil] at hx
    exact placeholder_tails_end x ((List.mem_tails _ _).2 hx)

/-- The query rule has a match at every keyword followed by `=`. -/
theorem queryRe_some_of_kw {kw r : List Char} (hk : kw.map foldKey ∈ queryKeywords)
    (p : Option Char) : matchAt queryRe p (kw ++ '=' :: r) ≠ none := by
  obtain ⟨v, rest, h1, h2, h3⟩ := span_at_first '&' r
  rcases h3 with rfl | ⟨r', rfl⟩
  · have := queryRe_match hk p h2 (Or.inr ⟨rfl, rfl⟩) (d := []) (r := [])
    rw [h1]
    simp only [List.append_nil] at this ⊢
    rw [this]
    simp
  · have := queryRe_match hk p h2 (Or.inl rfl) (d := ['&']) (r := r')
    rw [h1]
    simp only [List.singleton_append] at this
    rw [this]
    simp

theorem kwText_no_eq {k : List Char} (hk : k.map foldKey ∈ queryKeywords) :
    ∀ c ∈ k, (fun c => c != '=') c = true := by
  intro c hc
  simp only [bne_iff_ne, ne_eq]
  rintro rfl
  exact kwText_not_mem hk '=' (by decide) hc

/-- A keyword followed by `=` that begins inside a replacement of the query
rule begins at its start. -/
theorem query_inside {kw0 d T pre x kw r : List Char} (hk0 : kw0.map foldKey ∈ queryKeywords)
    (hk : kw.map foldKey ∈ queryKeywords) (hd : d = ['&'] ∨ d = [])
    (h1 : kw0 ++ '=' :: (privateDataPlaceholder ++ d) = pre ++ x)
    (h2 : kw ++ '=' :: r = x ++ T) :
    x = [] ∨ (pre = [] ∧ r = privateDataPlaceholder ++ (d ++ T)) := by
  rcases List.append_eq_append_iff.1 h1 with ⟨a', h3, h4⟩ | ⟨c', h3, h4⟩
  · rcases placeholder_tails d hd h4 with h5 | h5
    · exact Or.inl h5
    · exact absurd h2.symm (noKwStart_spec h5 T kw ('=' :: r) hk)
  · right
    rw [h4] at h2
    have h2' : kw ++ '=' :: r = c' ++ '=' :: (privateDataPlaceholder ++ (d ++ T)) := by
      rw [h2]; simp
    have hc' : ∀ c ∈ c', (fun c => c != '=') c = true :=
      fun c hc => kwText_no_eq hk0 c (by rw [h3]; exact List.mem_append_right _ hc)
    obtain ⟨e1, -, e2⟩ := span_unique h2' (kwText_no_eq hk) hc' (by decide) (by decide)
    subst e1
    have hsx : kw.map foldKey <:+ kw0.map foldKey := by
      rw [h3, List.map_append]
      exact List.suffix_append _ _
    have e := keywords_no_suffix _ hk _ hk0 hsx
    have hl2 := congrArg List.length e
    rw [h3] at hl2
    simp only [List.length_map, List.length_append] at hl2
    exact ⟨List.eq_nil_of_length_eq_zero (by omega), e2⟩

/-- After the query rule every keyword followed by `=` is followed by the
placeholder. -/
theorem QClean_resume :
    ∀ (n : Nat) (s : List Char) (p : Option Char), s.length ≤ n →
      QClean (resume queryRe queryRepl p s) := by
  have hnil : QClean [] := by
    intro pre kw r hk h
    have := congrArg List.length h
    simp only [List.length_nil, List.length_append, List.length_cons] at this
    omega
  intro n
  induction n with
  | zero =>
    intro s p hn
    have : s = [] := List.eq_nil_of_length_eq_zero (by omega)
    subst this
    rw [resume_nil minLen_queryRe]
    exact hnil
  | succ n ih =>
    intro s p hn
    cases s with
    | nil =>
      rw [resume_nil minLen_queryRe]
      exact hnil
    | cons c cs =>
      cases hm : matchAt queryRe p (c :: cs) with
      | none =>
        rw [resume_skip minLen_queryRe _ hm]
        intro pre kw r hk h
        cases pre with
        | nil =>
          exfalso
          obtain ⟨r2, h2⟩ := query_head_preserved cs.length [c] cs (some c) kw r (Nat.le_refl _)
            hk (by simpa using h)
          simp only [List.singleton_append] at h2
          rw [h2] at hm
          exact queryRe_some_of_kw hk p hm
        | cons d pre' =>
          simp only [List.cons_append, List.cons.injEq] at h
          exact ih cs (some c) (by simpa using hn) pre' kw r hk h.2
      | some m =>
        obtain ⟨kw0, v, d, r0, hk0, hv, hd, hs, rfl⟩ := queryRe_match_inv hm
        have hl : r0.length ≤ n := by
          have := congrArg List.length hs
          simp only [List.length_cons, List.length_append] at this hn
          omega
        rw [resume_hit minLen_queryRe _ hm, expand_query]
        simp only
        have hT := ih r0 (lastOr (some '=') (v ++ d)) hl
        have hd' : d = ['&'] ∨ d = [] := by tauto
        intro pre kw r hk h
        rcases List.append_eq_append_iff.1 h with ⟨a', h1, h2⟩ | ⟨c', h1, h2⟩
        · exact hT a' kw r hk h2
        · rcases query_inside hk0 hk hd' h1 h2 with h3 | ⟨-, h3⟩
          · subst h3
            exact hT [] kw r hk (by simpa using h2.symm)
          · refine ⟨_, h3, ?_⟩
            rcases hd with rfl | ⟨rfl, rfl⟩
            · exact Or.inr ⟨_, rfl⟩
            · left
              rw [resume_nil minLen_queryRe]
              rfl

/-- A text in which every keyword followed by `=` is followed by the
placeholder is returned by the query rule as it is. -/
theorem QClean_fixed (s : List Char) (h : QClean s) (p : Option Char) :
    resume queryRe queryRepl p s = s := by
  apply resume_fixed minLen_queryRe queryRepl s.length p s (Nat.le_refl _)
  intro pre suf m hs hm
  obtain ⟨kw, v, d, r, hk, hv, hd, rfl, rfl⟩ := queryRe_match_inv hm
  rw [expand_query]
  simp only
  obtain ⟨r', h1, h2⟩ := h pre kw (v ++ (d ++ r)) hk hs
  have hv' : ∀ c ∈ v, (fun c => c != '&') c = true := by
    intro c hc
    simp only [bne_iff_ne, ne_eq]
    rintro rfl
    exact hv hc
  have hP : ∀ c ∈ privateDataPlaceholder, (fun c => c != '&') c = true := by decide
  rcases hd with rfl | ⟨rfl, rfl⟩
  · rcases h2 with rfl | ⟨r'', rfl⟩
    · exfalso
      have : '&' ∈ privateDataPlaceholder := by
        have h1' : privateDataPlaceholder = v ++ '&' :: r := by simpa using h1.symm
        rw [h1']
        simp
      exact absurd this (by decide)
    · have h1' : v ++ '&' :: r = privateDataPlaceholder ++ '&' :: r'' := by simpa using h1
      obtain ⟨e1, -, -⟩ := span_unique h1' hv' hP (by decide) (by decide)
      rw [e1]
  · rcases h2 with rfl | ⟨r'', rfl⟩
    · simp only [List.append_nil] at h1
      rw [h1]
    · exfalso
      simp only [List.append_nil] at h1
      exact hv (by rw [h1]; simp)



theorem headerName_no_nl {name : List Char} (h : HeaderName name) : '\n' ∉ name := by
  rcases h with rfl | ⟨k, rfl, hk⟩
  · decide
  · intro hm
    rcases List.mem_append.1 hm with hm | hm
    · exact absurd hm (by decide)
    · exact absurd (hk _ hm) (by decide)

theorem headerName_ne_nil {name : List Char} (h : HeaderName name) :
    ∃ c cs, name = c :: cs ∧ (c = 'A' ∨ c = 'X') := by
  rcases h with rfl | ⟨k, rfl, hk⟩
  · exact ⟨'A', _, rfl, Or.inl rfl⟩
  · exact ⟨'X', _, rfl, Or.inr rfl⟩

/-- The shape of every match of the header rule. -/
theorem headerRe_match_inv {prev : Option Char} {s : List Char} {m : Thread}
    (h : matchAt headerRe prev s = some m) :
    (prev = none ∨ prev = some '\n') ∧
    ∃ name v rest, HeaderName name ∧ s = name ++ ':' :: ' ' :: (v ++ rest) ∧ '\n' ∉ v ∧
      (rest = [] ∨ ∃ r, rest = '\n' :: r) ∧
      m = ⟨lastOr (some ' ') v, name ++ ':' :: ' ' :: v, rest, [(1, name)]⟩ := by
  have hp := (headerRe_start h).1
  refine ⟨hp, ?_⟩
  have hm : m ∈ run headerRe ⟨prev, [], s, []⟩ := List.mem_of_mem_head? h
  rw [headerRe_run] at hm
  simp only [hp, if_true, List.mem_flatMap] at hm
  obtain ⟨u, hu, -⟩ := hm
  obtain ⟨name, r, hn, hs, -⟩ := header_name_mem.1 hu
  simp only at hs
  obtain ⟨v, rest, h1, h2, h3⟩ := span_at_first '\n' r
  refine ⟨name, v, rest, hn, by rw [hs, h1], h2, h3, ?_⟩
  have := headerRe_match prev name v rest hp hn
    (fun c hc => by
      simp only [bne_iff_ne, ne_eq]
      rintro rfl
      exact h2 hc)
    (by
      rcases h3 with rfl | ⟨r', rfl⟩
      · simp
      · simp)
  rw [hs, h1, this] at h
  exact (Option.some.inj h).symm

theorem headerRe_some_of_name {name r : List Char} (hn : HeaderName name) {prev : Option Char}
    (hp : prev = none ∨ prev = some '\n') : matchAt headerRe prev (name ++ ':' :: ' ' :: r) ≠ none := by
  obtain ⟨v, rest, h1, h2, h3⟩ := span_at_first '\n' r
  have := headerRe_match prev name v rest hp hn
    (fun c hc => by
      simp only [bne_iff_ne, ne_eq]
      rintro rfl
      exact h2 hc)
    (by
      rcases h3 with rfl | ⟨r', rfl⟩
      · simp
      · simp)
  rw [h1, this]
  simp

theorem headerRe_none_of_not_start {prev : Option Char} (hp : ¬(prev = none ∨ prev = some '\n'))
    (s : List Char) : matchAt headerRe prev s = none := by
  cases h : matchAt headerRe prev s with
  | none => rfl
  | some m => exact absurd (headerRe_start h).1 hp

theorem headerRe_none_nl (prev : Option Char) (s : List Char) :
    matchAt headerRe prev ('\n' :: s) = none := by
  cases h : matchAt headerRe prev ('\n' :: s) with
  | none => rfl
  | some m =>
    rcases (headerRe_start h).2 with h1 | h1
    · simp [List.isPrefixOf] at h1
    · simp [List.isPrefixOf] at h1

theorem not_start_some {c : Char} (hc : c ≠ '\n') : ¬(some c = none ∨ some c = some '\n') := by
  rintro (h | h)
  · exact absurd h (by simp)
  · exact hc (Option.some.inj h)

/-- Inside a line the header rule copies the text. -/
theorem header_first_line (l rest : List Char) (prev : Option Char)
    (hp : ¬(prev = none ∨ prev = some '\n')) (hl : '\n' ∉ l) :
    resume headerRe headerRepl prev (l ++ rest) =
      l ++ resume headerRe headerRepl (lastOr prev l) rest := by
  induction l generalizing prev with
  | nil => rfl
  | cons c cs ih =>
    have hc : c ≠ '\n' := fun h => hl (h ▸ List.mem_cons_self _ _)
    rw [List.cons_append, resume_skip minLen_headerRe _ (headerRe_none_of_not_start hp _),
      ih (some c) (not_start_some hc) (fun h => hl (List.mem_cons_of_mem _ h)), lastOr_cons]
    rfl

/-- The text the header rule returns, from inside a line: the rest of the
line as it is, and then nothing or a line feed. -/
theorem header_line_shape (s : List Char) (prev : Option Char)
    (hp : ¬(prev = none ∨ prev = some '\n')) :
    ∃ l rest T, '\n' ∉ l ∧ s = l ++ rest ∧ resume headerRe headerRepl prev s = l ++ T ∧
      ((rest = [] ∧ T = []) ∨ (∃ r t, rest = '\n' :: r ∧ T = '\n' :: t)) := by
  obtain ⟨l, rest, h1, h2, h3⟩ := span_at_first '\n' s
  refine ⟨l, rest, resume headerRe headerRepl (lastOr prev l) rest, h2, h1, ?_, ?_⟩
  · rw [h1, header_first_line l rest prev hp h2]
  · rcases h3 with rfl | ⟨r, rfl⟩
    · exact Or.inl ⟨rfl, resume_nil minLen_headerRe _ _⟩
    · right
      exact ⟨r, _, rfl, resume_skip minLen_headerRe _ (headerRe_none_nl _ _)⟩

theorem prefix_of_no_sep {x : Char} {a b a2 r : List Char} (h : a ++ x :: b = a2 ++ r)
    (ha2 : x ∉ a2) : ∃ r1, a = a2 ++ r1 := by
  rcases List.append_eq_append_iff.1 h with ⟨a', h1, h2⟩ | ⟨c', h1, h2⟩
  · cases a' with
    | nil => exact ⟨[], by simpa using h1.symm⟩
    | cons d ds =>
      simp only [List.cons_append, List.cons.injEq] at h2
      exact absurd (by rw [h1, ← h2.1]; simp) ha2
  · exact ⟨c', h1⟩



theorem expand_header (name v r : List Char) (p : Option Char) :
    expand headerRepl ⟨p, name ++ ':' :: ' ' :: v, r, [(1, name)]⟩ =
      name ++ ':' :: ' ' :: privateDataPlaceholder := by
  simp [expand, headerRepl, Thread.group, List.lookup]

theorem headerName_sep_no_nl {name : List Char} (h : HeaderName name) :
    '\n' ∉ name ++ [':', ' '] := by
  intro hm
  rcases List.mem_append.1 hm with hm | hm
  · exact headerName_no_nl h hm
  · exact absurd hm (by decide)

theorem lastOr_mem {p : Option Char} {l : List Char} {c : Char} (hl : l ≠ [])
    (h : lastOr p l = some c) : c ∈ l := by
  rcases List.eq_nil_or_concat l with rfl | ⟨l0, x, rfl⟩
  · exact absurd rfl hl
  · rw [List.concat_eq_append, lastOr_concat] at h
    simp only [Option.some.injEq] at h
    subst h
    simp

theorem lastOr_of_ne_nil (p q : Option Char) {l : List Char} (hl : l ≠ []) :
    lastOr p l = lastOr q l := by
  rcases List.eq_nil_or_concat l with rfl | ⟨l0, x, rfl⟩
  · exact absurd rfl hl
  · rw [List.concat_eq_append, lastOr_concat, lastOr_concat]

/-- After the header rule every header line holds the placeholder. -/
theorem HClean_resume :
    ∀ (n : Nat) (s : List Char) (p : Option Char), s.length ≤ n →
      HCleanAt p (resume headerRe headerRepl p s) := by
  have hnil : ∀ p, HCleanAt p [] := by
    intro p pre name r _ _ h
    have := congrArg List.length h
    simp only [List.length_nil, List.length_append, List.length_cons] at this
    omega
  intro n
  induction n with
  | zero =>
    intro s p hn
    have : s = [] := List.eq_nil_of_length_eq_zero (by omega)
    subst this
    rw [resume_nil minLen_headerRe]
    exact hnil p
  | succ n ih =>
    intro s p hn
    cases s with
    | nil =>
      rw [resume_nil minLen_headerRe]
      exact hnil p
    | cons c cs =>
      cases hm : matchAt headerRe p (c :: cs) with
      | none =>
        rw [resume_skip minLen_headerRe _ hm]
        intro pre name r hp hname h
        cases pre with
        | nil =>
          exfalso
          simp only [lastOr_nil] at hp
          obtain ⟨c0, n0, hn0, hc0⟩ := headerName_ne_nil hname
          have hc : c = c0 := by
            rw [hn0] at h
            simp only [List.nil_append, List.cons_append, List.cons.injEq] at h
            exact h.1
          have hcnl : c ≠ '\n' := by
            rw [hc]
            rcases hc0 with rfl | rfl <;> decide
          obtain ⟨l, rest, T, hl, hs, hT, hcase⟩ := header_line_shape cs (some c)
            (not_start_some hcnl)
          rw [hT] at h
          have hcl : '\n' ∉ c :: l := by
            simp only [List.mem_cons, not_or]
            exact ⟨fun h => hcnl h.symm, hl⟩
          have hpre : ∃ r1, c :: l = (name ++ [':', ' ']) ++ r1 := by
            rcases hcase with ⟨-, rfl⟩ | ⟨r0, t, -, rfl⟩
            · exact ⟨r, by simpa using h⟩
            · exact prefix_of_no_sep (x := '\n') (b := t) (r := r) (by simpa using h)
                (headerName_sep_no_nl hname)
          obtain ⟨r1, hr1⟩ := hpre
          have : c :: cs = name ++ ':' :: ' ' :: (r1 ++ rest) := by
            rw [hs, ← List.cons_append, hr1]
            simp
          rw [this] at hm
          exact headerRe_some_of_name hname hp hm
        | cons d pre' =>
          simp only [List.cons_append, List.cons.injEq] at h
          rw [lastOr_cons, ← h.1] at hp
          exact ih cs (some c) (by simpa using hn) pre' name r hp hname h.2
      | some m =>
        obtain ⟨hp0, name0, v, rest, hn0, hs, hv, hrest, rfl⟩ := headerRe_match_inv hm
        have hl : rest.length ≤ n := by
          have := congrArg List.length hs
          simp only [List.length_cons, List.length_append] at this hn
          omega
        rw [resume_hit minLen_headerRe _ hm, expand_header]
        simp only
        have hT := ih rest (lastOr (some ' ') v) hl
        have hTshape : resume headerRe headerRepl (lastOr (some ' ') v) rest = [] ∨
            ∃ t, resume headerRe headerRepl (lastOr (some ' ') v) rest = '\n' :: t := by
          rcases hrest with rfl | ⟨r0, rfl⟩
          · exact Or.inl (resume_nil minLen_headerRe _ _)
          · exact Or.inr ⟨_, resume_skip minLen_headerRe _ (headerRe_none_nl _ _)⟩
        intro pre name r hp hname h
        rcases List.append_eq_append_iff.1 h with ⟨a', h1, h2⟩ | ⟨c', h1, h2⟩
        · -- the position lies after the replacement
          cases a' with
          | nil =>
            exfalso
            rw [h1, List.append_nil] at hp
            have : lastOr p (name0 ++ ':' :: ' ' :: privateDataPlaceholder) = some ']' := by
              rw [lastOr_append]
              rfl
            rw [this] at hp
            rcases hp with hp | hp
            · exact absurd hp (by simp)
            · exact absurd hp (by decide)
          | cons d ds =>
            refine hT (d :: ds) name r ?_ hname h2
            rw [h1, lastOr_append] at hp
            rw [lastOr_of_ne_nil _ (lastOr p (name0 ++ ':' :: ' ' :: privateDataPlaceholder))
              (List.cons_ne_nil d ds)]
            exact hp
        · -- the position lies in the replacement
          cases pre with
          | nil =>
            simp only [List.nil_append] at h1
            subst h1
            have h2' : name ++ ':' :: ' ' :: r = name0 ++ ':' :: ' ' ::
                (privateDataPlaceholder ++
                  resume headerRe headerRepl (lastOr (some ' ') v) rest) := by
              rw [h2]; simp
            obtain ⟨-, e2⟩ := header_split_unique hname hn0 h2'
            exact ⟨_, e2, by
              rcases hTshape with h | ⟨t, h⟩
              · exact Or.inl h
              · exact Or.inr ⟨t, h⟩⟩
          | cons d ds =>
            exfalso
            have hne : d :: ds ≠ [] := List.cons_ne_nil d ds
            rcases hp with hp | hp
            · rcases List.eq_nil_or_concat (d :: ds) with h0 | ⟨l0, x, h0⟩
              · exact hne h0
              · rw [h0, List.concat_eq_append, lastOr_concat] at hp
                exact absurd hp (by simp)
            · have hmem := lastOr_mem hne hp
              have : '\n' ∈ name0 ++ ':' :: ' ' :: privateDataPlaceholder := by
                rw [h1]
                exact List.mem_append_left _ hmem
              rcases List.mem_append.1 this with h3 | h3
              · exact headerName_no_nl hn0 h3
              · exact absurd h3 (by decide)

/-- A text in which every header line holds the placeholder is returned by
the header rule as it is. -/
theorem HClean_fixed (s : List Char) (p : Option Char) (h : HCleanAt p s) :
    resume headerRe headerRepl p s = s := by
  apply resume_fixed minLen_headerRe headerRepl s.length p s (Nat.le_refl _)
  intro pre suf m hs hm
  obtain ⟨hp, name, v, rest, hn, rfl, hv, hrest, rfl⟩ := headerRe_match_inv hm
  rw [expand_header]
  simp only
  obtain ⟨r', h1, h2⟩ := h pre name (v ++ rest) hp hn hs
  have hv' : ∀ c ∈ v, (fun c => c != '\n') c = true := by
    intro c hc
    simp only [bne_iff_ne, ne_eq]
    rintro rfl
    exact hv hc
  have hP : ∀ c ∈ privateDataPlaceholder, (fun c => c != '\n') c = true := by decide
  rcases hrest with rfl | ⟨r0, rfl⟩
  · rcases h2 with rfl | ⟨r'', rfl⟩
    · simp only [List.append_nil] at h1
      rw [h1]
    · exfalso
      simp only [List.append_nil] at h1
      exact hv (by rw [h1]; simp)
  · rcases h2 with rfl | ⟨r'', rfl⟩
    · exfalso
      have : '\n' ∈ privateDataPlaceholder := by
        have h1' : privateDataPlaceholder = v ++ '\n' :: r0 := by simpa using h1.symm
        rw [h1']
        simp
      exact absurd this (by decide)
    · obtain ⟨e1, -, -⟩ := span_unique h1 hv' hP (by decide) (by decide)
      rw [e1]



/-! ### The preferred match of the JSON rule -/

theorem run_cat_def (a b : Regex) (t : Thread) :
    run (.cat a b) t = (run a t).flatMap (fun u => run b u) := by
  rw [run]

/-- A greedy star takes a shorter run only when the pattern after it fails on
every longer one. -/
theorem runStar_flatMap_short {p : Char → Bool} {f : Thread → List Thread}
    (cp : List (Nat × List Char)) (k r : List Char) (hk : ∀ c ∈ k, p c = true)
    (hr : ∀ c ∈ r.head?, p c = false) (pv : Option Char) (tk : List Char)
    (hfail : ∀ x y, k = x ++ y → x ≠ [] → f ⟨lastOr pv x, tk ++ x, y ++ r, cp⟩ = []) :
    (runStar p pv tk cp (k ++ r)).flatMap f = f ⟨pv, tk, k ++ r, cp⟩ := by
  induction k generalizing pv tk with
  | nil =>
    cases r with
    | nil => simp [runStar]
    | cons c cs =>
      have : p c = false := hr c (by simp)
      simp [runStar, this]
  | cons c cs ih =>
    have hc : p c = true := hk c (List.mem_cons_self _ _)
    have e : runStar p pv tk cp (c :: (cs ++ r)) =
        runStar p (some c) (tk ++ [c]) cp (cs ++ r) ++ [⟨pv, tk, c :: (cs ++ r), cp⟩] := by
      simp only [runStar, hc, if_true]
    rw [List.cons_append, e, List.flatMap_append]
    have h1 : (runStar p (some c) (tk ++ [c]) cp (cs ++ r)).flatMap f = [] := by
      rw [ih (fun x hx => hk x (List.mem_cons_of_mem _ hx)) (some c) (tk ++ [c])]
      · have := hfail [c] cs rfl (by simp)
        simpa using this
      · intro x y hxy hx
        have := hfail (c :: x) y (by rw [hxy]; rfl) (by simp)
        simpa [lastOr_cons] using this
    rw [h1]
    simp

theorem runStar_flatMap_peel {p : Char → Bool} {f : Thread → List Thread} {u : Thread}
    (cp : List (Nat × List Char)) (k rest : List Char) (hk : ∀ c ∈ k, p c = true)
    (pv : Option Char) (tk : List Char)
    (h : ((runStar p (lastOr pv k) (tk ++ k) cp rest).flatMap f).head? = some u) :
    ((runStar p pv tk cp (k ++ rest)).flatMap f).head? = some u := by
  induction k generalizing pv tk with
  | nil => simpa using h
  | cons c cs ih =>
    have hc : p c = true := hk c (List.mem_cons_self _ _)
    have e : runStar p pv tk cp (c :: (cs ++ rest)) =
        runStar p (some c) (tk ++ [c]) cp (cs ++ rest) ++ [⟨pv, tk, c :: (cs ++ rest), cp⟩] := by
      simp only [runStar, hc, if_true]
    rw [List.cons_append, e, List.flatMap_append, List.head?_append,
      ih (fun x hx => hk x (List.mem_cons_of_mem _ hx)) (some c) (tk ++ [c])]
    · rfl
    · rw [lastOr_cons] at h
      simpa using h

/-- The preferred match of `x*` followed by a pattern: the longest run of `x`
after which the pattern matches. -/
theorem star_cat_head {p : Char → Bool} {X : Regex} (t : Thread) (k1 k2 r : List Char)
    {u : Thread} (h : t.rest = k1 ++ (k2 ++ r)) (hk1 : ∀ c ∈ k1, p c = true)
    (hk2 : ∀ c ∈ k2, p c = true) (hr : ∀ c ∈ r.head?, p c = false)
    (hfail : ∀ x y, k2 = x ++ y → x ≠ [] → run X (t.adv (k1 ++ x) (y ++ r)) = [])
    (hX : (run X (t.adv k1 (k2 ++ r))).head? = some u) :
    (run (.cat (.star p) X) t).head? = some u := by
  rw [run_cat_def]
  conv_lhs => rw [run]
  rw [h]
  apply runStar_flatMap_peel t.caps k1 (k2 ++ r) hk1
  rw [runStar_flatMap_short t.caps k2 r hk2 hr]
  · exact hX
  · intro x y hxy hx
    have := hfail x y hxy hx
    simpa [Thread.adv, lastOr_append] using this

theorem run_quote_nil (t : Thread) (h : t.rest.head? ≠ some '"') :
    run (.lit true "\"".toList) t = [] := by
  cases hr : run (.lit true "\"".toList) t with
  | nil => rfl
  | cons u us =>
    exfalso
    have hu : u ∈ run (.lit true "\"".toList) t := by rw [hr]; exact List.mem_cons_self _ _
    obtain ⟨k, r, hk, h1, -⟩ := mem_lit.1 hu
    obtain ⟨c, rfl, hc⟩ := litOk_single_inv hk
    rw [chMatch_quote hc] at h1
    rw [h1] at h
    exact h rfl

/-- The last part of the JSON pattern, `[^\,]*"`: the value runs to the last
double quote before the next comma. -/
theorem json_fin_head (t : Thread) (val u rest : List Char)
    (h : t.rest = val ++ ('"' :: u ++ rest)) (hval : ',' ∉ val) (hu1 : ',' ∉ u)
    (hu2 : '"' ∉ u) (hrest : rest = [] ∨ ∃ r, rest = ',' :: r) :
    (run (.cat (.star (fun c => c != ',')) (.lit true "\"".toList)) t).head? =
      some (t.adv (val ++ ['"']) (u ++ rest)) := by
  have hne : ∀ (l : List Char), ',' ∉ l → ∀ c ∈ l, (fun c => c != ',') c = true := by
    intro l hl c hc
    simp only [bne_iff_ne, ne_eq]
    rintro rfl
    exact hl hc
  have hl : litOk true "\"".toList ['"'] := litOk_single (by decide)
  apply star_cat_head t val ('"' :: u) rest (by simpa using h) (hne val hval)
    (hne ('"' :: u) (by
      simp only [List.mem_cons, not_or]
      exact ⟨by decide, hu1⟩))
    (by
      rcases hrest with rfl | ⟨r, rfl⟩
      · simp
      · simp)
  · intro x y hxy hx
    apply run_quote_nil
    simp only [adv_rest]
    cases x with
    | nil => exact absurd rfl hx
    | cons c cs =>
      simp only [List.cons_append, List.cons.injEq] at hxy
      obtain ⟨-, hu⟩ := hxy
      cases y with
      | nil =>
        rcases hrest with rfl | ⟨r, rfl⟩
        · simp
        · simp
      | cons d ds =>
        simp only [List.cons_append, List.head?_cons, ne_eq, Option.some.injEq]
        rintro rfl
        exact hu2 (by rw [hu]; simp)
  · rw [run_lit_eq hl _ (u ++ rest) (by simp)]
    simp [adv_adv]



theorem head?_flatMap_first {α β : Type} {l : List α} {f : α → List β} {P : β → Prop}
    (hex : ∃ y ∈ l, f y ≠ [])
    (h : ∀ y ∈ l, f y ≠ [] → ∃ b, (f y).head? = some b ∧ P b) :
    ∃ b, (l.flatMap f).head? = some b ∧ P b := by
  induction l with
  | nil =>
    obtain ⟨y, hy, -⟩ := hex
    simp at hy
  | cons x xs ih =>
    rw [List.flatMap_cons, List.head?_append]
    by_cases hx : f x = []
    · rw [hx]
      simp only [List.head?_nil, Option.none_or]
      apply ih
      · obtain ⟨y, hy, hne⟩ := hex
        rcases List.mem_cons.1 hy with rfl | hy
        · exact absurd hx hne
        · exact ⟨y, hy, hne⟩
      · exact fun y hy => h y (List.mem_cons_of_mem _ hy)
    · obtain ⟨b, hb, hP⟩ := h x (List.mem_cons_self _ _) hx
      exact ⟨b, by rw [hb]; rfl, hP⟩

theorem flatMap_single {α β : Type} (a : α) (f : α → List β) : [a].flatMap f = f a := by
  simp

/-- The preferred match of the part of the JSON pattern after the key. -/
theorem json_tail_head (t : Thread) (sp val u rest : List Char)
    (h : t.rest = '"' :: ':' :: (sp ++ '"' :: (val ++ '"' :: (u ++ rest))))
    (hsp : ∀ c ∈ sp, isSpace c = true) (hval : ',' ∉ val) (hu1 : ',' ∉ u) (hu2 : '"' ∉ u)
    (hrest : rest = [] ∨ ∃ r, rest = ',' :: r) :
    (run (.cat (.lit true "\":".toList) (.cat (.star isSpace) (.cat (.lit true "\"".toList)
        (.cat (.star (fun c => c != ',')) (.lit true "\"".toList))))) t).head? =
      some (t.adv ('"' :: ':' :: (sp ++ '"' :: (val ++ ['"']))) (u ++ rest)) := by
  have l1 : litOk true "\":".toList ['"', ':'] :=
    List.Forall₂.cons (by decide) (List.Forall₂.cons (by decide) List.Forall₂.nil)
  have l2 : litOk true "\"".toList ['"'] := litOk_single (by decide)
  rw [run_cat_def, run_lit_eq l1 t (sp ++ '"' :: (val ++ '"' :: (u ++ rest))) (by simpa using h),
    flatMap_single]
  have e := star_cat_head (p := isSpace)
    (X := .cat (.lit true "\"".toList)
        (.cat (.star (fun c => c != ',')) (.lit true "\"".toList)))
    (t.adv ['"', ':'] (sp ++ '"' :: (val ++ '"' :: (u ++ rest)))) sp []
    ('"' :: (val ++ '"' :: (u ++ rest)))
    (u := t.adv ('"' :: ':' :: (sp ++ '"' :: (val ++ ['"']))) (u ++ rest))
    (by simp) hsp (by simp) (by simp; decide)
    (by
      intro x y hxy hx
      have := List.append_eq_nil.1 hxy.symm
      exact absurd this.1 hx)
    (by
      rw [run_cat_def, run_lit_eq l2 _ (val ++ '"' :: (u ++ rest)) (by simp), flatMap_single]
      have := json_fin_head (((t.adv ['"', ':'] (sp ++ '"' :: (val ++ '"' :: (u ++ rest)))).adv sp
        ([] ++ '"' :: (val ++ '"' :: (u ++ rest)))).adv ['"'] (val ++ '"' :: (u ++ rest)))
        val u rest (by simp) hval hu1 hu2 hrest
      rw [this]
      simp [adv_adv])
  exact e

theorem ne_of_not_mem {x : Char} {l : List Char} (h : x ∉ l) :
    ∀ c ∈ l, (fun c => c != x) c = true := by
  intro c hc
  simp only [bne_iff_ne, ne_eq]
  rintro rfl
  exact h hc

theorem json_key_no_quote {a kw b : List Char} (ha : ∀ c ∈ a, (c != '"') = true)
    (hkw : ∃ w ∈ jsonKeywords, litOk true w kw)
    (hb : ∀ c ∈ b, (c != '"' && c != '_') = true) : '"' ∉ a ++ (kw ++ b) := by
  obtain ⟨w, hw, hkw⟩ := hkw
  simp only [List.mem_append, not_or]
  refine ⟨?_, ?_, ?_⟩
  · intro h
    have := ha _ h
    simp at this
  · exact kw_text_not_mem (jsonKeywords_sub hw) hkw '"' (by decide)
  · intro h
    have := hb _ h
    simp at this

/-- The preferred match of the JSON pattern: the key up to the next double
quote, the blanks, and the value up to the last double quote before the next
comma. -/
theorem jsonRe_head (prev : Option Char) (key sp val u rest : List Char) (hk : '"' ∉ key)
    (hs : sensitiveKey key = true) (hsp : ∀ c ∈ sp, isSpace c = true) (hval : ',' ∉ val)
    (hu1 : ',' ∉ u) (hu2 : '"' ∉ u) (hrest : rest = [] ∨ ∃ r, rest = ',' :: r) :
    ∃ m, matchAt jsonRe prev
        ('"' :: (key ++ '"' :: ':' :: (sp ++ '"' :: (val ++ '"' :: (u ++ rest))))) = some m ∧
      m.prev = some '"' ∧ m.taken = '"' :: (key ++ '"' :: ':' :: (sp ++ '"' :: (val ++ ['"']))) ∧
      m.rest = u ++ rest ∧ m.group 1 = key := by
  have l2 : litOk true "\"".toList ['"'] := litOk_single (by decide)
  rw [matchAt, jsonRe, run_cat_def,
    run_lit_eq l2 _ (key ++ '"' :: ':' :: (sp ++ '"' :: (val ++ '"' :: (u ++ rest)))) (by simp),
    flatMap_single, run_cat_def]
  have key_of : ∀ y ∈ run (.cap 1 (.cat (.star (fun c => c != '"'))
        (.cat (.cap 2 jsonWords) (.star (fun c => c != '"' && c != '_')))))
      ((⟨prev, [], '"' :: (key ++ '"' :: ':' :: (sp ++ '"' :: (val ++ '"' :: (u ++ rest)))),
        []⟩ : Thread).adv ['"']
        (key ++ '"' :: ':' :: (sp ++ '"' :: (val ++ '"' :: (u ++ rest))))),
      y.rest.head? = some '"' →
        y.rest = '"' :: ':' :: (sp ++ '"' :: (val ++ '"' :: (u ++ rest))) ∧
        y.taken = '"' :: key ∧ y.group 1 = key := by
    intro y hy hq
    obtain ⟨a, kw, b, r, ha, hkw, hb, h1, rfl⟩ := json_key_mem.1 hy
    simp only [adv_rest] at h1
    cases r with
    | nil => simp at hq
    | cons q r =>
      simp only [List.head?_cons, Option.some.injEq] at hq
      subst hq
      have h1' : key ++ '"' :: ':' :: (sp ++ '"' :: (val ++ '"' :: (u ++ rest))) =
          (a ++ (kw ++ b)) ++ '"' :: r := by rw [h1]; simp
      obtain ⟨e1, -, e2⟩ := span_unique h1' (ne_of_not_mem hk)
        (ne_of_not_mem (json_key_no_quote ha hkw hb)) (by decide) (by decide)
      refine ⟨by rw [← e2], ?_, ?_⟩
      · simp [Thread.adv, e1]
      · simp [Thread.group, List.lookup, e1]
  apply head?_flatMap_first
  · obtain ⟨a, kw, b, rfl, hkw, hb⟩ := sensitiveKey_iff.1 hs
    refine ⟨_, json_key_mem.2 ⟨a, kw, b, '"' :: ':' :: (sp ++ '"' :: (val ++ '"' :: (u ++ rest))),
      ?_, hkw, ?_, by simp [Thread.adv], rfl⟩, ?_⟩
    · exact ne_of_not_mem (fun h => hk (List.mem_append_left _ h))
    · intro c hc
      simp only [Bool.and_eq_true, bne_iff_ne, ne_eq]
      constructor
      · rintro rfl
        exact hk (List.mem_append_right _ (List.mem_append_right _ hc))
      · rintro rfl
        exact hb hc
    · intro hnil
      have h := congrArg List.head? hnil
      rw [json_tail_head _ sp val u rest ?_ hsp hval hu1 hu2 hrest] at h
      · simp at h
      · rfl
  · intro y hy hne
    have hq : y.rest.head? = some '"' := by
      obtain ⟨v, hv⟩ := List.exists_mem_of_ne_nil _ hne
      obtain ⟨sp', val', r', -, -, h2, -⟩ := json_tail_mem.1 hv
      rw [h2]; rfl
    obtain ⟨h1, h2, h3⟩ := key_of y hy hq
    refine ⟨_, json_tail_head y sp val u rest h1 hsp hval hu1 hu2 hrest, ?_, ?_, rfl, ?_⟩
    · simp [Thread.adv, lastOr_cons, lastOr_append]
    · simp [Thread.adv, h2]
    · simpa [Thread.adv, Thread.group] using h3



theorem span_at_last (x : Char) (s : List Char) :
    ∃ a u, s = a ++ u ∧ x ∉ u ∧ (a = [] ∨ ∃ a', a = a' ++ [x]) := by
  induction s with
  | nil => exact ⟨[], [], rfl, by simp, Or.inl rfl⟩
  | cons c cs ih =>
    obtain ⟨a, u, h1, h2, h3⟩ := ih
    rcases h3 with rfl | ⟨a', rfl⟩
    · by_cases hc : c = x
      · subst hc
        exact ⟨[c], u, by rw [h1]; rfl, h2, Or.inr ⟨[], rfl⟩⟩
      · refine ⟨[], c :: cs, rfl, ?_, Or.inl rfl⟩
        simp only [List.nil_append] at h1
        rw [h1]
        simp only [List.mem_cons, not_or]
        exact ⟨fun h => hc h.symm, h2⟩
    · exact ⟨c :: a' ++ [x], u, by rw [h1]; simp, h2, Or.inr ⟨c :: a', rfl⟩⟩

theorem not_mem_of_ne {x : Char} {l : List Char} (h : ∀ c ∈ l, (c != x) = true) : x ∉ l := by
  intro hm
  have := h x hm
  simp at this

/-- Every match of the JSON rule has the shape of `jsonRe_head`. -/
theorem jsonRe_head_inv {prev : Option Char} {s : List Char} {m : Thread}
    (h : matchAt jsonRe prev s = some m) :
    ∃ key sp val u rest, '"' ∉ key ∧ sensitiveKey key = true ∧ (∀ c ∈ sp, isSpace c = true) ∧
      ',' ∉ val ∧ ',' ∉ u ∧ '"' ∉ u ∧ (rest = [] ∨ ∃ r, rest = ',' :: r) ∧
      s = '"' :: (key ++ '"' :: ':' :: (sp ++ '"' :: (val ++ '"' :: (u ++ rest)))) ∧
      m.prev = some '"' ∧
      m.taken = '"' :: (key ++ '"' :: ':' :: (sp ++ '"' :: (val ++ ['"']))) ∧
      m.rest = u ++ rest ∧ m.group 1 = key := by
  have hm : m ∈ run jsonRe ⟨prev, [], s, []⟩ := List.mem_of_mem_head? (by rw [← matchAt, h]; rfl)
  obtain ⟨a, kw, b, sp, val0, r0, ha, hkw, hb, hsp, hval0, h1, -⟩ := jsonRe_mem.1 hm
  simp only at h1
  obtain ⟨c0, rest, e0, hc0, hrest⟩ := span_at_first ',' r0
  obtain ⟨c1, u, e1, hu2, hc1⟩ := span_at_last '"' c0
  have hkq := json_key_no_quote ha hkw hb
  have hb' : '_' ∉ b := by
    intro hmem
    have := hb _ hmem
    simp at this
  have hsk : sensitiveKey (a ++ (kw ++ b)) = true := sensitiveKey_iff.2 ⟨a, kw, b, rfl, hkw, hb'⟩
  have hu1 : ',' ∉ u := fun hx => hc0 (by rw [e1]; exact List.mem_append_right _ hx)
  have hv0 := not_mem_of_ne hval0
  have key : ∀ val, ',' ∉ val → val ++ '"' :: (u ++ rest) = val0 ++ '"' :: r0 →
      ∃ key sp val u rest, '"' ∉ key ∧ sensitiveKey key = true ∧
      (∀ c ∈ sp, isSpace c = true) ∧
      ',' ∉ val ∧ ',' ∉ u ∧ '"' ∉ u ∧ (rest = [] ∨ ∃ r, rest = ',' :: r) ∧
      s = '"' :: (key ++ '"' :: ':' :: (sp ++ '"' :: (val ++ '"' :: (u ++ rest)))) ∧
      m.prev = some '"' ∧
      m.taken = '"' :: (key ++ '"' :: ':' :: (sp ++ '"' :: (val ++ ['"']))) ∧
      m.rest = u ++ rest ∧ m.group 1 = key := by
    intro val hval e
    have hs : s = '"' :: ((a ++ (kw ++ b)) ++ '"' :: ':' :: (sp ++ '"' ::
        (val ++ '"' :: (u ++ rest)))) := by
      rw [h1, e]; simp
    obtain ⟨m', hm', p1, p2, p3, p4⟩ :=
      jsonRe_head prev (a ++ (kw ++ b)) sp val u rest hkq hsk hsp hval hu1 hu2 hrest
    rw [← hs, h] at hm'
    simp only [Option.some.injEq] at hm'
    subst hm'
    exact ⟨_, sp, val, u, rest, hkq, hsk, hsp, hval, hu1, hu2, hrest, hs, p1, p2, p3, p4⟩
  rcases hc1 with rfl | ⟨a', rfl⟩
  · apply key val0 hv0
    rw [e0, e1]; simp
  · apply key (val0 ++ '"' :: a')
    · simp only [List.mem_append, List.mem_cons, not_or]
      refine ⟨hv0, by decide, fun hx => hc0 ?_⟩
      rw [e1]
      simp [hx]
    · rw [e0, e1]; simp

/-- Whether the JSON rule matches at a position does not depend on the
character before it. -/
theorem jsonRe_prev (p q : Option Char) (s : List Char) :
    matchAt jsonRe p s = matchAt jsonRe q s := by
  rw [matchAt, matchAt, jsonRe, run_cat_def, run_cat_def]
  have e : run (.lit true "\"".toList) ⟨p, [], s, []⟩ = run (.lit true "\"".toList) ⟨q, [], s, []⟩ := by
    cases s with
    | nil => simp [run, runLit]
    | cons c cs => simp [run, runLit, Thread.step]
  rw [e]

theorem json_some_iff {p : Option Char} {s : List Char} :
    matchAt jsonRe p s ≠ none ↔
      ∃ key sp val r, '"' ∉ key ∧ sensitiveKey key = true ∧ (∀ c ∈ sp, isSpace c = true) ∧
        ',' ∉ val ∧ s = '"' :: (key ++ '"' :: ':' :: (sp ++ '"' :: (val ++ '"' :: r))) := by
  constructor
  · intro h
    cases hm : matchAt jsonRe p s with
    | none => exact absurd hm h
    | some m =>
      obtain ⟨key, sp, val, u, rest, h1, h2, h3, h4, -, -, -, h8, -⟩ := jsonRe_head_inv hm
      exact ⟨key, sp, val, u ++ rest, h1, h2, h3, h4, h8⟩
  · rintro ⟨key, sp, val, r, h1, h2, h3, h4, rfl⟩
    have := json_field_exists p r h1 h3 (ne_of_not_mem h4) h2
    intro hm
    rw [matchAt] at hm
    cases hr : run jsonRe ⟨p, [], '"' :: (key ++ '"' :: ':' :: (sp ++ '"' :: (val ++ '"' :: r))),
      []⟩ with
    | nil => exact this hr
    | cons x xs => rw [hr] at hm; simp at hm

theorem expand_json (m : Thread) :
    expand jsonRepl m =
      '"' :: (m.group 1 ++ '"' :: ':' :: '"' :: (privateDataPlaceholder ++ ['"'])) := by
  simp [expand, jsonRepl]

theorem resume_json_skip (u r : List Char) (hu : '"' ∉ u) (p : Option Char) :
    resume jsonRe jsonRepl p (u ++ r) = u ++ resume jsonRe jsonRepl (lastOr p u) r := by
  induction u generalizing p with
  | nil => rfl
  | cons c cs ih =>
    have hm : matchAt jsonRe p (c :: (cs ++ r)) = none := by
      cases hm : matchAt jsonRe p (c :: (cs ++ r)) with
      | none => rfl
      | some m =>
        obtain ⟨key, sp, val, u, rest, -, -, -, -, -, -, -, h8, -⟩ := jsonRe_head_inv hm
        simp only [List.cons.injEq] at h8
        exact absurd (h8.1 ▸ List.mem_cons_self _ _) hu
    rw [List.cons_append, resume_skip minLen_jsonRe jsonRepl hm,
      ih (fun h => hu (List.mem_cons_of_mem _ h)), lastOr_cons]
    rfl



theorem jsonKw_ne_nil {w kw : List Char} (hw : w ∈ jsonKeywords) (h : litOk true w kw) :
    kw ≠ [] := by
  rintro rfl
  have := litOk_length h
  simp only [jsonKeywords, List.mem_cons, List.mem_singleton, List.not_mem_nil, or_false] at hw
  rcases hw with rfl | rfl | rfl <;> simp at this

theorem jsonKw_not_colon_space {w kw : List Char} (hw : w ∈ jsonKeywords)
    (h : litOk true w kw) {c : Char} (hc : c ∈ kw) : c ≠ ':' ∧ isSpace c = false := by
  have hn : ∀ x : Char, (∀ w ∈ queryKeywords, ∀ l ∈ w, chMatch true l x = false) → c ≠ x := by
    intro x hx e
    exact kw_text_not_mem (jsonKeywords_sub hw) h x hx (e ▸ hc)
  refine ⟨hn ':' (by decide), ?_⟩
  cases hs : isSpace c with
  | false => rfl
  | true =>
    simp only [isSpace, Bool.or_eq_true, beq_iff_eq] at hs
    rcases hs with (((e | e) | e) | e) | e
    · exact absurd e (hn _ (by decide))
    · exact absurd e (hn _ (by decide))
    · exact absurd e (hn _ (by decide))
    · exact absurd e (hn _ (by decide))
    · exact absurd e (hn _ (by decide))

theorem space_no_quote {sp : List Char} (h : ∀ c ∈ sp, isSpace c = true) : '"' ∉ sp := by
  intro hm
  have := h _ hm
  exact absurd this (by decide)

/-- A sensitive key is not a colon followed by blanks. -/
theorem sensitiveKey_not_blank {key sp : List Char} (hs : sensitiveKey key = true)
    (hsp : ∀ c ∈ sp, isSpace c = true) : key ≠ ':' :: sp := by
  rintro rfl
  obtain ⟨a, kw, b, e, ⟨w, hw, hkw⟩, -⟩ := sensitiveKey_iff.1 hs
  cases hk : kw with
  | nil => exact jsonKw_ne_nil hw hkw hk
  | cons c cs =>
    have hc : c ∈ kw := by rw [hk]; exact List.mem_cons_self _ _
    obtain ⟨n1, n2⟩ := jsonKw_not_colon_space hw hkw hc
    have hmem : c ∈ ':' :: sp := by
      rw [e]
      exact List.mem_append_right _ (List.mem_append_left _ hc)
    rcases List.mem_cons.1 hmem with h | h
    · exact n1 h
    · rw [hsp c h] at n2
      exact absurd n2 (by simp)

/-- Where the JSON rule matches after the text behind a position has been
rewritten by the rule, it matched there before. -/
theorem json_some_resume (s : List Char) : ∀ (x : List Char) (p q : Option Char), x ≠ [] →
    matchAt jsonRe p (x ++ resume jsonRe jsonRepl q s) ≠ none →
    matchAt jsonRe p (x ++ s) ≠ none := by
  induction s with
  | nil =>
    intro x p q _ h
    rwa [resume_nil minLen_jsonRe] at h
  | cons c cs ih =>
    intro x p q hx h
    cases hm : matchAt jsonRe q (c :: cs) with
    | none =>
      rw [resume_skip minLen_jsonRe jsonRepl hm] at h
      have e : x ++ c :: resume jsonRe jsonRepl (some c) cs =
          (x ++ [c]) ++ resume jsonRe jsonRepl (some c) cs := by simp
      rw [e] at h
      have := ih (x ++ [c]) p (some c) (by simp) h
      simpa using this
    | some m =>
      obtain ⟨key1, sp1, val1, u1, rest1, k1, k2, k3, k4, k5, k6, k7, k8, k9, k10, k11, k12⟩ :=
        jsonRe_head_inv hm
      rw [resume_hit minLen_jsonRe jsonRepl hm, expand_json, k12] at h
      obtain ⟨key, sp, val, r, h1, h2, h3, h4, h5⟩ := json_some_iff.1 h
      rw [k8]
      cases x with
      | nil => exact absurd rfl hx
      | cons x0 xs =>
        obtain ⟨T, hT⟩ : ∃ T, T = resume jsonRe jsonRepl m.prev m.rest := ⟨_, rfl⟩
        rw [← hT] at h5
        have h5' : key ++ '"' :: (':' :: (sp ++ '"' :: (val ++ '"' :: r))) =
            xs ++ '"' :: (key1 ++ '"' :: (':' :: '"' :: (privateDataPlaceholder ++ '"' :: T)))
              ∧ x0 = '"' := by
          simp only [List.cons_append, List.cons.injEq, List.append_assoc] at h5
          exact ⟨by rw [← h5.2]; simp, h5.1⟩
        obtain ⟨g5, rfl⟩ := h5'
        rcases first_occurrence g5 h1 with ⟨e1, e2⟩ | ⟨y, e1, e2⟩
        · exfalso
          have e2' : key1 ++ '"' :: (':' :: '"' :: (privateDataPlaceholder ++ '"' :: T)) =
              (':' :: sp) ++ '"' :: (val ++ '"' :: r) := by rw [e2]; simp
          obtain ⟨e3, -, -⟩ := span_unique e2' (ne_of_not_mem k1)
            (ne_of_not_mem (by
              simp only [List.mem_cons, not_or]
              exact ⟨by decide, space_no_quote h3⟩)) (by decide) (by decide)
          exact sensitiveKey_not_blank k2 h3 e3
        · have e2' : (':' :: sp) ++ '"' :: (val ++ '"' :: r) =
              y ++ '"' :: (key1 ++ '"' :: (':' :: '"' :: (privateDataPlaceholder ++ '"' :: T))) := by
            rw [← e2]; simp
          have hq : '"' ∉ ':' :: sp := by
            simp only [List.mem_cons, not_or]
            exact ⟨by decide, space_no_quote h3⟩
          rcases first_occurrence e2' hq with ⟨e3, e4⟩ | ⟨y2, e3, e4⟩
          · obtain ⟨r1, hr1⟩ := prefix_of_no_sep e4.symm k1
            have hc : ',' ∉ key1 := fun hx => h4 (by rw [hr1]; exact List.mem_append_left _ hx)
            apply json_some_iff.2
            refine ⟨key, sp, key1, ':' :: (sp1 ++ '"' :: (val1 ++ '"' :: (u1 ++ rest1))),
              h1, h2, h3, hc, ?_⟩
            rw [e1, e3]; simp
          · rcases List.append_eq_append_iff.1 e4 with ⟨a', f1, f2⟩ | ⟨c', f1, f2⟩
            · apply json_some_iff.2
              cases a' with
              | nil =>
                refine ⟨key, sp, val, key1 ++ '"' :: ':' ::
                  (sp1 ++ '"' :: (val1 ++ '"' :: (u1 ++ rest1))), h1, h2, h3, h4, ?_⟩
                rw [e1, e3, f1]
                simp
              | cons d ds =>
                refine ⟨key, sp, val, ds ++ '"' :: (key1 ++ '"' :: ':' ::
                  (sp1 ++ '"' :: (val1 ++ '"' :: (u1 ++ rest1)))), h1, h2, h3, h4, ?_⟩
                simp only [List.cons_append, List.cons.injEq] at f2
                rw [e1, e3, f1, ← f2.1]
                simp
            · apply json_some_iff.2
              refine ⟨key, sp, y2, key1 ++ '"' :: ':' ::
                (sp1 ++ '"' :: (val1 ++ '"' :: (u1 ++ rest1))), h1, h2, h3, ?_, ?_⟩
              · exact fun hx => h4 (by rw [f1]; exact List.mem_append_left _ hx)
              · rw [e1, e3]; simp



/-- The JSON rule changes nothing in its own output. -/
theorem jsonRe_idem : ∀ (n : Nat) (s : List Char) (p : Option Char), s.length ≤ n →
    resume jsonRe jsonRepl p (resume jsonRe jsonRepl p s) = resume jsonRe jsonRepl p s := by
  intro n
  induction n with
  | zero =>
    intro s p hn
    have : s = [] := List.eq_nil_of_length_eq_zero (by omega)
    subst this
    rw [resume_nil minLen_jsonRe, resume_nil minLen_jsonRe]
  | succ n ih =>
    intro s p hn
    cases s with
    | nil => rw [resume_nil minLen_jsonRe, resume_nil minLen_jsonRe]
    | cons c cs =>
      cases hm : matchAt jsonRe p (c :: cs) with
      | none =>
        rw [resume_skip minLen_jsonRe jsonRepl hm]
        have hm' : matchAt jsonRe p (c :: resume jsonRe jsonRepl (some c) cs) = none := by
          by_contra hne
          exact json_some_resume cs [c] p (some c) (by simp) hne hm
        rw [resume_skip minLen_jsonRe jsonRepl hm', ih cs (some c) (by simpa using hn)]
      | some m =>
        obtain ⟨key, sp, val, u, rest, k1, k2, k3, k4, k5, k6, k7, k8, k9, k10, k11, k12⟩ :=
          jsonRe_head_inv hm
        rw [resume_hit minLen_jsonRe jsonRepl hm, expand_json, k12, k11, k9]
        have hT : ∃ rest', (rest' = [] ∨ ∃ r, rest' = ',' :: r) ∧
            resume jsonRe jsonRepl (some '"') (u ++ rest) = u ++ rest' := by
          rw [resume_json_skip u rest k6]
          rcases k7 with rfl | ⟨r, rfl⟩
          · exact ⟨[], Or.inl rfl, by rw [resume_nil minLen_jsonRe]⟩
          · have hn2 : matchAt jsonRe (lastOr (some '"') u) (',' :: r) = none := by
              cases hm2 : matchAt jsonRe (lastOr (some '"') u) (',' :: r) with
              | none => rfl
              | some m2 =>
                have := jsonRe_quote hm2
                simp at this
            exact ⟨',' :: resume jsonRe jsonRepl (some ',') r, Or.inr ⟨_, rfl⟩,
              by rw [resume_skip minLen_jsonRe jsonRepl hn2]⟩
        obtain ⟨rest', hr', hT⟩ := hT
        have hlen : (u ++ rest).length ≤ n := by
          have := congrArg List.length k8
          simp only [List.length_cons, List.length_append] at this hn ⊢
          omega
        have hI := ih (u ++ rest) (some '"') hlen
        rw [hT] at hI ⊢
        obtain ⟨m', hm', p1, p2, p3, p4⟩ := jsonRe_head p key [] privateDataPlaceholder u rest'
          k1 k2 (by simp) (by decide) k5 k6 hr'
        have e : '"' :: (key ++ '"' :: ':' :: '"' :: (privateDataPlaceholder ++ ['"'])) ++
            (u ++ rest') =
            '"' :: (key ++ '"' :: ':' :: ([] ++ '"' :: (privateDataPlaceholder ++ '"' ::
              (u ++ rest')))) := by simp
        rw [e, resume_hit minLen_jsonRe jsonRepl hm', expand_json, p4, p3, p1, hI]
        exact e



/-! ### One replacement inside a text -/

/-- Where a piece of text lies in `a ++ e ++ W`: in `W`, from a position
inside `e`, or from a position inside `a`. -/
theorem splice_cases {a e W pre X : List Char} (h : a ++ (e ++ W) = pre ++ X) :
    (∃ b, pre = a ++ (e ++ b) ∧ W = b ++ X) ∨
    (∃ e1 e2, e = e1 ++ e2 ∧ e2 ≠ [] ∧ pre = a ++ e1 ∧ X = e2 ++ W) ∨
    (∃ c', c' ≠ [] ∧ a = pre ++ c' ∧ X = c' ++ (e ++ W)) := by
  rcases List.append_eq_append_iff.1 h with ⟨a', h1, h2⟩ | ⟨c', h1, h2⟩
  · rcases List.append_eq_append_iff.1 h2 with ⟨b, g1, g2⟩ | ⟨e2, g1, g2⟩
    · exact Or.inl ⟨b, by rw [h1, g1], g2⟩
    · by_cases he : e2 = []
      · subst he
        refine Or.inl ⟨[], ?_, ?_⟩
        · rw [h1, g1]; simp
        · simpa using g2.symm
      · exact Or.inr (Or.inl ⟨a', e2, g1, he, h1, g2⟩)
  · by_cases hc : c' = []
    · subst hc
      by_cases he : e = []
      · subst he
        refine Or.inl ⟨[], by simpa using h1.symm, by simpa using h2.symm⟩
      · exact Or.inr (Or.inl ⟨[], e, rfl, he, by simpa using h1.symm, by simpa using h2⟩)
    · exact Or.inr (Or.inr ⟨c', hc, h1, h2⟩)

/-- A value that is followed by the text `X`, and that together with `X`
begins with the placeholder followed by a separator or the end, begins with
the placeholder and a separator itself, when `X` cannot begin inside the
placeholder. -/
theorem after_placeholder {q : Char} {y X r' : List Char}
    (hX : ∀ pre z r, privateDataPlaceholder = pre ++ z → z ≠ [] → z ++ r ≠ X)
    (hX0 : X ≠ []) (hXs : X.head? ≠ some q)
    (h : y ++ X = privateDataPlaceholder ++ r') (hr' : r' = [] ∨ ∃ r'', r' = q :: r'') :
    ∃ z, y = privateDataPlaceholder ++ q :: z := by
  have hXr : X ≠ r' := by
    rintro rfl
    rcases hr' with rfl | ⟨r'', rfl⟩
    · exact hX0 rfl
    · exact hXs rfl
  rcases List.append_eq_append_iff.1 h with ⟨a', h1, h2⟩ | ⟨c', h1, h2⟩
  · cases a' with
    | nil => exact absurd (by simpa using h2) hXr
    | cons d ds => exact absurd h2.symm (hX y (d :: ds) r' h1 (by simp))
  · cases c' with
    | nil => exact absurd (by simpa using h2.symm) hXr
    | cons d ds =>
      rcases hr' with rfl | ⟨r'', rfl⟩
      · simp at h2
      · simp only [List.cons_append, List.cons.injEq] at h2
        exact ⟨ds, by rw [h1, h2.1]⟩

theorem placeholder_no_head {q : Char} (hq : q ∉ privateDataPlaceholder) (X : List Char) :
    ∀ pre z r, privateDataPlaceholder = pre ++ z → z ≠ [] → z ++ r ≠ q :: X := by
  intro pre z r h hz e
  cases z with
  | nil => exact hz rfl
  | cons d ds =>
    simp only [List.cons_append, List.cons.injEq] at e
    exact hq (by rw [h, e.1]; simp)

theorem placeholder_no_kw {kw : List Char} (hk : kw.map foldKey ∈ queryKeywords)
    (X : List Char) :
    ∀ pre z r, privateDataPlaceholder = pre ++ z → z ≠ [] → z ++ r ≠ kw ++ X := by
  intro pre z r h hz
  have hx : z <:+ privateDataPlaceholder := ⟨pre, h.symm⟩
  have : ∀ x ∈ privateDataPlaceholder.tails, x = [] ∨ noKwStart x = true := by decide
  rcases this z ((List.mem_tails _ _).2 hx) with h0 | h0
  · exact absurd h0 hz
  · exact noKwStart_spec h0 r kw X hk

theorem headerName_nonspace {name : List Char} (h : HeaderName name) :
    ∀ c ∈ name, (!isSpace c) = true := by
  rcases h with rfl | ⟨k, rfl, hk⟩
  · decide
  · intro c hc
    rcases List.mem_append.1 hc with hc | hc
    · have : ∀ c ∈ "X-Auth".toList, (!isSpace c) = true := by decide
      exact this c hc
    · exact hk c hc

/-- The `: ` that ends a header name does not end in a text whose first
white space follows a character that is no colon. -/
theorem header_sep_inside {name c' y' r B1 B2 : List Char} {x e : Char} (hn : HeaderName name)
    (hx1 : x ≠ ' ') (hx2 : x ≠ ':') (he : e ≠ ':') (hB1 : ∀ c ∈ B1, (!isSpace c) = true)
    (hes : (!isSpace e) = true)
    (h1 : name ++ [':', ' '] = c' ++ x :: y') (h2 : B1 ++ e :: ' ' :: B2 = y' ++ r) : False := by
  rcases List.eq_nil_or_concat y' with rfl | ⟨y0, l, rfl⟩
  · have e1 : (name ++ [':']) ++ [' '] = c' ++ [x] := by rw [← h1]; simp
    have := (List.append_inj' e1 rfl).2
    simp only [List.cons.injEq, and_true] at this
    exact hx1 this.symm
  · rw [List.concat_eq_append] at h1 h2
    have e1 : (name ++ [':']) ++ [' '] = (c' ++ x :: y0) ++ [l] := by
      simp only [List.append_assoc, List.cons_append, List.nil_append]
      exact h1
    obtain ⟨e2, e3⟩ := List.append_inj' e1 rfl
    simp only [List.cons.injEq, and_true] at e3
    subst e3
    rcases List.eq_nil_or_concat y0 with rfl | ⟨y1, l2, rfl⟩
    · have := (List.append_inj' e2 rfl).2
      simp only [List.cons.injEq, and_true] at this
      exact hx2 this.symm
    · rw [List.concat_eq_append] at e2 h2
      have e4 : name ++ [':'] = (c' ++ x :: y1) ++ [l2] := by rw [e2]; simp
      obtain ⟨e5, e6⟩ := List.append_inj' e4 rfl
      simp only [List.cons.injEq, and_true] at e6
      subst e6
      have h2' : (B1 ++ [e]) ++ ' ' :: B2 = (y1 ++ [':']) ++ ' ' :: r := by
        simp only [List.append_assoc, List.cons_append, List.nil_append] at h2 ⊢
        exact h2
      have hy1 : ∀ c ∈ y1 ++ [':'], (fun c => !isSpace c) c = true := by
        intro c hc
        rcases List.mem_append.1 hc with hc | hc
        · exact headerName_nonspace hn c (by rw [e5]; simp [hc])
        · simp only [List.mem_singleton] at hc
          subst hc
          decide
      have hB : ∀ c ∈ B1 ++ [e], (fun c => !isSpace c) c = true := by
        intro c hc
        rcases List.mem_append.1 hc with hc | hc
        · exact hB1 c hc
        · simp only [List.mem_singleton] at hc
          subst hc
          exact hes
      obtain ⟨e7, -, -⟩ := span_unique h2' hB hy1 (by decide) (by decide)
      have := (List.append_inj' e7 rfl).2
      simp only [List.cons.injEq, and_true] at this
      exact he this



theorem json_repl_tails :
    ∀ x ∈ ('"' :: ':' :: '"' :: (privateDataPlaceholder ++ ['"'])).tails,
      x = [] ∨ noKwStart x = true := by
  decide

theorem kw_eq_no_quote {kw : List Char} (hk : kw.map foldKey ∈ queryKeywords) :
    '"' ∉ kw ++ ['='] := by
  simp only [List.mem_append, List.mem_singleton, not_or]
  exact ⟨kwText_not_mem hk '"' (by decide), by decide⟩

/-- One replacement of the JSON rule keeps the invariant of the query rule. -/
theorem QClean_json_step (a s : List Char) (m : Thread) (hm : matchAt jsonRe none s = some m)
    (hG : QClean (a ++ s)) : QClean (a ++ (expand jsonRepl m ++ m.rest)) := by
  obtain ⟨key, sp, val, u, rest, k1, k2, k3, k4, k5, k6, k7, k8, k9, k10, k11, k12⟩ :=
    jsonRe_head_inv hm
  rw [expand_json, k12, k11]
  subst k8
  intro pre kw r hk hN
  have hq := kw_eq_no_quote hk
  have hN' : (a ++ '"' :: key) ++ (('"' :: ':' :: '"' :: (privateDataPlaceholder ++ ['"'])) ++
      (u ++ rest)) = pre ++ (kw ++ '=' :: r) := by
    rw [← hN]; simp
  rcases splice_cases hN' with ⟨b, g1, g2⟩ | ⟨e1, e2, g1, g2, g3, g4⟩ | ⟨c', g1, g2, g3⟩
  · exact hG (a ++ '"' :: (key ++ '"' :: ':' :: (sp ++ '"' :: (val ++ '"' :: b)))) kw r hk
      (by rw [g2]; simp)
  · exfalso
    have hx : e2 <:+ '"' :: ':' :: '"' :: (privateDataPlaceholder ++ ['"']) := ⟨e1, g1.symm⟩
    rcases json_repl_tails e2 ((List.mem_tails _ _).2 hx) with h0 | h0
    · exact g2 h0
    · exact noKwStart_spec h0 (u ++ rest) kw ('=' :: r) hk g4.symm
  · have g3' : c' ++ '"' :: (':' :: '"' :: (privateDataPlaceholder ++ '"' :: (u ++ rest))) =
        (kw ++ ['=']) ++ r := by
      have : (kw ++ ['=']) ++ r = kw ++ '=' :: r := by simp
      rw [this, g3]; simp
    obtain ⟨r1, hr1⟩ := prefix_of_no_sep g3' hq
    have hr : r = r1 ++ '"' :: (':' :: '"' :: (privateDataPlaceholder ++ '"' :: (u ++ rest))) := by
      rw [hr1, List.append_assoc] at g3'
      exact (List.append_cancel_left g3').symm
    obtain ⟨r', hO1, hO2⟩ := hG pre kw
      (r1 ++ ('"' :: ':' :: (sp ++ '"' :: (val ++ '"' :: (u ++ rest))))) hk (by
        have e : a ++ '"' :: (key ++ '"' :: ':' :: (sp ++ '"' :: (val ++ '"' :: (u ++ rest)))) =
            (a ++ '"' :: key) ++ '"' :: ':' :: (sp ++ '"' :: (val ++ '"' :: (u ++ rest))) := by
          simp
        rw [e, g2, hr1]; simp)
    obtain ⟨z, hz⟩ := after_placeholder (q := '&') (placeholder_no_head (by decide) _)
      (by simp) (by simp) hO1 hO2
    exact ⟨'&' :: (z ++ '"' :: (':' :: '"' :: (privateDataPlaceholder ++ '"' :: (u ++ rest)))),
      by rw [hr, hz]; simp, Or.inr ⟨_, rfl⟩⟩



theorem not_linestart (p : Option Char) {l : List Char} (hl : l ≠ []) (hnl : '\n' ∉ l) :
    ¬(lastOr p l = none ∨ lastOr p l = some '\n') := by
  rcases List.eq_nil_or_concat l with rfl | ⟨l0, x, rfl⟩
  · exact absurd rfl hl
  · rw [List.concat_eq_append, lastOr_concat]
    rintro (h | h)
    · exact absurd h (by simp)
    · simp only [Option.some.injEq] at h
      subst h
      exact hnl (by simp)

/-- A header line that begins before a double quote after which the text is
changed to `:"[PRIVATE DATA HIDDEN]"`: its value ends before that quote. -/
theorem header_before_quote {name F O W r : List Char} (hn : HeaderName name)
    (hO : ∀ rO, F ++ ('"' :: O) = name ++ ':' :: ' ' :: rO →
      ∃ r', rO = privateDataPlaceholder ++ r' ∧ (r' = [] ∨ ∃ r'', r' = '\n' :: r''))
    (hN : F ++ ('"' :: ':' :: '"' :: (privateDataPlaceholder ++ '"' :: W)) =
      name ++ ':' :: ' ' :: r) :
    ∃ r', r = privateDataPlaceholder ++ r' ∧ (r' = [] ∨ ∃ r'', r' = '\n' :: r'') := by
  have hN' : (name ++ [':', ' ']) ++ r =
      F ++ ('"' :: ':' :: '"' :: (privateDataPlaceholder ++ '"' :: W)) := by
    rw [hN]; simp
  have key : ∀ a', F = (name ++ [':', ' ']) ++ a' →
      r = a' ++ ('"' :: ':' :: '"' :: (privateDataPlaceholder ++ '"' :: W)) →
      ∃ r', r = privateDataPlaceholder ++ r' ∧ (r' = [] ∨ ∃ r'', r' = '\n' :: r'') := by
    intro a' h1 h2
    obtain ⟨r', hr1, hr2⟩ := hO (a' ++ '"' :: O) (by rw [h1]; simp)
    obtain ⟨z, hz⟩ := after_placeholder (q := '\n') (placeholder_no_head (by decide) _)
      (by simp) (by simp) hr1 hr2
    exact ⟨'\n' :: (z ++ ('"' :: ':' :: '"' :: (privateDataPlaceholder ++ '"' :: W))),
      by rw [h2, hz]; simp, Or.inr ⟨_, rfl⟩⟩
  rcases List.append_eq_append_iff.1 hN' with ⟨a', h1, h2⟩ | ⟨c', h1, h2⟩
  · exact key a' h1 h2
  · cases c' with
    | nil => exact key [] (by simpa using h1.symm) (by simpa using h2.symm)
    | cons d ds =>
      exfalso
      simp only [List.cons_append, List.cons.injEq] at h2
      obtain ⟨rfl, h2⟩ := h2
      have h2' : ":\"[PRIVAT".toList ++ 'E' :: ' ' :: ("DATA HIDDEN]".toList ++ '"' :: W) =
          ds ++ r := by
        rw [← h2]; rfl
      exact header_sep_inside hn (by decide) (by decide) (by decide) (by decide) (by decide)
        h1 h2'

/-- One replacement of the JSON rule keeps the invariant of the header rule. -/
theorem HClean_json_step (a s : List Char) (m : Thread) (hm : matchAt jsonRe none s = some m)
    (hG : HCleanAt none (a ++ s)) : HCleanAt none (a ++ (expand jsonRepl m ++ m.rest)) := by
  obtain ⟨key, sp, val, u, rest, k1, k2, k3, k4, k5, k6, k7, k8, k9, k10, k11, k12⟩ :=
    jsonRe_head_inv hm
  rw [expand_json, k12, k11]
  subst k8
  intro pre name r hp hn hN
  have hN' : (a ++ '"' :: key) ++ (('"' :: ':' :: '"' :: (privateDataPlaceholder ++ ['"'])) ++
      (u ++ rest)) = pre ++ (name ++ ':' :: ' ' :: r) := by
    rw [← hN]; simp
  have hQ : '\n' ∉ '"' :: ':' :: '"' :: (privateDataPlaceholder ++ ['"']) := by decide
  rcases List.append_eq_append_iff.1 hN' with ⟨b, g1, g2⟩ | ⟨F, g1, g2⟩
  · rcases List.append_eq_append_iff.1 g2 with ⟨b2, f1, f2⟩ | ⟨c, f1, f2⟩
    · by_cases hb : b2 = []
      · exfalso
        subst hb
        rw [g1, f1, List.append_nil, lastOr_append] at hp
        exact not_linestart _ (by simp) hQ hp
      · apply hG (a ++ ('"' :: (key ++ '"' :: ':' :: (sp ++ '"' :: (val ++ ['"']))) ++ b2))
          name r ?_ hn (by rw [f2]; simp)
        rw [g1, f1, ← List.append_assoc, lastOr_append] at hp
        rw [← List.append_assoc, lastOr_append]
        rw [lastOr_of_ne_nil _ (lastOr none
          ((a ++ '"' :: key) ++ '"' :: ':' :: '"' :: (privateDataPlaceholder ++ ['"']))) hb]
        exact hp
    · exfalso
      cases b with
      | nil =>
        simp only [List.nil_append] at f1
        obtain ⟨x, xs, hx, hx2⟩ := headerName_ne_nil hn
        rw [← f1, hx] at f2
        simp only [List.cons_append, List.cons.injEq] at f2
        rcases hx2 with rfl | rfl
        · exact absurd f2.1 (by decide)
        · exact absurd f2.1 (by decide)
      | cons d ds =>
        rw [g1, lastOr_append] at hp
        refine not_linestart _ (by simp) (fun hmem => hQ ?_) hp
        rw [f1]
        exact List.mem_append_left _ hmem
  · apply header_before_quote hn (F := F)
      (O := ':' :: (sp ++ '"' :: (val ++ '"' :: (u ++ rest)))) (W := u ++ rest)
    · intro rO h
      apply hG pre name rO hp hn
      have e : a ++ '"' :: (key ++ '"' :: ':' :: (sp ++ '"' :: (val ++ '"' :: (u ++ rest)))) =
          (a ++ '"' :: key) ++ '"' :: ':' :: (sp ++ '"' :: (val ++ '"' :: (u ++ rest))) := by
        simp
      rw [e, g1, List.append_assoc, h]
    · rw [g2]; simp



theorem kwText_plain {kw : List Char} (hk : kw.map foldKey ∈ queryKeywords) :
    ∀ c ∈ kw, c ≠ ':' ∧ (!isSpace c) = true := by
  intro c hc
  have hn : ∀ x : Char, (∀ w ∈ queryKeywords, foldKey x ∉ w) → c ≠ x := by
    intro x hx e
    exact kwText_not_mem hk x hx (e ▸ hc)
  refine ⟨hn ':' (by decide), ?_⟩
  cases hs : isSpace c with
  | false => rfl
  | true =>
    simp only [isSpace, Bool.or_eq_true, beq_iff_eq] at hs
    rcases hs with (((e | e) | e) | e) | e
    · exact absurd e (hn _ (by decide))
    · exact absurd e (hn _ (by decide))
    · exact absurd e (hn _ (by decide))
    · exact absurd e (hn _ (by decide))
    · exact absurd e (hn _ (by decide))

/-- A header line that begins before a keyword after which the text is
changed to `=[PRIVATE DATA HIDDEN]`: its value ends before that keyword. -/
theorem header_before_kw {name F kw O W r : List Char} (hn : HeaderName name)
    (hk : kw.map foldKey ∈ queryKeywords)
    (hO : ∀ rO, F ++ (kw ++ O) = name ++ ':' :: ' ' :: rO →
      ∃ r', rO = privateDataPlaceholder ++ r' ∧ (r' = [] ∨ ∃ r'', r' = '\n' :: r''))
    (hN : F ++ (kw ++ '=' :: (privateDataPlaceholder ++ W)) = name ++ ':' :: ' ' :: r) :
    ∃ r', r = privateDataPlaceholder ++ r' ∧ (r' = [] ∨ ∃ r'', r' = '\n' :: r'') := by
  have hN' : (name ++ [':', ' ']) ++ r = F ++ (kw ++ '=' :: (privateDataPlaceholder ++ W)) := by
    rw [hN]; simp
  obtain ⟨x, kw', hkw⟩ : ∃ x kw', kw = x :: kw' := by
    cases hkw : kw with
    | nil => exact absurd hkw (kwText_ne_nil hk)
    | cons x kw' => exact ⟨x, kw', rfl⟩
  have hpl := kwText_plain hk
  have hx := hpl x (by rw [hkw]; exact List.mem_cons_self _ _)
  have key : ∀ a', F = (name ++ [':', ' ']) ++ a' →
      r = a' ++ (kw ++ '=' :: (privateDataPlaceholder ++ W)) →
      ∃ r', r = privateDataPlaceholder ++ r' ∧ (r' = [] ∨ ∃ r'', r' = '\n' :: r'') := by
    intro a' h1 h2
    obtain ⟨r', hr1, hr2⟩ := hO (a' ++ (kw ++ O)) (by rw [h1]; simp)
    obtain ⟨z, hz⟩ := after_placeholder (q := '\n') (placeholder_no_kw hk O)
      (by rw [hkw]; simp) (by
        rw [hkw]
        simp only [List.cons_append, List.head?_cons, ne_eq, Option.some.injEq]
        rintro rfl
        exact absurd hx.2 (by decide)) hr1 hr2
    exact ⟨'\n' :: (z ++ (kw ++ '=' :: (privateDataPlaceholder ++ W))),
      by rw [h2, hz]; simp, Or.inr ⟨_, rfl⟩⟩
  rcases List.append_eq_append_iff.1 hN' with ⟨a', h1, h2⟩ | ⟨c', h1, h2⟩
  · exact key a' h1 h2
  · cases c' with
    | nil => exact key [] (by simpa using h1.symm) (by simpa using h2.symm)
    | cons d ds =>
      exfalso
      rw [hkw] at h2
      simp only [List.cons_append, List.cons.injEq] at h2
      obtain ⟨rfl, h2⟩ := h2
      have h2' : (kw' ++ "=[PRIVAT".toList) ++ 'E' :: ' ' :: ("DATA HIDDEN]".toList ++ W) =
          ds ++ r := by
        rw [← h2, List.append_assoc]; rfl
      refine header_sep_inside hn ?_ hx.1 (by decide) ?_ (by decide) h1 h2'
      · rintro rfl
        exact absurd hx.2 (by decide)
      · intro c hc
        rcases List.mem_append.1 hc with hc | hc
        · exact (hpl c (by rw [hkw]; exact List.mem_cons_of_mem _ hc)).2
        · have : ∀ c ∈ "=[PRIVAT".toList, (!isSpace c) = true := by decide
          exact this c hc

/-- One replacement of the query rule keeps the invariant of the header rule. -/
theorem HClean_query_step (a s : List Char) (m : Thread) (hm : matchAt queryRe none s = some m)
    (hG : HCleanAt none (a ++ s)) : HCleanAt none (a ++ (expand queryRepl m ++ m.rest)) := by
  obtain ⟨kw, v, d, r0, hk, hv, hd, rfl, rfl⟩ := queryRe_match_inv hm
  rw [expand_query]
  simp only
  intro pre name r hp hn hN
  have hpl := kwText_plain hk
  have he : '\n' ∉ kw ++ '=' :: (privateDataPlaceholder ++ d) := by
    simp only [List.mem_append, List.mem_cons, not_or]
    refine ⟨fun h => absurd (hpl _ h).2 (by decide), by decide, by decide, ?_⟩
    rcases hd with rfl | ⟨rfl, -⟩ <;> simp
  rcases List.append_eq_append_iff.1 hN with ⟨b, g1, g2⟩ | ⟨F, g1, g2⟩
  · by_cases hb0 : b = []
    · subst hb0
      apply header_before_kw hn hk (F := []) (O := '=' :: (v ++ (d ++ r0))) (W := d ++ r0)
      · intro rO h
        apply hG pre name rO hp hn
        rw [g1, List.append_nil]
        exact congrArg (a ++ ·) h
      · simp only [List.nil_append] at g2 ⊢
        rw [← g2]; simp
    · rcases List.append_eq_append_iff.1 g2 with ⟨b2, f1, f2⟩ | ⟨c, f1, f2⟩
      · by_cases hb : b2 = []
        · exfalso
          subst hb
          rcases hd with rfl | ⟨rfl, rfl⟩
          · rw [g1, f1, List.append_nil, lastOr_append] at hp
            have e : kw ++ '=' :: (privateDataPlaceholder ++ ['&']) =
                (kw ++ '=' :: privateDataPlaceholder) ++ ['&'] := by simp
            rw [e, lastOr_concat] at hp
            rcases hp with hp | hp
            · exact absurd hp (by simp)
            · exact absurd hp (by decide)
          · have := congrArg List.length f2
            simp only [List.length_nil, List.length_append, List.length_cons] at this
            omega
        · apply hG (a ++ ((kw ++ '=' :: (v ++ d)) ++ b2)) name r ?_ hn (by rw [f2]; simp)
          rw [g1, f1, ← List.append_assoc, lastOr_append] at hp
          rw [← List.append_assoc, lastOr_append]
          rw [lastOr_of_ne_nil _ (lastOr none
            (a ++ (kw ++ '=' :: (privateDataPlaceholder ++ d)))) hb]
          exact hp
      · exfalso
        rw [g1, lastOr_append] at hp
        refine not_linestart _ hb0 (fun hmem => he ?_) hp
        rw [f1]
        exact List.mem_append_left _ hmem
  · apply header_before_kw hn hk (F := F) (O := '=' :: (v ++ (d ++ r0))) (W := d ++ r0)
    · intro rO h
      apply hG pre name rO hp hn
      rw [g1, List.append_assoc, h]
    · rw [g2]; simp



/-- C1: applying `Sanitize` to its own output changes nothing: for every
text, sanitizing twice gives the same result as sanitizing once. -/
theorem Sanitize_idempotent (input : List Char) :
    Sanitize (Sanitize input) = Sanitize input := by
  have h1 : HCleanAt none (resume headerRe headerRepl none input) :=
    HClean_resume _ input none (Nat.le_refl _)
  have h2 : HCleanAt none
      (resume queryRe queryRepl none (resume headerRe headerRepl none input)) :=
    preserve_resume minLen_queryRe queryRepl queryRe_prev (HCleanAt none) HClean_query_step
      _ [] _ none (Nat.le_refl _) h1
  have q2 : QClean (resume queryRe queryRepl none (resume headerRe headerRepl none input)) :=
    QClean_resume _ _ none (Nat.le_refl _)
  have h3 : HCleanAt none (Sanitize input) := by
    rw [Sanitize_eq]
    exact preserve_resume minLen_jsonRe jsonRepl jsonRe_prev (HCleanAt none) HClean_json_step
      _ [] _ none (Nat.le_refl _) h2
  have q3 : QClean (Sanitize input) := by
    rw [Sanitize_eq]
    exact preserve_resume minLen_jsonRe jsonRepl jsonRe_prev QClean QClean_json_step
      _ [] _ none (Nat.le_refl _) q2
  have j3 : resume jsonRe jsonRepl none (Sanitize input) = Sanitize input := by
    rw [Sanitize_eq]
    exact jsonRe_idem _ _ none (Nat.le_refl _)
  rw [Sanitize_eq (Sanitize input), HClean_fixed _ none h3, QClean_fixed _ q3 none, j3]

end Trace
